import Mathlib

/-!
# Block forging core of RDO_v2: a shallow embedding

Source files embedded here:

* `blockchain/consensus/miner/miner.go` (the forger: reward, fee and collapse
  synthesis, `ForgeBlock`, `FinalizeBlock`).
* `blockchain/consensus/validator/stake_validator.go` (the slot registry
  `ValidatorGerm`).
* `blockchain/core/lansrv/service.go` (of the local-network service: `validateTx`,
  `processBlock`, `restoreInputs`).

Conventions.

* `uint64` values are natural numbers; every `uint64` addition of the source is
  written with an explicit `% 2 ^ 64`.
* Go `int` values (sizes, counters) are integers or naturals; they are far from
  the 64-bit range in the source (byte sizes, slice lengths) and are not reduced.
* An address is identified with the number its 20 bytes encode.  `Hex()` is the
  canonical text of an address and `HexToAddress` its inverse on canonical text,
  so a Go map keyed by hex strings is a map keyed by addresses.
* Collaborators (pool, block store, stake pool, UTXO index) are fields of `Env`.
  Collaborators with effects record each call in `Miner.calls`, and answer as a
  function of the calls recorded so far.
-/

/-- The modulus of `uint64` arithmetic. -/
def U64 : Nat := 2 ^ 64

/-- Address of an account: the number encoded by its 20 bytes. -/
abbrev Address := Nat

/-- Modelled from the spec: `common.BlackHoleAddress` is not in src; the spec
calls it the distinguished sink address for burn and fee flows.  It is taken
to be the all-zero address; no proof depends on its value. -/
def BlackHoleAddress : Address := 0

/-- Modelled from the spec: the `common.*TxType` constants are not in src; the
spec enumerates the transaction types. -/
inductive TxType
  | Normal
  | Stake
  | Unstake
  | Reward
  | Fee
  | Collapse
  | Genesis
  deriving DecidableEq, Repr

/-- The message `prototype.TxInput` (signature omitted: never read here). -/
structure TxInput where
  hash : Nat
  index : Nat
  address : Address
  amount : Nat
  deriving DecidableEq, Repr

/-- The message `prototype.TxOutput`; `node` is `none` for a nil node. -/
structure TxOutput where
  address : Address
  amount : Nat
  node : Option Address
  deriving DecidableEq, Repr

/-- Modelled from the spec: `types.UTxO` is not in src; the spec gives a UTXO as
the producing hash and index, the owner `To`, and the amount (the fields the
forger reads). -/
structure UTxO where
  hash : Nat
  index : Nat
  To : Address
  amount : Nat
  deriving DecidableEq, Repr

/-- The message `prototype.Transaction`, restricted to the fields the forger
reads or writes (timestamp, data and signature are never read). -/
structure Transaction where
  num : Nat
  txType : TxType
  hash : Nat
  fee : Nat
  inputs : List TxInput
  outputs : List TxOutput
  deriving DecidableEq, Repr

/-- The record `types.TxOptions` handed to the transaction constructor. -/
structure TxOptions where
  inputs : List TxInput
  outputs : List TxOutput
  fee : Nat
  num : Nat
  txType : TxType
  deriving DecidableEq, Repr

/-- The block built by `types.NewBlock`: its number and ordered transactions. -/
structure Block where
  num : Nat
  transactions : List Transaction
  deriving DecidableEq, Repr

/-- Error values of the forger.  `external` is an error value produced by a
collaborator or by a helper outside the `miner` package (these can never be
the package-level sentinels); `wrap` is `errors.Wrap`; `panic` is a Go run-time
panic, which unwinds through every caller. -/
inductive Err
  | ErrZeroFeeAmount
  | ErrNoStakers
  | external (msg : String)
  | wrap (msg : String) (cause : Err)
  | panic (msg : String)
  deriving DecidableEq, Repr

/-- The test `errors.Is(err, target)` for a sentinel `target`: looks through
wrapping. -/
def Err.is : Err → Err → Bool
  | .wrap _ cause, target => Err.is cause target
  | e, target => decide (e = target)

/-- The call `errors.Wrap(err, msg)` as seen by a caller: a panic is not an
error value and passes through unchanged. -/
def Err.wrapWith (msg : String) : Err → Err
  | .panic p => .panic p
  | e => .wrap msg e

/-- Calls to collaborators that have an effect or an answer depending on
their state, in the form they are recorded.  The first four are made by
`ForgeBlock`, the others by `FinalizeBlock`. -/
inductive Call
  | FindAllUTxO (addr : Address)
  | ReserveSlots (amount : Nat)
  | DeleteTransaction (tx : Transaction)
  | InsertCollapseTx (tx : Transaction)
  | ValidateBlock (block : Block)
  | Finalize (txs : List Transaction)
  | SaveBlock (block : Block)
  | ProcessBlock (block : Block)
  | UpdateStakeSlots (block : Block)
  | FlushReservedSlots
  | CheckBalance
  deriving DecidableEq, Repr

/-- Configuration and collaborators of the forger, fixed during one forge.

* `RewardBase` is `params.RaidoConfig().RewardBase`, `BlockSize` is
  `cfg.BlockSize`.
* `GetQueue`, `GetStakeSlots`, `GetBlockCount` are the snapshots returned by
  the pool, the stake pool and the block store.
* `FindAllUTxO` is the UTXO index query (an error is `Except.error`).
* `ReserveSlots`, `DeleteTransaction`, `InsertCollapseTx` answer `none` for a
  nil error; the answer may depend on the calls made before.
* `txHash` is the hashing and signing done by `types.NewPbTransaction`
  (`none` when it fails).
* `Size`, `SizeSSZ`, `GetRealFee`, `From` are the accessors `tx.Size()`,
  `tx.SizeSSZ()`, `tx.GetRealFee()`, `tx.From()`, none of which is in src; sizes
  are byte counts.
* `rangeOrder` is the order in which a Go `range` visits the entries of a map:
  some rearrangement of the entries. -/
structure Env where
  RewardBase : Nat
  BlockSize : Int
  GetQueue : List Transaction
  GetStakeSlots : List Address
  GetBlockCount : Nat
  FindAllUTxO : Address → Except String (List UTxO)
  ReserveSlots : List Call → Nat → Option String
  DeleteTransaction : List Call → Transaction → Option String
  InsertCollapseTx : List Call → Transaction → Option String
  txHash : TxOptions → Option Nat
  Size : Transaction → Nat
  SizeSSZ : Transaction → Nat
  GetRealFee : Transaction → Nat
  From : Transaction → Address
  rangeOrder : List (Address × Nat) → List (Address × Nat)
  rangeOrder_perm : ∀ m, (rangeOrder m).Perm m

/-- Mutable state of the forger: the scratch set `skipAddr`, and the record of
the collaborator calls made so far (oldest first). -/
structure Miner where
  skipAddr : List Address
  calls : List Call
  deriving DecidableEq, Repr

/-- The constructor `types.NewOutput(address, amount, node)`. -/
def NewOutput (address : Address) (amount : Nat) (node : Option Address) : TxOutput :=
  { address := address, amount := amount, node := node }

/-- Modelled from the spec: `types.NewPbTransaction` is not in src.  Following
the data model of the spec it copies the options into a transaction and sets the
hash; hashing or signing may fail, in which case it returns an error. -/
def NewPbTransaction (env : Env) (opts : TxOptions) : Except Err Transaction :=
  match env.txHash opts with
  | none => .error (.external "NewPbTransaction")
  | some h =>
    .ok { num := opts.num, txType := opts.txType, hash := h, fee := opts.fee,
          inputs := opts.inputs, outputs := opts.outputs }

/-- Modelled from the spec: `UTxO.ToPbInput` is not in src; the input refers to
the UTXO by hash and index and repeats its owner and amount. -/
def UTxO.ToPbInput (uo : UTxO) : TxInput :=
  { hash := uo.hash, index := uo.index, address := uo.To, amount := uo.amount }

namespace Miner

/-- The constant `txBatchLimit`. -/
def txBatchLimit : Nat := 1000

/-- The constant `CollapseOutputsNum` of `createCollapseTx`. -/
def CollapseOutputsNum : Nat := 100

/-- The constant `InputsPerTxLimit` of `createCollapseTx`. -/
def InputsPerTxLimit : Nat := 2000

/-- The method `Miner.getRewardAmount`. -/
def getRewardAmount (env : Env) (size : Nat) : Nat :=
  if size = 0 then 0 else env.RewardBase / size

/-- One iteration of the grouping loop of `createRewardOutputs` on the map
`rewardMap`, kept as a list of entries: an existing entry is increased by
`reward` (a `uint64` addition), otherwise a new entry is made. -/
def rewardMapAdd (reward : Nat) : List (Address × Nat) → Address → List (Address × Nat)
  | [], addrHex => [(addrHex, reward)]
  | (k, v) :: m, addrHex =>
    if k = addrHex then (k, (v + reward) % U64) :: m
    else (k, v) :: rewardMapAdd reward m addrHex

/-- The method `Miner.createRewardOutputs`. -/
def createRewardOutputs (env : Env) (slots : List Address) : List TxOutput :=
  let size := slots.length
  if size = 0 then []
  else
    let reward := getRewardAmount env size
    let rewardMap := slots.foldl (rewardMapAdd reward) []
    (env.rangeOrder rewardMap).map fun e => NewOutput e.1 e.2 none

/-- The method `Miner.createRewardTx`. -/
def createRewardTx (env : Env) (blockNum : Nat) : Except Err Transaction :=
  let slots := env.GetStakeSlots
  let outs := createRewardOutputs env slots
  if outs.length = 0 then .error .ErrNoStakers
  else
    NewPbTransaction env
      { inputs := [], outputs := outs, fee := 0, num := blockNum, txType := .Reward }

/-- The summing loop of `createFeeTx`: `feeAmount += tx.GetRealFee()` in
`uint64`. -/
def feeAmount (env : Env) (txarr : List Transaction) : Nat :=
  txarr.foldl (fun acc tx => (acc + env.GetRealFee tx) % U64) 0

/-- The method `Miner.createFeeTx`. -/
def createFeeTx (env : Env) (txarr : List Transaction) : Except Err Transaction :=
  let feeAmount := feeAmount env txarr
  if feeAmount = 0 then .error .ErrZeroFeeAmount
  else
    NewPbTransaction env
      { inputs := [], outputs := [NewOutput BlackHoleAddress feeAmount none],
        fee := 0, num := env.GetBlockCount, txType := .Fee }

/-- The assignment `m.skipAddr[addr] = struct{}{}` on the set `skipAddr`. -/
def skipInsert (addr : Address) (skipAddr : List Address) : List Address :=
  if addr ∈ skipAddr then skipAddr else addr :: skipAddr

/-- The inner loop of `createCollapseTx` over the UTXOs of one address.
`taken` is `len(opts.Inputs)`; the result is `userInputs`, `balance` and
`inputsLimitReached`. -/
def collectInputs (taken : Nat) :
    List UTxO → List TxInput → Nat → List TxInput × Nat × Bool
  | [], userInputs, balance => (userInputs, balance, false)
  | uo :: utxo, userInputs, balance =>
    let input := uo.ToPbInput
    let balance := (balance + uo.amount) % U64
    let userInputs := userInputs ++ [input]
    if taken + userInputs.length = InputsPerTxLimit then (userInputs, balance, true)
    else collectInputs taken utxo userInputs balance

/-- The outer loop of `createCollapseTx` over the outputs of the transaction.
It returns the options accumulated (or the index error) and the forger state. -/
def collapseOutputs (env : Env) :
    List TxOutput → TxOptions → Miner → Except Err TxOptions × Miner
  | [], opts, m => (.ok opts, m)
  | out :: outs, opts, m =>
    let addr := out.address
    if addr ∈ m.skipAddr then collapseOutputs env outs opts m
    else
      let m := { m with calls := m.calls ++ [Call.FindAllUTxO addr] }
      match env.FindAllUTxO addr with
      | .error err => (.error (.external err), m)
      | .ok utxo =>
        let utxoCount := utxo.length
        let m := { m with skipAddr := skipInsert addr m.skipAddr }
        if utxoCount < CollapseOutputsNum then collapseOutputs env outs opts m
        else
          let r := collectInputs opts.inputs.length utxo [] 0
          let userInputs := r.1
          let balance := r.2.1
          let inputsLimitReached := r.2.2
          let opts :=
            if userInputs.length > 0 then
              { opts with
                inputs := opts.inputs ++ userInputs,
                outputs := opts.outputs ++ [NewOutput out.address balance none] }
            else opts
          if inputsLimitReached then (.ok opts, m)
          else collapseOutputs env outs opts m

/-- The method `Miner.createCollapseTx`.  The result is `none` for a nil
transaction: `types.NewTransaction` (not in src) is taken to return nil for a nil
argument, as the `collapseTx != nil` tests of the callers expect.
`make(..., 0, len(tx.Outputs()) - 1)` panics at run time when the transaction has
no output. -/
def createCollapseTx (env : Env) (tx : Transaction) (blockNum : Nat) (m : Miner) :
    Except Err (Option Transaction) × Miner :=
  if tx.outputs.length = 0 then (.error (.panic "makeslice: cap out of range"), m)
  else
    let opts : TxOptions :=
      { inputs := [], outputs := [], fee := 0, num := blockNum, txType := .Collapse }
    let m :=
      if tx.txType ≠ .Reward then { m with skipAddr := skipInsert (env.From tx) m.skipAddr }
      else m
    match collapseOutputs env tx.outputs opts m with
    | (.error err, m) => (.error err, m)
    | (.ok opts, m) =>
      if opts.inputs.length > 0 then
        match NewPbTransaction env opts with
        | .error err => (.error err, m)
        | .ok collapseTx => (.ok (some collapseTx), m)
      else (.ok none, m)

/-- The local variables of `ForgeBlock` carried through its loop. -/
structure ForgeState where
  txBatch : List Transaction
  collapseBatch : List Transaction
  totalSize : Int
  deriving DecidableEq, Repr

/-- The method `Miner.addRewardTxToBatch`. -/
def addRewardTxToBatch (env : Env) (txBatch collapseBatch : List Transaction)
    (totalSize : Int) (m : Miner) : Except Err ForgeState × Miner :=
  match createRewardTx env env.GetBlockCount with
  | .error err =>
    if err.is .ErrNoStakers then (.ok ⟨txBatch, collapseBatch, totalSize⟩, m)
    else (.error err, m)
  | .ok rewardTx =>
    let txBatch := txBatch ++ [rewardTx]
    let totalSize := totalSize + env.SizeSSZ rewardTx
    match createCollapseTx env rewardTx env.GetBlockCount m with
    | (.error err, m) => (.error (err.wrapWith "Error collapsing tx outputs"), m)
    | (.ok none, m) => (.ok ⟨txBatch, collapseBatch, totalSize⟩, m)
    | (.ok (some collapseTx), m) =>
      let m' := { m with calls := m.calls ++ [Call.InsertCollapseTx collapseTx] }
      match env.InsertCollapseTx m.calls collapseTx with
      | some _ => (.ok ⟨txBatch, collapseBatch, totalSize⟩, m')
      | none =>
        (.ok ⟨txBatch, collapseBatch ++ [collapseTx], totalSize + env.Size collapseTx⟩, m')

/-- The staked amount computed by `ForgeBlock` for a stake transaction: the
`uint64` sum of the outputs whose node is the black-hole address. -/
def stakeAmount (tx : Transaction) : Nat :=
  tx.outputs.foldl
    (fun amount out =>
      if out.node = some BlackHoleAddress then (amount + out.amount) % U64 else amount) 0

/-- The main loop of `ForgeBlock` over the queue (`for _, tx := range txQueue`),
from the state at the start of an iteration to the state at loop exit. -/
def forgeLoop (env : Env) (txCountPerBlock : Int) :
    List Transaction → ForgeState → Miner → Except Err ForgeState × Miner
  | [], st, m => (.ok st, m)
  | tx :: txQueue, st, m =>
    if (st.txBatch.length : Int) + st.collapseBatch.length = txCountPerBlock then (.ok st, m)
    else
      let size : Int := env.Size tx
      let totalSize := st.totalSize + size
      if totalSize > env.BlockSize then
        forgeLoop env txCountPerBlock txQueue st m
      else
        let m1 : Miner :=
          if tx.txType = .Stake then
            { m with calls := m.calls ++ [Call.ReserveSlots (stakeAmount tx)] }
          else m
        if tx.txType = .Stake ∧ (env.ReserveSlots m.calls (stakeAmount tx)).isSome then
          let m2 := { m1 with calls := m1.calls ++ [Call.DeleteTransaction tx] }
          match env.DeleteTransaction m1.calls tx with
          | some err => (.error (.wrap "Error creating block" (.external err)), m2)
          | none => forgeLoop env txCountPerBlock txQueue st m2
        else
          let txBatch := st.txBatch ++ [tx]
          match createCollapseTx env tx env.GetBlockCount m1 with
          | (.error err, m3) => (.error (err.wrapWith "Error collapsing tx outputs"), m3)
          | (.ok collapseTx, m3) =>
            let r : ForgeState × Miner :=
              match collapseTx with
              | none => (⟨txBatch, st.collapseBatch, totalSize⟩, m3)
              | some ctx =>
                let m4 := { m3 with calls := m3.calls ++ [Call.InsertCollapseTx ctx] }
                match env.InsertCollapseTx m3.calls ctx with
                | some _ => (⟨txBatch, st.collapseBatch, totalSize⟩, m4)
                | none =>
                  (⟨txBatch, st.collapseBatch ++ [ctx], totalSize + env.Size ctx⟩, m4)
            if r.1.totalSize = env.BlockSize then (.ok r.1, r.2)
            else forgeLoop env txCountPerBlock txQueue r.1 r.2

/-- The value `txCountPerBlock` computed by `ForgeBlock` after the reward step. -/
def txCountPerBlock (txQueueLen : Nat) (st : ForgeState) : Int :=
  let cap : Int := (txBatchLimit : Int) - st.txBatch.length - st.collapseBatch.length - 1
  if (txQueueLen : Int) < cap then txQueueLen else cap

/-- The method `Miner.ForgeBlock`, with the forger state after the call. -/
def ForgeBlock (env : Env) (m : Miner) : Except Err Block × Miner :=
  let txQueue := env.GetQueue
  let txQueueLen := txQueue.length
  match addRewardTxToBatch env [] [] 0 m with
  | (.error err, m) => (.error err, m)
  | (.ok st, m) =>
    match forgeLoop env (txCountPerBlock txQueueLen st) txQueue st m with
    | (.error err, m) => (.error err, m)
    | (.ok st, m) =>
      let txBatch := st.txBatch ++ st.collapseBatch
      let cleared : Miner := { m with skipAddr := [] }
      if txBatch.length > 0 then
        match createFeeTx env txBatch with
        | .error err =>
          if !err.is .ErrZeroFeeAmount then (.error err, m)
          else (.ok ⟨env.GetBlockCount, txBatch⟩, cleared)
        | .ok txFee => (.ok ⟨env.GetBlockCount, txBatch ++ [txFee]⟩, cleared)
      else (.ok ⟨env.GetBlockCount, txBatch⟩, cleared)

end Miner

namespace Miner

/-- Invariant of the grouping loop of `createRewardOutputs` after the slots `p`
have been visited with per-slot reward `r`. -/
def RewardMapInv (r : Nat) (p : List Address) (m : List (Address × Nat)) : Prop :=
  (m.map Prod.fst).Nodup ∧ (∀ k, k ∈ m.map Prod.fst ↔ k ∈ p) ∧
    ∀ k v, (k, v) ∈ m → v = r * p.count k

/-- A plain transfer used in examples: fee 5, one input of 15 from address 1 and
one output of 10 to address 2. -/
def demoTransfer : Transaction :=
  { num := 1, txType := .Normal, hash := 11, fee := 5,
    inputs := [{ hash := 3, index := 0, address := 1, amount := 15 }],
    outputs := [{ address := 2, amount := 10, node := none }] }

/-- An example environment: one staker `7`, `RewardBase = 100`, a block budget of
1000 bytes, a queue holding `demoTransfer`, an empty UTXO index, collaborators that
never fail, every transaction 10 bytes long, and `GetRealFee` returning the fee
field. -/
def demoEnv : Env :=
  { RewardBase := 100
    BlockSize := 1000
    GetQueue := [demoTransfer]
    GetStakeSlots := [7]
    GetBlockCount := 1
    FindAllUTxO := fun _ => .ok []
    ReserveSlots := fun _ _ => none
    DeleteTransaction := fun _ _ => none
    InsertCollapseTx := fun _ _ => none
    txHash := fun _ => some 0
    Size := fun _ => 10
    SizeSSZ := fun _ => 10
    GetRealFee := fun tx => tx.fee
    From := fun _ => 1
    rangeOrder := fun m => m
    rangeOrder_perm := fun _ => List.Perm.refl _ }

/-- A transfer whose fee is `2 ^ 63`: one input of `2 ^ 63 + 10` from address 1 and one
output of 10 to address 2. -/
def hugeFeeTx : Transaction :=
  { num := 1, txType := .Normal, hash := 12, fee := 2 ^ 63,
    inputs := [{ hash := 4, index := 0, address := 1, amount := 2 ^ 63 + 10 }],
    outputs := [{ address := 2, amount := 10, node := none }] }

/-- Another transfer whose fee is `2 ^ 63`. -/
def hugeFeeTx3 : Transaction :=
  { num := 1, txType := .Normal, hash := 16, fee := 2 ^ 63,
    inputs := [{ hash := 8, index := 0, address := 1, amount := 2 ^ 63 + 10 }],
    outputs := [{ address := 4, amount := 10, node := none }] }

/-- A transfer whose fee is `2 ^ 63 + 1`. -/
def hugeFeeTx2 : Transaction :=
  { num := 1, txType := .Normal, hash := 13, fee := 2 ^ 63 + 1,
    inputs := [{ hash := 5, index := 0, address := 1, amount := 2 ^ 63 + 11 }],
    outputs := [{ address := 2, amount := 10, node := none }] }

/-- An environment without stakers whose queue holds the two transfers with huge
fees. -/
def overflowEnv : Env :=
  { demoEnv with GetStakeSlots := [], GetQueue := [hugeFeeTx, hugeFeeTx2] }

/-- A second plain transfer: fee 3, from address 1 to address 4. -/
def demoTransfer2 : Transaction :=
  { num := 1, txType := .Normal, hash := 14, fee := 3,
    inputs := [{ hash := 6, index := 0, address := 1, amount := 10 }],
    outputs := [{ address := 4, amount := 7, node := none }] }

/-- The environment `demoEnv` with a queue of two transfers. -/
def twoTxEnv : Env :=
  { demoEnv with GetQueue := [demoTransfer, demoTransfer2] }

/-- A stake transaction: 50 coins staked through an output whose node is the
black-hole address. -/
def stakeTx : Transaction :=
  { num := 1, txType := .Stake, hash := 15, fee := 2,
    inputs := [{ hash := 7, index := 0, address := 1, amount := 52 }],
    outputs := [{ address := 1, amount := 50, node := some BlackHoleAddress }] }

/-- An environment without stakers whose stake pool refuses every reservation and
whose queue holds `stakeTx`. -/
def fullSlotsEnv : Env :=
  { demoEnv with
    GetStakeSlots := []
    GetQueue := [stakeTx]
    ReserveSlots := fun _ _ => some "All stake slots are filled." }

/-- The forger state before a forge: empty skip set, no call recorded. -/
def freshMiner : Miner :=
  { skipAddr := [], calls := [] }

/-- A list of `n` distinct UTXOs of value 1 owned by `owner`. -/
def manyUTxO (owner : Address) (n : Nat) : List UTxO :=
  (List.range n).map fun i => { hash := i, index := 0, To := owner, amount := 1 }

/-- An environment in which address 2 owns 2000 UTXOs and address 3 owns 100. -/
def capEnv : Env :=
  { demoEnv with
    FindAllUTxO := fun a =>
      if a = 2 then .ok (manyUTxO 2 2000) else if a = 3 then .ok (manyUTxO 3 100) else .ok [] }

/-- A list of `n` distinct UTXOs of value `2 ^ 63` owned by `owner`. -/
def hugeUTxO (owner : Address) (n : Nat) : List UTxO :=
  (List.range n).map fun i => { hash := i, index := 0, To := owner, amount := 2 ^ 63 }

/-- An environment in which address 3 owns 100 UTXOs of value `2 ^ 63` each. -/
def hugeIndexEnv : Env :=
  { demoEnv with
    FindAllUTxO := fun a => if a = 3 then .ok (hugeUTxO 3 100) else .ok [] }

/-- A transfer from address 1 paying address 3. -/
def payThreeTx : Transaction :=
  { demoTransfer with outputs := [{ address := 3, amount := 10, node := none }] }

/-- A transfer from address 1 paying address 2 and then address 3. -/
def capTx : Transaction :=
  { demoTransfer with
    outputs := [{ address := 2, amount := 10, node := none },
      { address := 3, amount := 5, node := none }] }

end Miner

namespace Miner

/-- Collaborators of `FinalizeBlock`: the block validator, the block store and the
stake pool.  Each answers as a function of the calls recorded so far; `none` is a nil
error.  `ValidateBlock` returns the failed transaction (if it names one) and the
error. -/
structure FinalizeEnv where
  ValidateBlock : List Call → Block → Option Transaction × Option String
  SaveBlock : List Call → Block → Option String
  ProcessBlock : List Call → Block → Option String
  UpdateStakeSlots : List Call → Block → Option String
  CheckBalance : List Call → Option String

/-- The method `Miner.FinalizeBlock`: the error returned (`none` for nil) and the
forger state, whose `calls` have grown by the collaborator calls made.
`utypes.PbTxBatchToTyped` only changes the representation of the transactions. -/
def FinalizeBlock (fenv : FinalizeEnv) (block : Block) (m : Miner) : Option Err × Miner :=
  let c1 := m.calls ++ [Call.ValidateBlock block]
  match fenv.ValidateBlock m.calls block with
  | (failedTx, some err) =>
    let c2 :=
      match failedTx with
      | some tx => c1 ++ [Call.Finalize [tx]]
      | none => c1
    (some (.wrap "ValidateBlockError" (.external err)), { m with calls := c2 })
  | (_, none) =>
    let c2 := c1 ++ [Call.SaveBlock block]
    match fenv.SaveBlock c1 block with
    | some err => (some (.external err), { m with calls := c2 })
    | none =>
      let c3 := c2 ++ [Call.ProcessBlock block]
      match fenv.ProcessBlock c2 block with
      | some err => (some (.wrap "Error process block" (.external err)), { m with calls := c3 })
      | none =>
        let c4 := c3 ++ [Call.Finalize block.transactions]
        let c5 := c4 ++ [Call.UpdateStakeSlots block]
        match fenv.UpdateStakeSlots c4 block with
        | some err => (some (.wrap "StakePool error" (.external err)), { m with calls := c5 })
        | none =>
          let c6 := c5 ++ [Call.FlushReservedSlots]
          let c7 := c6 ++ [Call.CheckBalance]
          match fenv.CheckBalance c6 with
          | some err =>
            (some (.wrap "Balances inconsistency" (.external err)), { m with calls := c7 })
          | none => (none, { m with calls := c7 })

end Miner

/-- The registry `ValidatorGerm` of `stake_validator.go`.  `slots` holds the hex
addresses of the stakers (addresses, by the convention above), `reservedSlots` one
entry per reserved slot, and `FindStakeDeposits` is the answer of
`outm.FindStakeDeposits()`, fixed while the registry is used.  The mutex is left
out: calls are taken one at a time. -/
structure ValidatorGerm where
  blockReward : Nat
  slotsLimit : Int
  slots : List Address
  reservedSlots : List Int
  FindStakeDeposits : Except String (List UTxO)

namespace ValidatorGerm

/-- The method `ValidatorGerm.CanStake`, with the registry after the call. -/
def CanStake (vg : ValidatorGerm) : Bool × ValidatorGerm :=
  (decide ((vg.slots.length : Int) + vg.reservedSlots.length < vg.slotsLimit), vg)

/-- The method `ValidatorGerm.ReserveSlot`: the error (`none` for nil) and the
registry after the call. -/
def ReserveSlot (vg : ValidatorGerm) : Option Err × ValidatorGerm :=
  let r := CanStake vg
  if !r.1 then (some (.external "All stake slots are filled."), r.2)
  else (none, { r.2 with reservedSlots := r.2.reservedSlots ++ [1] })

/-- The method `ValidatorGerm.FlushReserved`. -/
def FlushReserved (vg : ValidatorGerm) : ValidatorGerm :=
  { vg with reservedSlots := [] }

/-- The method `ValidatorGerm.getEmptySlots`. -/
def getEmptySlots (vg : ValidatorGerm) : Int :=
  vg.slotsLimit - vg.slots.length

/-- The method `ValidatorGerm.RegisterStake`. -/
def RegisterStake (vg : ValidatorGerm) (addr : Address) : Option Err × ValidatorGerm :=
  let empty := getEmptySlots vg
  if empty = 0 then (some (.external "Validator slots limit is reached."), vg)
  else if empty < 0 then (some (.external "Validator slots inconsistent."), vg)
  else (none, { vg with slots := vg.slots ++ [addr] })

/-- The search loop of `UnregisterStake` over `vg.slots`: the slots after the loop
and the flag `notFound`.  `append(slots[:i], slots[i+1:]...)` drops the entry at the
first index `i` whose entry equals the address. -/
def removeStaker (address : Address) : List Address → List Address × Bool
  | [] => ([], true)
  | a :: slots =>
    if a = address then (slots, false)
    else
      let r := removeStaker address slots
      (a :: r.1, r.2)

/-- The method `ValidatorGerm.UnregisterStake`.  The text of the error is
`Undefined staker <address>.` in the source. -/
def UnregisterStake (vg : ValidatorGerm) (addr : Address) : Option Err × ValidatorGerm :=
  let r := removeStaker addr vg.slots
  let vg := { vg with slots := r.1 }
  if r.2 then (some (.external "Undefined staker."), vg)
  else (none, vg)

/-- The loop of `LoadSlots` over the deposits: it stops at the first
`RegisterStake` that fails. -/
def registerDeposits : List UTxO → ValidatorGerm → Option Err × ValidatorGerm
  | [], vg => (none, vg)
  | uo :: deposits, vg =>
    match RegisterStake vg uo.To with
    | (some err, vg) => (some err, vg)
    | (none, vg) => registerDeposits deposits vg

/-- The method `ValidatorGerm.LoadSlots`. -/
def LoadSlots (vg : ValidatorGerm) : Option Err × ValidatorGerm :=
  match vg.FindStakeDeposits with
  | .error err => (some (.external err), vg)
  | .ok deposits => registerDeposits deposits vg

/-- Modelled from the spec: the stake pool method `ReserveSlots(amount)` that
`ForgeBlock` calls is not in src (the registry of src has `ReserveSlot()`, which
reserves one slot), nor is `slotUnit`.  By the spec the number of slots requested is
`amount / slotUnit`, and the call fails with `SlotsFull`, changing nothing, when the
reservation would exceed `slotsLimit`. -/
def ReserveSlots (slotUnit : Nat) (vg : ValidatorGerm) (amount : Nat) :
    Option Err × ValidatorGerm :=
  let requested := amount / slotUnit
  if (vg.slots.length : Int) + vg.reservedSlots.length + requested > vg.slotsLimit then
    (some (.external "SlotsFull"), vg)
  else (none, { vg with reservedSlots := vg.reservedSlots ++ List.replicate requested 1 })

/-- A call of the registry, as an item of a sequence of calls. -/
inductive RegistryCall
  | ReserveSlot
  | RegisterStake (addr : Address)
  | UnregisterStake (addr : Address)
  | FlushReserved
  deriving DecidableEq, Repr

/-- The registry after a call, whether it succeeded or failed. -/
def applyCall (vg : ValidatorGerm) : RegistryCall → ValidatorGerm
  | .ReserveSlot => (ReserveSlot vg).2
  | .RegisterStake addr => (RegisterStake vg addr).2
  | .UnregisterStake addr => (UnregisterStake vg addr).2
  | .FlushReserved => FlushReserved vg

/-- The registry after a sequence of calls. -/
def applyCalls (vg : ValidatorGerm) (calls : List RegistryCall) : ValidatorGerm :=
  calls.foldl applyCall vg

/-- The registry made by `NewValidator` before it loads the deposits: no slot, no
reservation. -/
def empty (slotsLimit : Int) (reward : Nat) (deposits : Except String (List UTxO)) :
    ValidatorGerm :=
  { blockReward := reward, slotsLimit := slotsLimit, slots := [], reservedSlots := [],
    FindStakeDeposits := deposits }

/-- The repeated call of `ReserveSlot`, `n` times, stopping at the first failure. -/
def reserveTimes : Nat → ValidatorGerm → Option Err × ValidatorGerm
  | 0, vg => (none, vg)
  | n + 1, vg =>
    match ReserveSlot vg with
    | (some err, vg) => (some err, vg)
    | (none, vg) => reserveTimes n vg


/-- The method `ValidatorGerm.GetRewardAmount`. -/
def GetRewardAmount (vg : ValidatorGerm) (size : Nat) : Nat :=
  if size = 0 then 0 else vg.blockReward / size

/-- The method `ValidatorGerm.createRewardOutputs`: one output per slot. -/
def createRewardOutputs (vg : ValidatorGerm) : List TxOutput :=
  let size := vg.slots.length
  let slots := vg.slots
  if size = 0 then []
  else
    let reward := GetRewardAmount vg size
    slots.map fun addrHex => NewOutput addrHex reward none

end ValidatorGerm


namespace ValidatorGerm

/-- A stake deposit owned by address 5. -/
def demoDeposit : UTxO :=
  { hash := 21, index := 0, To := 5, amount := 50 }

/-- A registry with room for 10 slots, holding the slots `[5, 6, 5]` and one
reservation, whose index returns the single deposit `demoDeposit`. -/
def demoRegistry : ValidatorGerm :=
  { blockReward := 100, slotsLimit := 10, slots := [5, 6, 5], reservedSlots := [1],
    FindStakeDeposits := .ok [demoDeposit] }

/-- A full registry: room for one slot, held by address 5, whose index returns the single
deposit `demoDeposit`. -/
def fullRegistry : ValidatorGerm :=
  { blockReward := 100, slotsLimit := 1, slots := [5], reservedSlots := [],
    FindStakeDeposits := .ok [demoDeposit] }

end ValidatorGerm

namespace Miner

/-- Collaborators of `FinalizeBlock` that never fail. -/
def okFinalizeEnv : FinalizeEnv :=
  { ValidateBlock := fun _ _ => (none, none)
    SaveBlock := fun _ _ => none
    ProcessBlock := fun _ _ => none
    UpdateStakeSlots := fun _ _ => none
    CheckBalance := fun _ => none }

/-- Collaborators of `FinalizeBlock` among which only `CheckBalance` fails. -/
def badBalanceEnv : FinalizeEnv :=
  { okFinalizeEnv with CheckBalance := fun _ => some "balance mismatch" }

/-- Collaborators of `FinalizeBlock` whose validator rejects the block and names its
second transaction, if there is one. -/
def rejectSecondEnv : FinalizeEnv :=
  { okFinalizeEnv with
    ValidateBlock := fun _ block => (block.transactions.get? 1, some "invalid transaction") }

/-- A block holding the two example transfers. -/
def demoBlock : Block :=
  { num := 1, transactions := [demoTransfer, demoTransfer2] }


/-- A transfer that is too long for the block of the examples. -/
def bigTx : Transaction :=
  { num := 1, txType := .Normal, hash := 17, fee := 9,
    inputs := [{ hash := 9, index := 0, address := 1, amount := 29 }],
    outputs := [{ address := 4, amount := 20, node := none }] }

/-- The environment `demoEnv` (`BlockSize = 1000`, one staker) with the queue
`[bigTx, demoTransfer]`, where `bigTx` is 1001 bytes long and every other transaction
10 bytes. -/
def bigSmallEnv : Env :=
  { demoEnv with
    GetQueue := [bigTx, demoTransfer]
    Size := fun tx => if tx = bigTx then 1001 else 10 }

/-- The environment `demoEnv` (one staker `7`, queue `[demoTransfer]`) in which the
staker owns 100 UTXOs. -/
def collapseRewardEnv : Env :=
  { demoEnv with
    FindAllUTxO := fun a => if a = 7 then .ok (manyUTxO 7 100) else .ok [] }

/-- An environment without stakers, with the queue `[demoTransfer]`, whose UTXO index
fails for address 2. -/
def indexFailEnv : Env :=
  { demoEnv with
    GetStakeSlots := []
    FindAllUTxO := fun a => if a = 2 then .error "index unavailable" else .ok [] }


/-- The reward transaction of the examples: 100 to the staker `7`. -/
def demoRewardTx : Transaction :=
  { num := 1, txType := .Reward, hash := 0, fee := 0, inputs := [],
    outputs := [NewOutput 7 100 none] }

/-- The collapse transaction of the 100 UTXOs of the staker `7`. -/
def stakerCollapseTx : Transaction :=
  { num := 1, txType := .Collapse, hash := 0, fee := 0,
    inputs := (manyUTxO 7 100).map UTxO.ToPbInput,
    outputs := [NewOutput 7 100 none] }


/-- The environment `demoEnv` with a map iteration that visits the entries in the
reverse of the order in which they were inserted. -/
def reverseOrderEnv : Env :=
  { demoEnv with
    rangeOrder := fun m => m.reverse
    rangeOrder_perm := fun m => List.reverse_perm m }

end Miner


/-! ## The local-network service `lansrv`: transaction check and index update -/

/-- Error values of `lansrv`: its sentinels, an error made by `errors.Errorf` (message
without the formatted values), an error value of a collaborator, `errors.Wrap`, and a Go
run-time panic. -/
inductive LanErr
  | ErrUtxoSize
  | ErrAffectedRows
  | ErrInputsRestore
  | errorf (msg : String)
  | external (msg : String)
  | wrap (msg : String) (cause : LanErr)
  | panic (msg : String)
  deriving DecidableEq, Repr

/-- Calls to the UTXO store `outDB` made by `processBlock`, as they are recorded. -/
inductive DbCall
  | CreateTx
  | SpendGenesis (blockTx : Int) (addr : Address)
  | SpendOutputWithTx (blockTx : Int) (hash : Nat) (index : Nat)
  | AddOutputWithTx (blockTx : Int) (uo : UTxO)
  | RollbackTx (blockTx : Int)
  | CommitTx (blockTx : Int)
  deriving DecidableEq, Repr

/-- The UTXO store `outDB` and the constants of `lansrv`.

* `genesisTxHash` is the package variable of that name and `systemAddress` the address
  `Keccak256Hash("system")`; their values play no part.
* `FindAllUTxO` is the index query of `validateTx`.
* `CreateTx` returns the handle of a new index transaction, or an error.
* `SpendGenesis`, `SpendOutputWithTx`, `AddOutputWithTx` return the number of affected
  rows and the error (`none` for nil); `RollbackTx`, `CommitTx` return the error.  Each
  answers as a function of the calls recorded so far. -/
structure LanEnv where
  genesisTxHash : Nat
  systemAddress : Address
  FindAllUTxO : Address → Except String (List UTxO)
  CreateTx : List DbCall → Except String Int
  SpendGenesis : List DbCall → Int → Address → Int × Option String
  SpendOutputWithTx : List DbCall → Int → Nat → Nat → Int × Option String
  AddOutputWithTx : List DbCall → Int → UTxO → Int × Option String
  RollbackTx : List DbCall → Int → Option String
  CommitTx : List DbCall → Int → Option String

/-- State of the service that `processBlock` reads or writes: the maps `inputs` and
`inputsTmp` (a key that is absent maps to `none`) and the record of the calls made to
the UTXO store, oldest first. -/
structure LanSrv where
  inputs : Address → Option (List UTxO)
  inputsTmp : Address → Option (List UTxO)
  calls : List DbCall

/-- Modelled from the spec: `UTxO.ToInput` is not in src; the input refers to the UTXO
by hash and index and repeats its owner and amount (the key only signs). -/
def UTxO.ToInput (uo : UTxO) : TxInput :=
  { hash := uo.hash, index := uo.index, address := uo.To, amount := uo.amount }

/-- Modelled from the spec: `types.NewUTxO` is not in src; of its arguments the model of
a UTXO keeps the hash of the transaction, the receiver, the index and the amount. -/
def NewUTxO (hash : Nat) (To : Address) (index : Nat) (amount : Nat) : UTxO :=
  { hash := hash, index := index, To := To, amount := amount }

namespace LanSrv

/-- The key `hash + "_" + index` of the maps of `validateTx`: the text determines the
pair and the pair the text. -/
abbrev Key := Nat × Nat

/-- The assignment `m[key] = v` on a Go map kept as a list of entries. -/
def mapSet {V : Type} : List (Key × V) → Key → V → List (Key × V)
  | [], key, v => [(key, v)]
  | (k, w) :: m, key, v => if k = key then (k, v) :: m else (k, w) :: mapSet m key v

/-- The lookup `m[key]` on a Go map kept as a list of entries. -/
def mapGet {V : Type} : List (Key × V) → Key → Option V
  | [], _ => none
  | (k, w) :: m, key => if k = key then some w else mapGet m key

/-- The subtraction `a -= b` of `uint64` values. -/
def subU64 (a b : Nat) : Nat :=
  (a + (U64 - b % U64)) % U64

/-- The balance computed by `validateTx`: inputs added, outputs and fee subtracted, in
`uint64`. -/
def txBalance (tx : Transaction) : Nat :=
  let txBalance := tx.inputs.foldl (fun b inp => (b + inp.amount) % U64) 0
  let txBalance := tx.outputs.foldl (fun b out => subU64 b out.amount) txBalance
  subU64 txBalance tx.fee

/-- The loop "Inputs verification" of `validateTx`, followed by its last loop, which
checks that every value stored in `alreadySpent` is 1. -/
def verifyInputs (spentOutputsMap : List (Key × TxInput)) :
    List TxInput → List (Key × Nat) → Option LanErr
  | [], alreadySpent =>
    if alreadySpent.all (fun e => e.2 = 1) then none
    else some (.errorf "Unspent output of user.")
  | inp :: inputs, alreadySpent =>
    let key : Key := (inp.hash, inp.index)
    match mapGet spentOutputsMap key with
    | none => some (.errorf "User gave undefined output.")
    | some dbInput =>
      if (mapGet alreadySpent key).getD 0 = 1 then
        some (.errorf "User try to spend output twice.")
      else if dbInput.hash ≠ inp.hash then some (.errorf "Hash mismatch.")
      else if inp.index ≠ dbInput.index then some (.errorf "Index mismatch.")
      else if inp.amount ≠ dbInput.amount then some (.errorf "Amount mismatch.")
      else verifyInputs spentOutputsMap inputs (mapSet alreadySpent key 1)

/-- The method `LanSrv.validateTx`: the error returned, `none` for nil. -/
def validateTx (env : LanEnv) (tx : Transaction) : Option LanErr :=
  if tx.inputs.length = 0 then some (.errorf "Empty tx inputs.")
  else if tx.outputs.length = 0 then some (.errorf "Empty tx outputs.")
  else if txBalance tx ≠ 0 then some (.errorf "Tx balance is inconsistent.")
  else
    match tx.inputs with
    | [] => some (.panic "index out of range")
    | first :: _ =>
      let From := first.address
      match env.FindAllUTxO From with
      | .error err => some (.wrap "validateTx" (.external err))
      | .ok utxo =>
        let utxoSize := utxo.length
        let inputsSize := tx.inputs.length
        if utxoSize ≠ inputsSize then some (.errorf "validateTx: Inputs size mismatch.")
        else if utxoSize = 0 then some .ErrUtxoSize
        else
          let spentOutputsMap :=
            utxo.foldl (fun mp uo => mapSet mp (uo.hash, uo.index) uo.ToInput) []
          let balance := utxo.foldl (fun b uo => (b + uo.amount) % U64) 0
          if balance = 0 then some (.errorf "Account has balance 0.")
          else verifyInputs spentOutputsMap tx.inputs []

/-- The method `LanSrv.restoreInputs`: every entry of `inputsTmp` is copied into
`inputs`. -/
def restoreInputs (s : LanSrv) : LanSrv :=
  { s with
    inputs := fun addr =>
      match s.inputsTmp addr with
      | some inputs => some inputs
      | none => s.inputs addr }

/-- The closure `errorsCheck` of `processBlock`.  The error of `RollbackTx` is only
logged.  `err.Error()` is evaluated in both branches and panics on a nil `err`. -/
def errorsCheck (arows : Int) (blockTx : Int) (err : Option String) (s : LanSrv) :
    Option LanErr × LanSrv :=
  let s := { s with calls := s.calls ++ [DbCall.RollbackTx blockTx] }
  match err with
  | none => (some (.panic "invalid memory address or nil pointer dereference"), s)
  | some e =>
    if arows ≠ 1 then (some .ErrAffectedRows, s)
    else (some (.external e), restoreInputs s)

/-- The loop of `processBlock` over the inputs of one transaction.  `Except.error` is a
return of `processBlock` from inside the loop. -/
def spendInputs (env : LanEnv) (blockTx : Int) (From : Address) :
    List TxInput → LanSrv → Except (Option LanErr × LanSrv) LanSrv
  | [], s => .ok s
  | inp :: inputs, s =>
    let r : (Int × Option String) × LanSrv :=
      if inp.hash = env.genesisTxHash then
        (env.SpendGenesis s.calls blockTx From,
          { s with calls := s.calls ++ [DbCall.SpendGenesis blockTx From] })
      else
        (env.SpendOutputWithTx s.calls blockTx inp.hash inp.index,
          { s with calls := s.calls ++ [DbCall.SpendOutputWithTx blockTx inp.hash inp.index] })
    let arows := r.1.1
    let err := r.1.2
    if err ≠ none ∨ arows ≠ 1 then .error (errorsCheck arows blockTx err r.2)
    else spendInputs env blockTx From inputs r.2

/-- The loop of `processBlock` over the outputs of one transaction; `index` is a
`uint32`. -/
def addOutputs (env : LanEnv) (blockTx : Int) (txHash : Nat) :
    List TxOutput → Nat → LanSrv → Except (Option LanErr × LanSrv) LanSrv
  | [], _, s => .ok s
  | out :: outputs, index, s =>
    let uo := NewUTxO txHash out.address index out.amount
    let r := env.AddOutputWithTx s.calls blockTx uo
    let s := { s with calls := s.calls ++ [DbCall.AddOutputWithTx blockTx uo] }
    let arows := r.1
    let err := r.2
    if err ≠ none ∨ arows ≠ 1 then .error (errorsCheck arows blockTx err s)
    else
      let s :=
        { s with
          inputs := fun addr =>
            if addr = uo.To then some ((s.inputs addr).getD [] ++ [uo]) else s.inputs addr }
      addOutputs env blockTx txHash outputs ((index + 1) % 2 ^ 32) s

/-- The loop of `processBlock` over the transactions of the block.  `tx.Inputs[0]`
panics for a transaction without inputs that is no fee transaction. -/
def processTxs (env : LanEnv) (blockTx : Int) :
    List Transaction → LanSrv → Except (Option LanErr × LanSrv) LanSrv
  | [], s => .ok s
  | tx :: txs, s =>
    let spent : Except (Option LanErr × LanSrv) LanSrv :=
      if tx.txType ≠ .Fee then
        match tx.inputs with
        | [] => .error (some (.panic "index out of range"), s)
        | first :: _ => spendInputs env blockTx first.address tx.inputs s
      else .ok s
    match spent with
    | .error r => .error r
    | .ok s =>
      match addOutputs env blockTx tx.hash tx.outputs 0 s with
      | .error r => .error r
      | .ok s => processTxs env blockTx txs s

/-- The method `LanSrv.processBlock`: the error returned (`none` for nil) and the state
of the service after the call.  `log.Panicf` panics. -/
def processBlock (env : LanEnv) (block : Block) (s : LanSrv) : Option LanErr × LanSrv :=
  let s0 := { s with calls := s.calls ++ [DbCall.CreateTx] }
  match env.CreateTx s.calls with
  | .error err => (some (.panic err), s0)
  | .ok blockTx =>
    match processTxs env blockTx block.transactions s0 with
    | .error r => r
    | .ok s1 =>
      let s2 := { s1 with calls := s1.calls ++ [DbCall.CommitTx blockTx] }
      match env.CommitTx s1.calls blockTx with
      | some err => (some (.external err), restoreInputs s2)
      | none => (none, { s2 with inputsTmp := fun _ => none })

end LanSrv

namespace Miner

/-- An environment with no staker and an empty pool queue. -/
def idleEnv : Env :=
  { demoEnv with
    GetStakeSlots := []
    GetQueue := [] }

/-- The seven collaborator calls of a run of `FinalizeBlock` on `block` in which no
step fails, in the order of the source. -/
def finalizeCalls (block : Block) : List Call :=
  [Call.ValidateBlock block, Call.SaveBlock block, Call.ProcessBlock block,
    Call.Finalize block.transactions, Call.UpdateStakeSlots block,
    Call.FlushReservedSlots, Call.CheckBalance]

/-- What a run of the outer loop of `createCollapseTx` over outputs with addresses
`addrs`, from the options `opts` and the forger state `m` to the result `r` and the
state `m1`, has done to the collaborators and to `skipAddr`: the list `queried` holds
the addresses whose UTXOs were asked from the index, in order. -/
def CollapseTrace (env : Env) (addrs : List Address) (opts : TxOptions) (m : Miner)
    (r : Except Err TxOptions) (m1 : Miner) : Prop :=
  ∃ queried : List Address,
    m1.calls = m.calls ++ queried.map Call.FindAllUTxO ∧
    queried.Nodup ∧ queried.Sublist addrs ∧
    (∀ a ∈ queried, a ∉ m.skipAddr) ∧
    (∀ a, a ∈ m1.skipAddr ↔
      a ∈ m.skipAddr ∨ (a ∈ queried ∧ ∃ U, env.FindAllUTxO a = .ok U)) ∧
    (∀ opts1, r = .ok opts1 →
      (∀ a ∈ queried, ∃ U, env.FindAllUTxO a = .ok U) ∧
      ∃ added, opts1.outputs = opts.outputs ++ added ∧
        (added.map TxOutput.address).Sublist queried) ∧
    (∀ err, r = .error err →
      ∃ a msg, a ∈ queried ∧ env.FindAllUTxO a = .error msg ∧ err = .external msg)

/-- The addresses of the index queries recorded in `calls`, oldest first. -/
def queriedOf (calls : List Call) : List Address :=
  calls.filterMap fun c =>
    match c with
    | .FindAllUTxO a => some a
    | _ => none

/-- The addresses paid by the outputs of the transactions `cs`, in order. -/
def plannedOf (cs : List Transaction) : List Address :=
  cs.flatMap fun c => c.outputs.map TxOutput.address

/-- Between the forger states `m` and `m1` the index was queried for the addresses
`new`, each once, none of them in the skip set of `m`. -/
def CycleTrace (m m1 : Miner) (new : List Address) : Prop :=
  queriedOf m1.calls = queriedOf m.calls ++ new ∧ new.Nodup ∧ ∀ a ∈ new, a ∉ m.skipAddr

/-- The skip set of `m1` holds the skip set of `m` and the addresses `new`. -/
def CycleOk (m m1 : Miner) (new : List Address) : Prop :=
  (∀ a ∈ m.skipAddr, a ∈ m1.skipAddr) ∧ ∀ a ∈ new, a ∈ m1.skipAddr

/-- What a part of a forge cycle, run from the forger state `m` with the collapse batch
`cb` to the result `r` and the state `m1`, has done to the index and to `skipAddr`: the
addresses `new` were queried; and when the part ends without error they are all in the
skip set and the collapse transactions it added to the batch pay addresses among them,
in order. -/
def ForgeTrace (cb : List Transaction) (m : Miner) (r : Except Err ForgeState)
    (m1 : Miner) : Prop :=
  ∃ new : List Address, CycleTrace m m1 new ∧
    ∀ st1, r = .ok st1 →
      CycleOk m m1 new ∧
      ∃ cs, st1.collapseBatch = cb ++ cs ∧ (plannedOf cs).Sublist new

/-- An environment in which address 3 owns 100 UTXOs and the UTXO index fails for
address 2. -/
def halfIndexEnv : Env :=
  { demoEnv with
    FindAllUTxO := fun a =>
      if a = 3 then .ok (manyUTxO 3 100)
      else if a = 2 then .error "index unavailable" else .ok [] }

/-- A transfer from address 1 paying address 3 and then address 2. -/
def payThreeTwoTx : Transaction :=
  { demoTransfer with
    outputs := [{ address := 3, amount := 10, node := none },
      { address := 2, amount := 5, node := none }] }

/-- The environment `hugeIndexEnv` (address 3 owns 100 UTXOs) with a transaction
constructor that fails. -/
def noHashEnv : Env :=
  { hugeIndexEnv with txHash := fun _ => none }

/-- A transfer without outputs. -/
def noOutputTx : Transaction :=
  { demoTransfer with outputs := [] }

/-- A plain transfer of one coin from address 1 to address 2, fee 5, with hash
`100 + i`. -/
def plainTx (i : Nat) : Transaction :=
  { demoTransfer with hash := 100 + i }

/-- A transfer from address 1 to address 3, with hash 99. -/
def triggerTx : Transaction :=
  { payThreeTx with hash := 99 }

/-- A pool queue of 1000 transfers: 998 transfers to address 2, a transfer to address 3,
and one more transfer to address 2. -/
def overCapQueue : List Transaction :=
  plainTx 0 :: (((List.range 997).map fun i => plainTx (i + 1)) ++ [triggerTx, plainTx 998])

/-- An environment without stakers whose queue is `overCapQueue`, in which every
transaction is one byte long, the block budget is a million bytes, address 3 owns 100
UTXOs and no other address owns any. -/
def overCapEnv : Env :=
  { demoEnv with
    GetStakeSlots := []
    GetQueue := overCapQueue
    BlockSize := 1000000
    Size := fun _ => 1
    FindAllUTxO := fun a => if a = 3 then .ok (manyUTxO 3 100) else .ok [] }

/-- The collapse transaction of the 100 UTXOs of address 3. -/
def threeCollapseTx : Transaction :=
  { num := 1, txType := .Collapse, hash := 0, fee := 0,
    inputs := (manyUTxO 3 100).map UTxO.ToPbInput,
    outputs := [NewOutput 3 (((manyUTxO 3 100).map UTxO.amount).sum % U64) none] }

end Miner

namespace LanSrv

/-- The UTXO that `Miner.demoTransfer` spends: 15 coins of address 1. -/
def demoSpent : UTxO :=
  { hash := 3, index := 0, To := 1, amount := 15 }

/-- A UTXO store that never fails. -/
def okStore : LanEnv :=
  { genesisTxHash := 0
    systemAddress := 9
    FindAllUTxO := fun _ => .ok []
    CreateTx := fun _ => .ok 1
    SpendGenesis := fun _ _ _ => (1, none)
    SpendOutputWithTx := fun _ _ _ _ => (1, none)
    AddOutputWithTx := fun _ _ _ => (1, none)
    RollbackTx := fun _ _ => none
    CommitTx := fun _ _ => none }

/-- A UTXO store whose `SpendOutputWithTx` fails: no row affected and an error. -/
def failSpendStore : LanEnv :=
  { okStore with SpendOutputWithTx := fun _ _ _ _ => (0, some "database is locked") }

/-- A UTXO store whose `CommitTx` fails. -/
def failCommitStore : LanEnv :=
  { okStore with CommitTx := fun _ _ => some "commit failed" }

/-- The state in which the transaction generator leaves the service after it has made
`Miner.demoTransfer` for address 1: the inputs of the address are saved in `inputsTmp`
and its entry of `inputs` is an empty list. -/
def pendingSrv : LanSrv :=
  { inputs := fun addr => if addr = 1 then some [] else none
    inputsTmp := fun addr => if addr = 1 then some [demoSpent] else none
    calls := [] }

/-- A block holding `Miner.demoTransfer`. -/
def transferBlock : Block :=
  { num := 1, transactions := [Miner.demoTransfer] }

/-- A UTXO store in which address 1 owns a single UTXO, of 5 coins. -/
def fiveStore : LanEnv :=
  { okStore with
    FindAllUTxO := fun addr =>
      if addr = 1 then .ok [{ hash := 3, index := 0, To := 1, amount := 5 }] else .ok [] }

/-- A transfer that spends the 5 coins of address 1, pays `2 ^ 63` to address 2 and
`2 ^ 63` to address 4, and has fee 5. -/
def wrapTx : Transaction :=
  { num := 1, txType := .Normal, hash := 21, fee := 5,
    inputs := [{ hash := 3, index := 0, address := 1, amount := 5 }],
    outputs := [{ address := 2, amount := 2 ^ 63, node := none },
      { address := 4, amount := 2 ^ 63, node := none }] }

/-- Every address saved in `inputsTmp` has its saved list in `inputs`. -/
def Restored (s : LanSrv) : Prop :=
  ∀ addr l, s.inputsTmp addr = some l → s.inputs addr = some l

/-- A return of `processBlock` from inside its loops: it returns an error, and unless
this is a panic the index transaction `blockTx` was rolled back and either the error is
`ErrAffectedRows` or the inputs are restored. -/
def RolledBack (blockTx : Int) (r : Option LanErr × LanSrv) : Prop :=
  ∃ e, r.1 = some e ∧
    ((∃ msg, e = .panic msg) ∨
      (DbCall.RollbackTx blockTx ∈ r.2.calls ∧ (e = .ErrAffectedRows ∨ Restored r.2)))

end LanSrv

namespace Miner

/-! ## Reward outputs -/

theorem rewardMapAdd_keys (r : Nat) (m : List (Address × Nat)) (a : Address) :
    (rewardMapAdd r m a).map Prod.fst =
      if a ∈ m.map Prod.fst then m.map Prod.fst else m.map Prod.fst ++ [a] := by
  induction m with
  | nil => simp [rewardMapAdd]
  | cons e m ih =>
    obtain ⟨k, v⟩ := e
    by_cases hk : k = a
    · simp [rewardMapAdd, hk]
    · have hk' : ¬ a = k := fun h => hk h.symm
      by_cases ha : a ∈ m.map Prod.fst
      · simp only [rewardMapAdd, hk, if_false, List.map_cons, ih, ha, if_true,
          List.mem_cons, or_true]
      · simp only [rewardMapAdd, hk, if_false, List.map_cons, ih, ha, List.mem_cons, hk',
          or_self, List.cons_append]

theorem rewardMapAdd_mem (r : Nat) (m : List (Address × Nat)) (a k v : Nat)
    (hnd : (m.map Prod.fst).Nodup) (h : (k, v) ∈ rewardMapAdd r m a) :
    (k ≠ a ∧ (k, v) ∈ m) ∨
      (k = a ∧ ((a ∉ m.map Prod.fst ∧ v = r) ∨ ∃ v0, (a, v0) ∈ m ∧ v = (v0 + r) % U64)) := by
  induction m with
  | nil =>
    simp [rewardMapAdd] at h
    right
    exact ⟨h.1, Or.inl ⟨by simp, h.2⟩⟩
  | cons e m ih =>
    obtain ⟨k0, v0⟩ := e
    by_cases hk : k0 = a
    · subst hk
      simp only [rewardMapAdd, if_true, List.mem_cons, Prod.mk.injEq] at h
      rcases h with ⟨h1, h2⟩ | h
      · right
        exact ⟨h1, Or.inr ⟨v0, by simp, h2⟩⟩
      · by_cases hka : k = k0
        · subst hka
          exfalso
          rw [List.map_cons, List.nodup_cons] at hnd
          exact hnd.1 (List.mem_map.2 ⟨(k, v), h, rfl⟩)
        · left
          exact ⟨hka, by simp [h]⟩
    · simp only [rewardMapAdd, hk, if_false, List.mem_cons, Prod.mk.injEq] at h
      rcases h with ⟨h1, h2⟩ | h
      · left
        subst h1 h2
        exact ⟨hk, by simp⟩
      · rw [List.map_cons, List.nodup_cons] at hnd
        rcases ih hnd.2 h with ⟨h1, h2⟩ | ⟨h1, h2⟩
        · left
          exact ⟨h1, by simp [h2]⟩
        · right
          refine ⟨h1, ?_⟩
          rcases h2 with ⟨h3, h4⟩ | ⟨w, h3, h4⟩
          · left
            refine ⟨?_, h4⟩
            simp only [List.map_cons, List.mem_cons, not_or]
            exact ⟨fun h => hk h.symm, h3⟩
          · right
            exact ⟨w, by simp [h3], h4⟩


theorem rewardMapInv_step (r : Nat) (p : List Address) (m : List (Address × Nat))
    (a : Address) (hinv : RewardMapInv r p m) (hb : r * (p.length + 1) < U64) :
    RewardMapInv r (p ++ [a]) (rewardMapAdd r m a) := by
  obtain ⟨hnd, hkeys, hval⟩ := hinv
  refine ⟨?_, ?_, ?_⟩
  · rw [rewardMapAdd_keys]
    split
    · exact hnd
    · rename_i ha
      exact List.Nodup.append hnd (List.nodup_singleton a) (by simpa using ha)
  · intro k
    rw [rewardMapAdd_keys]
    split
    · rename_i ha
      rw [hkeys, List.mem_append, List.mem_singleton]
      constructor
      · exact Or.inl
      · rintro (h | h)
        · exact h
        · rw [h]; exact (hkeys a).1 ha
    · simp [List.mem_append, hkeys]
  · intro k v hmem
    have hcnt : ∀ x, (p ++ [a]).count x = p.count x + if a = x then 1 else 0 := by
      intro x
      rw [List.count_append, List.count_singleton]
      by_cases hx : a = x
      · simp [hx]
      · simp [hx]
    rcases rewardMapAdd_mem r m a k v hnd hmem with ⟨h1, h2⟩ | ⟨h1, h2⟩
    · rw [hcnt, if_neg (fun h => h1 h.symm), Nat.add_zero]
      exact hval k v h2
    · subst h1
      rw [hcnt, if_pos rfl]
      rcases h2 with ⟨h3, h4⟩ | ⟨v0, h3, h4⟩
      · have : p.count k = 0 := List.count_eq_zero.2 (fun h => h3 ((hkeys k).2 h))
        rw [this, h4]; simp
      · have hv0 := hval k v0 h3
        have hle : p.count k ≤ p.length := List.count_le_length _ _
        have hlt : v0 + r < U64 := by
          rw [hv0]
          calc r * p.count k + r = r * (p.count k + 1) := by ring
            _ ≤ r * (p.length + 1) := Nat.mul_le_mul_left r (by omega)
            _ < U64 := hb
        rw [h4, Nat.mod_eq_of_lt hlt, hv0]; ring

theorem rewardMapInv_foldl (r : Nat) (q p : List Address) (m : List (Address × Nat))
    (hinv : RewardMapInv r p m) (hb : r * (p.length + q.length) < U64) :
    RewardMapInv r (p ++ q) (q.foldl (rewardMapAdd r) m) := by
  induction q generalizing p m with
  | nil => simpa using hinv
  | cons a q ih =>
    rw [List.foldl_cons]
    have hstep : RewardMapInv r (p ++ [a]) (rewardMapAdd r m a) := by
      apply rewardMapInv_step r p m a hinv
      refine lt_of_le_of_lt (Nat.mul_le_mul_left r ?_) hb
      simp
    have := ih (p ++ [a]) (rewardMapAdd r m a) hstep (by
      simpa [Nat.add_assoc, Nat.add_comm 1] using hb)
    simpa using this

theorem rewardMap_inv (R : Nat) (slots : List Address) (hR : R < U64) :
    RewardMapInv (R / slots.length) slots
      (slots.foldl (rewardMapAdd (R / slots.length)) []) := by
  have h := rewardMapInv_foldl (R / slots.length) slots [] []
    ⟨by simp, by simp, by simp⟩ (by
      simp only [List.length_nil, Nat.zero_add]
      exact lt_of_le_of_lt (Nat.div_mul_le_self R slots.length) hR)
  simpa using h


theorem rewardMapAdd_sum (r : Nat) (m : List (Address × Nat)) (a : Address)
    (h : ∀ k v, (k, v) ∈ m → v + r < U64) :
    ((rewardMapAdd r m a).map Prod.snd).sum = (m.map Prod.snd).sum + r := by
  induction m with
  | nil => simp [rewardMapAdd]
  | cons e m ih =>
    obtain ⟨k0, v0⟩ := e
    by_cases hk : k0 = a
    · have := h k0 v0 (by simp)
      simp only [rewardMapAdd, hk, if_true, List.map_cons, List.sum_cons,
        Nat.mod_eq_of_lt this]
      omega
    · have := ih (fun k v hm => h k v (by simp [hm]))
      simp only [rewardMapAdd, hk, if_false, List.map_cons, List.sum_cons, this]
      omega

theorem rewardMap_sum_foldl (r : Nat) (q p : List Address) (m : List (Address × Nat))
    (hinv : RewardMapInv r p m) (hb : r * (p.length + q.length) < U64) :
    ((q.foldl (rewardMapAdd r) m).map Prod.snd).sum = (m.map Prod.snd).sum + r * q.length := by
  induction q generalizing p m with
  | nil => simp
  | cons a q ih =>
    rw [List.foldl_cons]
    have hb1 : r * (p.length + 1) < U64 := by
      refine lt_of_le_of_lt (Nat.mul_le_mul_left r ?_) hb
      simp
    have hstep : RewardMapInv r (p ++ [a]) (rewardMapAdd r m a) :=
      rewardMapInv_step r p m a hinv hb1
    have hsum : ((rewardMapAdd r m a).map Prod.snd).sum = (m.map Prod.snd).sum + r := by
      apply rewardMapAdd_sum
      intro k v hm
      rw [hinv.2.2 k v hm]
      have hle : p.count k ≤ p.length := List.count_le_length _ _
      calc r * p.count k + r = r * (p.count k + 1) := by ring
        _ ≤ r * (p.length + 1) := Nat.mul_le_mul_left r (by omega)
        _ < U64 := hb1
    rw [ih (p ++ [a]) (rewardMapAdd r m a) hstep (by
      simpa [Nat.add_assoc, Nat.add_comm 1] using hb), hsum, List.length_cons]
    ring

theorem createRewardOutputs_eq (env : Env) (slots : List Address) (hne : slots ≠ []) :
    createRewardOutputs env slots =
      (env.rangeOrder (slots.foldl (rewardMapAdd (env.RewardBase / slots.length)) [])).map
        fun e => NewOutput e.1 e.2 none := by
  have hlen : slots.length ≠ 0 := by
    intro h
    exact hne (List.length_eq_zero.1 h)
  simp [createRewardOutputs, getRewardAmount, hlen]

/-- C1: for a non-empty slot list, `createRewardOutputs` returns exactly one output per
distinct slot address (no address twice, every slot address present, no other
address), the output for address `a` has amount `(R / len slots) * (occurrences of a)`,
and the slots `[a, a, b]` give, up to order, the two outputs `(a, 2 * (R / 3))` and
`(b, R / 3)`. -/
theorem createRewardOutputs_grouped (env : Env) (slots : List Address)
    (hne : slots ≠ []) (hR : env.RewardBase < U64) :
    ((createRewardOutputs env slots).map TxOutput.address).Nodup ∧
    (∀ a, a ∈ (createRewardOutputs env slots).map TxOutput.address ↔ a ∈ slots) ∧
    (∀ o ∈ createRewardOutputs env slots,
      o.amount = env.RewardBase / slots.length * slots.count o.address ∧ o.node = none) ∧
    (∀ a b, a ≠ b → slots = [a, a, b] →
      (createRewardOutputs env slots).Perm
        [NewOutput a (2 * (env.RewardBase / 3)) none, NewOutput b (env.RewardBase / 3) none]) := by
  have hinv := rewardMap_inv env.RewardBase slots hR
  have hperm := env.rangeOrder_perm (slots.foldl (rewardMapAdd (env.RewardBase / slots.length)) [])
  rw [createRewardOutputs_eq env slots hne]
  have hmap : ∀ l : List (Address × Nat),
      (l.map fun e => NewOutput e.1 e.2 none).map TxOutput.address = l.map Prod.fst := by
    intro l
    simp [NewOutput, List.map_map, Function.comp_def]
  refine ⟨?_, ?_, ?_, ?_⟩
  · rw [hmap]
    exact (List.Perm.nodup_iff (hperm.map Prod.fst)).2 hinv.1
  · intro a
    rw [hmap, (hperm.map Prod.fst).mem_iff]
    exact hinv.2.1 a
  · intro o ho
    obtain ⟨e, he, rfl⟩ := List.mem_map.1 ho
    have hem := hperm.mem_iff.1 he
    exact ⟨hinv.2.2 e.1 e.2 hem, rfl⟩
  · intro a b hab hs
    subst hs
    have hba : ¬ b = a := fun h => hab h.symm
    have h3 : env.RewardBase / 3 * 3 ≤ env.RewardBase := Nat.div_mul_le_self _ _
    have hlt : env.RewardBase / 3 + env.RewardBase / 3 < U64 := by omega
    have hfold : List.foldl (rewardMapAdd (env.RewardBase / 3)) [] [a, a, b] =
        [(a, 2 * (env.RewardBase / 3)), (b, env.RewardBase / 3)] := by
      simp [rewardMapAdd, hab, Nat.mod_eq_of_lt hlt]
      omega
    have hp := env.rangeOrder_perm [(a, 2 * (env.RewardBase / 3)), (b, env.RewardBase / 3)]
    simp only [List.length_cons, List.length_nil, Nat.zero_add, Nat.reduceAdd, hfold]
    exact hp.map _

/-- C2: for `n > 0` slots and a 64-bit `RewardBase = R`, the per-slot reward is `R / n`,
the amounts of the reward outputs sum to `n * (R / n) = R - R % n`, which is at most `R`,
and no `uint64` addition of the grouping loop wraps: after every initial part `p` of
the slots the entry of address `k` holds exactly `(R / n) * (occurrences of k in p)`,
below `2 ^ 64`. -/
theorem createRewardOutputs_sum (env : Env) (slots : List Address)
    (hne : slots ≠ []) (hR : env.RewardBase < U64) :
    getRewardAmount env slots.length = env.RewardBase / slots.length ∧
    ((createRewardOutputs env slots).map TxOutput.amount).sum =
      slots.length * (env.RewardBase / slots.length) ∧
    slots.length * (env.RewardBase / slots.length) =
      env.RewardBase - env.RewardBase % slots.length ∧
    ((createRewardOutputs env slots).map TxOutput.amount).sum ≤ env.RewardBase ∧
    (∀ p q k v, slots = p ++ q →
      (k, v) ∈ p.foldl (rewardMapAdd (getRewardAmount env slots.length)) [] →
      v = env.RewardBase / slots.length * p.count k ∧ v < U64) := by
  have hlen : slots.length ≠ 0 := by
    intro h
    exact hne (List.length_eq_zero.1 h)
  have hmul : env.RewardBase / slots.length * slots.length ≤ env.RewardBase :=
    Nat.div_mul_le_self _ _
  have hsum : ((createRewardOutputs env slots).map TxOutput.amount).sum =
      slots.length * (env.RewardBase / slots.length) := by
    rw [createRewardOutputs_eq env slots hne]
    have hperm :=
      env.rangeOrder_perm (slots.foldl (rewardMapAdd (env.RewardBase / slots.length)) [])
    have hmap : ∀ l : List (Address × Nat),
        (l.map fun e => NewOutput e.1 e.2 none).map TxOutput.amount = l.map Prod.snd := by
      intro l
      simp [NewOutput, List.map_map, Function.comp_def]
    rw [hmap, (hperm.map Prod.snd).sum_eq]
    have := rewardMap_sum_foldl (env.RewardBase / slots.length) slots [] []
      ⟨by simp, by simp, by simp⟩ (by
        simp only [List.length_nil, Nat.zero_add]
        exact lt_of_le_of_lt hmul hR)
    rw [this]
    simp [Nat.mul_comm]
  refine ⟨by simp [getRewardAmount, hlen], hsum, ?_, ?_, ?_⟩
  · have := Nat.div_add_mod env.RewardBase slots.length
    omega
  · rw [hsum, Nat.mul_comm]
    exact hmul
  · intro p q k v hs hmem
    have hr : getRewardAmount env slots.length = env.RewardBase / slots.length := by
      simp [getRewardAmount, hlen]
    rw [hr] at hmem
    have hpl : p.length ≤ slots.length := by
      rw [hs, List.length_append]
      omega
    have hb : env.RewardBase / slots.length * p.length < U64 :=
      lt_of_le_of_lt (le_trans (Nat.mul_le_mul_left _ hpl) hmul) hR
    have hinv := rewardMapInv_foldl (env.RewardBase / slots.length) p [] []
      ⟨by simp, by simp, by simp⟩ (by simpa using hb)
    have hv := hinv.2.2 k v (by simpa using hmem)
    refine ⟨by simpa using hv, ?_⟩
    have hle : p.count k ≤ p.length := List.count_le_length _ _
    have : v ≤ env.RewardBase / slots.length * p.length := by
      rw [hv]
      simpa using Nat.mul_le_mul_left (env.RewardBase / slots.length) hle
    omega


/-- Witness of C1: the slots `[7, 7, 9]` with `RewardBase = 100`. -/
theorem createRewardOutputs_grouped_witness :
    ([7, 7, 9] : List Address) ≠ [] ∧ demoEnv.RewardBase < U64 ∧
    (createRewardOutputs demoEnv [7, 7, 9]).Perm
      [NewOutput 7 (2 * (demoEnv.RewardBase / 3)) none,
        NewOutput 9 (demoEnv.RewardBase / 3) none] :=
  ⟨by decide, by decide,
    (createRewardOutputs_grouped demoEnv [7, 7, 9] (by decide) (by decide)).2.2.2 7 9
      (by decide) rfl⟩

/-- Witness of C2: the slots `[7, 7, 9]` with `RewardBase = 100` pay `99` in total. -/
theorem createRewardOutputs_sum_witness :
    ([7, 7, 9] : List Address) ≠ [] ∧ demoEnv.RewardBase < U64 ∧
    ((createRewardOutputs demoEnv [7, 7, 9]).map TxOutput.amount).sum =
      [7, 7, 9].length * (demoEnv.RewardBase / [7, 7, 9].length) :=
  ⟨by decide, by decide,
    (createRewardOutputs_sum demoEnv [7, 7, 9] (by decide) (by decide)).2.1⟩

end Miner


namespace Miner

/-! ## Fee transaction -/

theorem feeAmount_foldl {α : Type} (g : α → Nat) (txarr : List α) (acc : Nat)
    (hacc : acc < U64) :
    txarr.foldl (fun acc tx => (acc + g tx) % U64) acc = (acc + (txarr.map g).sum) % U64 := by
  induction txarr generalizing acc with
  | nil => simp [Nat.mod_eq_of_lt hacc]
  | cons tx txarr ih =>
    have hpos : 0 < U64 := by decide
    rw [List.foldl_cons, ih _ (Nat.mod_lt _ hpos), List.map_cons, List.sum_cons,
      Nat.add_mod, Nat.mod_mod, ← Nat.add_mod, Nat.add_assoc]

theorem feeAmount_eq (env : Env) (txarr : List Transaction) :
    feeAmount env txarr = (txarr.map env.GetRealFee).sum % U64 := by
  have := feeAmount_foldl env.GetRealFee txarr 0 (by decide)
  simpa [feeAmount] using this

/-- C3 (as stated, refuted): a batch of two transactions whose real fees are `2 ^ 63` each
has fee sum `2 ^ 64`, not `0`, and `createFeeTx` fails with `ErrZeroFeeAmount` on it. -/
theorem createFeeTx_zero_fee_counterexample :
    createFeeTx demoEnv [hugeFeeTx, hugeFeeTx3] = .error .ErrZeroFeeAmount ∧
    ([hugeFeeTx, hugeFeeTx3].map demoEnv.GetRealFee).sum ≠ 0 :=
  ⟨rfl, by decide⟩

/-- C3 (amended): `createFeeTx` fails with `ErrZeroFeeAmount` exactly when the sum of
`realFee` over the batch is `0` modulo `2 ^ 64`; otherwise its result is the one of the
transaction constructor on options of type `Fee` with fee 0, no inputs and the single
output `(black-hole, sum mod 2 ^ 64)`: that very transaction when hashing succeeds, the
constructor's error when it fails. -/
theorem createFeeTx_spec (env : Env) (txarr : List Transaction) :
    (createFeeTx env txarr = .error .ErrZeroFeeAmount ↔
      (txarr.map env.GetRealFee).sum % U64 = 0) ∧
    ((txarr.map env.GetRealFee).sum % U64 ≠ 0 →
      (∀ h, env.txHash
          { inputs := [],
            outputs := [NewOutput BlackHoleAddress ((txarr.map env.GetRealFee).sum % U64) none],
            fee := 0, num := env.GetBlockCount, txType := .Fee } = some h →
        createFeeTx env txarr = .ok
          { num := env.GetBlockCount, txType := .Fee, hash := h, fee := 0, inputs := [],
            outputs :=
              [NewOutput BlackHoleAddress ((txarr.map env.GetRealFee).sum % U64) none] }) ∧
      (env.txHash
          { inputs := [],
            outputs := [NewOutput BlackHoleAddress ((txarr.map env.GetRealFee).sum % U64) none],
            fee := 0, num := env.GetBlockCount, txType := .Fee } = none →
        createFeeTx env txarr = .error (.external "NewPbTransaction"))) := by
  have hfee := feeAmount_eq env txarr
  refine ⟨?_, ?_⟩
  · constructor
    · intro h
      by_contra hne
      rw [← hfee] at hne
      simp only [createFeeTx, hne, if_false, NewPbTransaction] at h
      split at h <;> simp at h
    · intro h
      rw [← hfee] at h
      simp [createFeeTx, h]
  · intro hne
    have hne' : feeAmount env txarr ≠ 0 := by rwa [hfee]
    refine ⟨?_, ?_⟩
    · intro h hh
      simp only [createFeeTx, NewPbTransaction, hfee, hh, if_neg hne]
    · intro hh
      simp only [createFeeTx, NewPbTransaction, hfee, hh, if_neg hne]

/-- Witness of C3 (amended): the batch `[demoTransfer]` has fee sum 5 and yields the fee
transaction paying 5 to the black-hole address. -/
theorem createFeeTx_spec_witness :
    ([demoTransfer].map demoEnv.GetRealFee).sum % U64 ≠ 0 ∧
    createFeeTx demoEnv [demoTransfer] = .ok
      { num := 1, txType := .Fee, hash := 0, fee := 0, inputs := [],
        outputs := [NewOutput BlackHoleAddress 5 none] } :=
  ⟨by decide, (createFeeTx_spec demoEnv [demoTransfer]).2 (by decide) |>.1 0 rfl⟩

end Miner

namespace Miner

/-! ## Collapse planner -/

/-- The inner loop of `createCollapseTx` takes the UTXOs up to the 2000th input. -/
theorem collectInputs_spec (taken : Nat) (utxo : List UTxO) :
    ∀ (acc : List TxInput) (bal : Nat), taken + acc.length < InputsPerTxLimit →
      collectInputs taken utxo acc bal =
        (acc ++ (utxo.take (InputsPerTxLimit - taken - acc.length)).map UTxO.ToPbInput,
          (utxo.take (InputsPerTxLimit - taken - acc.length)).foldl
            (fun b u => (b + u.amount) % U64) bal,
          decide (InputsPerTxLimit - taken - acc.length ≤ utxo.length)) := by
  induction utxo with
  | nil =>
    intro acc bal h
    have : ¬ InputsPerTxLimit - taken - acc.length ≤ 0 := by omega
    simp [collectInputs, this]
  | cons uo utxo ih =>
    intro acc bal h
    obtain ⟨k, hk⟩ : ∃ k, InputsPerTxLimit - taken - acc.length = k + 1 :=
      ⟨InputsPerTxLimit - taken - acc.length - 1, by omega⟩
    by_cases hlim : taken + (acc ++ [uo.ToPbInput]).length = InputsPerTxLimit
    · have hk0 : k = 0 := by
        rw [List.length_append, List.length_singleton] at hlim
        omega
      subst hk0
      rw [collectInputs]
      simp only [hlim, if_true, hk]
      simp
    · have hlt : taken + (acc ++ [uo.ToPbInput]).length < InputsPerTxLimit := by
        rw [List.length_append, List.length_singleton] at hlim ⊢
        omega
      have hk' : InputsPerTxLimit - taken - (acc ++ [uo.ToPbInput]).length = k := by
        rw [List.length_append, List.length_singleton]
        omega
      rw [collectInputs]
      simp only [hlim, if_false]
      rw [ih _ _ hlt, hk', hk]
      simp

/-- The inner loop of `createCollapseTx` started on an address: inputs taken, their
`uint64` balance, and whether the limit was reached. -/
theorem collectInputs_fresh (taken : Nat) (utxo : List UTxO) (h : taken < InputsPerTxLimit) :
    collectInputs taken utxo [] 0 =
      ((utxo.take (InputsPerTxLimit - taken)).map UTxO.ToPbInput,
        ((utxo.take (InputsPerTxLimit - taken)).map UTxO.amount).sum % U64,
        decide (InputsPerTxLimit - taken ≤ utxo.length)) := by
  have := collectInputs_spec taken utxo [] 0 (by simpa using h)
  rw [this, feeAmount_foldl UTxO.amount _ 0 (by decide)]
  simp

/-- The outer loop of `createCollapseTx`, one iteration: the address is in `skipAddr`. -/
theorem collapseOutputs_skip (env : Env) (out : TxOutput) (outs : List TxOutput)
    (opts : TxOptions) (m : Miner) (h : out.address ∈ m.skipAddr) :
    collapseOutputs env (out :: outs) opts m = collapseOutputs env outs opts m := by
  rw [collapseOutputs]
  simp [h]

/-- The outer loop of `createCollapseTx`, one iteration: the index query fails. -/
theorem collapseOutputs_error (env : Env) (out : TxOutput) (outs : List TxOutput)
    (opts : TxOptions) (m : Miner) (err : String) (h : out.address ∉ m.skipAddr)
    (hq : env.FindAllUTxO out.address = .error err) :
    collapseOutputs env (out :: outs) opts m =
      (.error (.external err),
        { m with calls := m.calls ++ [Call.FindAllUTxO out.address] }) := by
  rw [collapseOutputs]
  simp [h, hq]

/-- The outer loop of `createCollapseTx`, one iteration: fewer than 100 UTXOs. -/
theorem collapseOutputs_few (env : Env) (out : TxOutput) (outs : List TxOutput)
    (opts : TxOptions) (m : Miner) (utxo : List UTxO) (h : out.address ∉ m.skipAddr)
    (hq : env.FindAllUTxO out.address = .ok utxo) (hn : utxo.length < CollapseOutputsNum) :
    collapseOutputs env (out :: outs) opts m =
      collapseOutputs env outs opts
        { skipAddr := skipInsert out.address m.skipAddr,
          calls := m.calls ++ [Call.FindAllUTxO out.address] } := by
  rw [collapseOutputs]
  simp [h, hq, hn]

/-- The outer loop of `createCollapseTx`, one iteration: 100 UTXOs or more.  Either the
address supplies the 2000th input and the loop ends, or all its UTXOs are taken and the
loop goes on. -/
theorem collapseOutputs_many (env : Env) (out : TxOutput) (outs : List TxOutput)
    (opts : TxOptions) (m : Miner) (utxo : List UTxO) (h : out.address ∉ m.skipAddr)
    (hq : env.FindAllUTxO out.address = .ok utxo) (hn : CollapseOutputsNum ≤ utxo.length)
    (hlt : opts.inputs.length < InputsPerTxLimit) :
    collapseOutputs env (out :: outs) opts m =
      if InputsPerTxLimit - opts.inputs.length ≤ utxo.length then
        (.ok
          { opts with
            inputs := opts.inputs ++
              (utxo.take (InputsPerTxLimit - opts.inputs.length)).map UTxO.ToPbInput,
            outputs := opts.outputs ++
              [NewOutput out.address
                (((utxo.take (InputsPerTxLimit - opts.inputs.length)).map UTxO.amount).sum % U64)
                none] },
          { skipAddr := skipInsert out.address m.skipAddr,
            calls := m.calls ++ [Call.FindAllUTxO out.address] })
      else
        collapseOutputs env outs
          { opts with
            inputs := opts.inputs ++ utxo.map UTxO.ToPbInput,
            outputs := opts.outputs ++
              [NewOutput out.address ((utxo.map UTxO.amount).sum % U64) none] }
          { skipAddr := skipInsert out.address m.skipAddr,
            calls := m.calls ++ [Call.FindAllUTxO out.address] } := by
  have hn' : ¬ utxo.length < CollapseOutputsNum := by omega
  have hpos : 0 < utxo.length := by
    have : 0 < CollapseOutputsNum := by decide
    omega
  have hk : 0 < InputsPerTxLimit - opts.inputs.length := by omega
  have hne : utxo ≠ [] := by
    intro h0
    rw [h0] at hpos
    simp at hpos
  have htake : 0 < ((utxo.take (InputsPerTxLimit - opts.inputs.length)).map
      UTxO.ToPbInput).length := by
    rw [List.length_map, List.length_take]
    omega
  rw [collapseOutputs]
  simp only [h, if_false, hq, hn', collectInputs_fresh _ utxo hlt, htake, if_true,
    gt_iff_lt, decide_eq_true_eq]
  split
  · rfl
  · rename_i hnot
    have : utxo.take (InputsPerTxLimit - opts.inputs.length) = utxo :=
      List.take_of_length_le (by omega)
    rw [this]


/-- Membership in the skip set after an insertion. -/
theorem mem_skipInsert (a b : Address) (l : List Address) :
    a ∈ skipInsert b l ↔ a = b ∨ a ∈ l := by
  unfold skipInsert
  split
  · rename_i hb
    constructor
    · exact Or.inr
    · rintro (h | h)
      · rw [h]; exact hb
      · exact h
  · simp

/-- What the outer loop of `createCollapseTx` has added when it ends without error:
a list `plan` of pairs (address, UTXOs taken), one per collapsed address in the order
of the outputs. -/
theorem collapseOutputs_plan (env : Env) (outs : List TxOutput) :
    ∀ (opts : TxOptions) (m : Miner) (opts' : TxOptions) (m' : Miner),
      collapseOutputs env outs opts m = (.ok opts', m') →
      opts.inputs.length < InputsPerTxLimit →
      ∃ plan : List (Address × List UTxO),
        opts' = { opts with
          inputs := opts.inputs ++ (plan.map fun e => e.2.map UTxO.ToPbInput).flatten,
          outputs := opts.outputs ++
            plan.map fun e => NewOutput e.1 ((e.2.map UTxO.amount).sum % U64) none } ∧
        (plan.map Prod.fst).Nodup ∧
        (∀ e ∈ plan, e.1 ∈ outs.map TxOutput.address ∧ e.1 ∉ m.skipAddr ∧ e.2 ≠ [] ∧
          ∃ U, env.FindAllUTxO e.1 = .ok U ∧ CollapseOutputsNum ≤ U.length ∧ e.2 <+: U ∧
            (e.2 ≠ U → opts'.inputs.length = InputsPerTxLimit)) ∧
        opts'.inputs.length ≤ InputsPerTxLimit ∧
        (∀ A ∈ outs.map TxOutput.address, A ∉ m.skipAddr →
          ∀ U, env.FindAllUTxO A = .ok U → CollapseOutputsNum ≤ U.length →
            A ∈ plan.map Prod.fst ∨ opts'.inputs.length = InputsPerTxLimit) := by
  induction outs with
  | nil =>
    intro opts m opts' m' h hlt
    simp only [collapseOutputs, Prod.mk.injEq, Except.ok.injEq] at h
    refine ⟨[], ?_, by simp, by simp, ?_, by simp⟩
    · rw [← h.1]; simp
    · rw [← h.1]; exact Nat.le_of_lt hlt
  | cons out outs ih =>
    intro opts m opts' m' h hlt
    by_cases hskip : out.address ∈ m.skipAddr
    · rw [collapseOutputs_skip env out outs opts m hskip] at h
      obtain ⟨plan, h1, h2, h3, h4, h5⟩ := ih opts m opts' m' h hlt
      refine ⟨plan, h1, h2, ?_, h4, ?_⟩
      · intro e he
        obtain ⟨a1, a2⟩ := h3 e he
        exact ⟨by simp [a1], a2⟩
      · intro A hA hAs U hU hn
        rw [List.map_cons, List.mem_cons] at hA
        rcases hA with hA | hA
        · exact absurd (hA ▸ hskip) hAs
        · exact h5 A hA hAs U hU hn
    · cases hq : env.FindAllUTxO out.address with
      | error err =>
        rw [collapseOutputs_error env out outs opts m err hskip hq] at h
        simp at h
      | ok utxo =>
        have hm1 : ∀ a, a ∉ skipInsert out.address m.skipAddr → a ≠ out.address ∧ a ∉ m.skipAddr := by
          intro a ha
          rw [mem_skipInsert, not_or] at ha
          exact ha
        by_cases hn : utxo.length < CollapseOutputsNum
        · rw [collapseOutputs_few env out outs opts m utxo hskip hq hn] at h
          obtain ⟨plan, h1, h2, h3, h4, h5⟩ := ih opts _ opts' m' h hlt
          refine ⟨plan, h1, h2, ?_, h4, ?_⟩
          · intro e he
            obtain ⟨a1, a2, a3⟩ := h3 e he
            exact ⟨by simp [a1], (hm1 _ a2).2, a3⟩
          · intro A hA hAs U hU hn'
            rw [List.map_cons, List.mem_cons] at hA
            by_cases hAo : A = out.address
            · exfalso
              rw [hAo, hq] at hU
              injection hU with hU
              subst hU
              omega
            · rcases hA with hA | hA
              · exact absurd hA hAo
              · refine h5 A hA ?_ U hU hn'
                rw [mem_skipInsert, not_or]
                exact ⟨hAo, hAs⟩
        · have hn' : CollapseOutputsNum ≤ utxo.length := by omega
          have hpos : 0 < CollapseOutputsNum := by decide
          have hne : utxo ≠ [] := by
            intro h0
            rw [h0] at hn'
            simp at hn'
            omega
          rw [collapseOutputs_many env out outs opts m utxo hskip hq hn' hlt] at h
          by_cases hcut : InputsPerTxLimit - opts.inputs.length ≤ utxo.length
          · rw [if_pos hcut] at h
            simp only [Prod.mk.injEq, Except.ok.injEq] at h
            have hlen : opts'.inputs.length = InputsPerTxLimit := by
              rw [← h.1]
              simp only [List.length_append, List.length_map, List.length_take]
              omega
            refine ⟨[(out.address, utxo.take (InputsPerTxLimit - opts.inputs.length))],
              ?_, by simp, ?_, by omega, ?_⟩
            · rw [← h.1]; simp
            · intro e he
              rw [List.mem_singleton] at he
              subst he
              refine ⟨by simp, hskip, ?_, utxo, hq, hn', List.take_prefix _ _, fun _ => hlen⟩
              intro h0
              have := congrArg List.length h0
              rw [List.length_take] at this
              simp at this
              rcases this with h | h
              · omega
              · exact hne h
            · intro A _ _ U _ _
              exact Or.inr hlen
          · rw [if_neg hcut] at h
            have hlt1 : (opts.inputs ++ utxo.map UTxO.ToPbInput).length < InputsPerTxLimit := by
              rw [List.length_append, List.length_map]
              omega
            obtain ⟨plan, h1, h2, h3, h4, h5⟩ := ih _ _ opts' m' h hlt1
            refine ⟨(out.address, utxo) :: plan, ?_, ?_, ?_, h4, ?_⟩
            · rw [h1]; simp
            · rw [List.map_cons, List.nodup_cons]
              refine ⟨?_, h2⟩
              intro hmem
              obtain ⟨e, he, hea⟩ := List.mem_map.1 hmem
              have := (hm1 _ (h3 e he).2.1).1
              exact this hea
            · intro e he
              rw [List.mem_cons] at he
              rcases he with he | he
              · subst he
                exact ⟨by simp, hskip, hne, utxo, hq, hn', List.prefix_refl _,
                  fun hh => absurd rfl hh⟩
              · obtain ⟨a1, a2, a3⟩ := h3 e he
                exact ⟨by simp [a1], (hm1 _ a2).2, a3⟩
            · intro A hA hAs U hU hnU
              rw [List.map_cons, List.mem_cons] at hA
              by_cases hAo : A = out.address
              · left
                simp [hAo]
              · rcases hA with hA | hA
                · exact absurd hA hAo
                · have hAs1 : A ∉ skipInsert out.address m.skipAddr := by
                    rw [mem_skipInsert, not_or]
                    exact ⟨hAo, hAs⟩
                  rcases h5 A hA hAs1 U hU hnU with h | h
                  · left
                    simp [h]
                  · exact Or.inr h


/-- A collapse transaction returned by `createCollapseTx` is built from the options
its loop has accumulated, which hold at least one input. -/
theorem createCollapseTx_some (env : Env) (tx : Transaction) (bn : Nat) (m : Miner)
    (c : Transaction) (m' : Miner) (h : createCollapseTx env tx bn m = (.ok (some c), m')) :
    ∃ opts' hash,
      collapseOutputs env tx.outputs
        { inputs := [], outputs := [], fee := 0, num := bn, txType := .Collapse }
        (if tx.txType ≠ .Reward then { m with skipAddr := skipInsert (env.From tx) m.skipAddr }
          else m) = (.ok opts', m') ∧
      0 < opts'.inputs.length ∧
      c = { num := opts'.num, txType := opts'.txType, hash := hash, fee := opts'.fee,
            inputs := opts'.inputs, outputs := opts'.outputs } := by
  unfold createCollapseTx at h
  split at h
  · simp at h
  · simp only at h
    split at h
    · simp at h
    · rename_i opts' m1 heq
      split at h
      · rename_i hpos
        unfold NewPbTransaction at h
        cases hh : env.txHash opts' with
        | none => simp [hh] at h
        | some hash =>
          simp only [hh, Prod.mk.injEq, Except.ok.injEq, Option.some.injEq] at h
          refine ⟨opts', hash, ?_, hpos, h.1.symm⟩
          rw [heq, h.2]
      · simp at h

/-- The run of `createCollapseTx` when the first output address alone fills the
2000 inputs. -/
theorem createCollapseTx_first_fills (env : Env) (tx : Transaction) (bn : Nat) (m : Miner)
    (out : TxOutput) (outs : List TxOutput) (U : List UTxO) (hash : Nat)
    (hout : tx.outputs = out :: outs) (hty : tx.txType ≠ .Reward)
    (hfrom : out.address ≠ env.From tx) (hskip : out.address ∉ m.skipAddr)
    (hq : env.FindAllUTxO out.address = .ok U) (hlen : InputsPerTxLimit ≤ U.length)
    (hh : env.txHash
      { inputs := (U.take InputsPerTxLimit).map UTxO.ToPbInput,
        outputs :=
          [NewOutput out.address (((U.take InputsPerTxLimit).map UTxO.amount).sum % U64) none],
        fee := 0, num := bn, txType := .Collapse } = some hash) :
    createCollapseTx env tx bn m =
      (.ok (some
        { num := bn, txType := .Collapse, hash := hash, fee := 0,
          inputs := (U.take InputsPerTxLimit).map UTxO.ToPbInput,
          outputs :=
            [NewOutput out.address
              (((U.take InputsPerTxLimit).map UTxO.amount).sum % U64) none] }),
        { skipAddr := skipInsert out.address (skipInsert (env.From tx) m.skipAddr),
          calls := m.calls ++ [Call.FindAllUTxO out.address] }) := by
  have h100 : CollapseOutputsNum ≤ U.length :=
    le_trans (by decide : CollapseOutputsNum ≤ InputsPerTxLimit) hlen
  have hskip' : out.address ∉ skipInsert (env.From tx) m.skipAddr := by
    rw [mem_skipInsert, not_or]
    exact ⟨hfrom, hskip⟩
  have hrun := collapseOutputs_many env out outs
    { inputs := [], outputs := [], fee := 0, num := bn, txType := .Collapse }
    { m with skipAddr := skipInsert (env.From tx) m.skipAddr } U hskip' hq h100
    (by simp [InputsPerTxLimit])
  rw [if_pos (by simpa using hlen)] at hrun
  simp only [List.length_nil, Nat.sub_zero, List.nil_append] at hrun
  have hpos : 0 < ((U.take InputsPerTxLimit).map UTxO.ToPbInput).length := by
    rw [List.length_map, List.length_take]
    have : 0 < InputsPerTxLimit := by decide
    omega
  unfold createCollapseTx
  rw [hout, if_neg (by simp), if_pos hty]
  simp only [hrun, gt_iff_lt, hpos, if_true, NewPbTransaction, hh]

/-- The run of `createCollapseTx` on a transaction with a single output whose address
owns between 100 and 1999 UTXOs. -/
theorem createCollapseTx_single (env : Env) (tx : Transaction) (bn : Nat) (m : Miner)
    (out : TxOutput) (U : List UTxO) (hash : Nat)
    (hout : tx.outputs = [out]) (hty : tx.txType ≠ .Reward)
    (hfrom : out.address ≠ env.From tx) (hskip : out.address ∉ m.skipAddr)
    (hq : env.FindAllUTxO out.address = .ok U) (h100 : CollapseOutputsNum ≤ U.length)
    (hlen : U.length < InputsPerTxLimit)
    (hh : env.txHash
      { inputs := U.map UTxO.ToPbInput,
        outputs := [NewOutput out.address ((U.map UTxO.amount).sum % U64) none],
        fee := 0, num := bn, txType := .Collapse } = some hash) :
    createCollapseTx env tx bn m =
      (.ok (some
        { num := bn, txType := .Collapse, hash := hash, fee := 0,
          inputs := U.map UTxO.ToPbInput,
          outputs := [NewOutput out.address ((U.map UTxO.amount).sum % U64) none] }),
        { skipAddr := skipInsert out.address (skipInsert (env.From tx) m.skipAddr),
          calls := m.calls ++ [Call.FindAllUTxO out.address] }) := by
  have hskip' : out.address ∉ skipInsert (env.From tx) m.skipAddr := by
    rw [mem_skipInsert, not_or]
    exact ⟨hfrom, hskip⟩
  have hrun := collapseOutputs_many env out []
    { inputs := [], outputs := [], fee := 0, num := bn, txType := .Collapse }
    { m with skipAddr := skipInsert (env.From tx) m.skipAddr } U hskip' hq h100
    (by simp [InputsPerTxLimit])
  have hnil : ∀ (opts : TxOptions) (m : Miner),
      collapseOutputs env [] opts m = (.ok opts, m) := by
    intro opts m
    rw [collapseOutputs]
  rw [if_neg (by simpa using hlen), hnil] at hrun
  simp only [List.nil_append] at hrun
  have hpos : 0 < (U.map UTxO.ToPbInput).length := by
    rw [List.length_map]
    have : 0 < CollapseOutputsNum := by decide
    omega
  unfold createCollapseTx
  rw [hout, if_neg (by simp), if_pos hty]
  simp only [hrun, gt_iff_lt, hpos, if_true, NewPbTransaction, hh]

/-- The collapse transaction planned for `capTx`: the 2000 UTXOs of address 2. -/
theorem capExample_run :
    createCollapseTx capEnv capTx 1 freshMiner =
      (.ok (some
        { num := 1, txType := .Collapse, hash := 0, fee := 0,
          inputs := ((manyUTxO 2 2000).take InputsPerTxLimit).map UTxO.ToPbInput,
          outputs :=
            [NewOutput 2
              ((((manyUTxO 2 2000).take InputsPerTxLimit).map UTxO.amount).sum % U64) none] }),
        { skipAddr := skipInsert 2 (skipInsert 1 []), calls := [] ++ [Call.FindAllUTxO 2] }) :=
  createCollapseTx_first_fills capEnv capTx 1 freshMiner
    { address := 2, amount := 10, node := none } [{ address := 3, amount := 5, node := none }]
    (manyUTxO 2 2000) 0 rfl (by decide) (by decide) (by decide) rfl
    (by simp [manyUTxO, InputsPerTxLimit]) rfl

/-- C5 (as stated, refuted): address 3 is an output address of `capTx`, is in no skip set
and owns 100 unspent outputs, yet the collapse transaction planned for `capTx` has a
single output, to address 2: the 2000 inputs of address 2 ended the pass before 3.  And
when address 3 owns 100 UTXOs of value `2 ^ 63`, all taken as inputs, the output to 3 has
amount 0, not the sum `100 * 2 ^ 63` of their amounts. -/
theorem createCollapseTx_threshold_counterexample :
    (∃ c m', createCollapseTx capEnv capTx 1 freshMiner = (.ok (some c), m') ∧
      (3 : Address) ∈ capTx.outputs.map TxOutput.address ∧
      capEnv.From capTx ≠ 3 ∧
      (∃ U, capEnv.FindAllUTxO 3 = .ok U ∧ CollapseOutputsNum ≤ U.length) ∧
      c.outputs.map TxOutput.address = [2]) ∧
    (∃ c m', createCollapseTx hugeIndexEnv payThreeTx 1 freshMiner = (.ok (some c), m') ∧
      c.inputs = (hugeUTxO 3 100).map UTxO.ToPbInput ∧
      c.outputs = [NewOutput 3 0 none] ∧
      ((hugeUTxO 3 100).map UTxO.amount).sum = 100 * 2 ^ 63) :=
  ⟨⟨_, _, capExample_run, by decide, by decide,
      ⟨manyUTxO 3 100, rfl, by simp [manyUTxO, CollapseOutputsNum]⟩, rfl⟩,
    ⟨_, _,
      createCollapseTx_single hugeIndexEnv payThreeTx 1 freshMiner
        { address := 3, amount := 10, node := none } (hugeUTxO 3 100) 0 rfl (by decide)
        (by decide) (by decide) rfl (by simp [hugeUTxO, CollapseOutputsNum])
        (by simp [hugeUTxO, InputsPerTxLimit]) rfl,
      rfl, by decide, by decide⟩⟩

/-- C5 (amended): every collapse transaction returned by `createCollapseTx` for `T` is
built from a list `plan` of pairs (address, UTXOs taken): its inputs are the UTXOs taken,
address after address, and it has exactly one output per planned address, whose amount is
the sum modulo `2 ^ 64` of the amounts of the UTXOs taken for it.  A planned address is an
output address of `T` outside `skipAddr` (and is not the sender of a non-reward `T`) for
which the index returned at least 100 UTXOs; the UTXOs taken are a non-empty initial part
of that list, the whole list unless the transaction has reached 2000 inputs.  So an
address with fewer than 100 UTXOs gets no input and no output, and an output address with
100 or more that is outside the skip set gets exactly one output unless the 2000-input
cap has cut the pass. -/
theorem createCollapseTx_threshold (env : Env) (tx : Transaction) (bn : Nat) (m : Miner)
    (c : Transaction) (m' : Miner) (h : createCollapseTx env tx bn m = (.ok (some c), m')) :
    ∃ plan : List (Address × List UTxO),
      c.inputs = (plan.map fun e => e.2.map UTxO.ToPbInput).flatten ∧
      c.outputs = plan.map (fun e => NewOutput e.1 ((e.2.map UTxO.amount).sum % U64) none) ∧
      (plan.map Prod.fst).Nodup ∧
      (∀ e ∈ plan, e.1 ∈ tx.outputs.map TxOutput.address ∧ e.1 ∉ m.skipAddr ∧
        (tx.txType ≠ .Reward → e.1 ≠ env.From tx) ∧ e.2 ≠ [] ∧
        ∃ U, env.FindAllUTxO e.1 = .ok U ∧ CollapseOutputsNum ≤ U.length ∧ e.2 <+: U ∧
          (e.2 ≠ U → c.inputs.length = InputsPerTxLimit)) ∧
      (∀ A U, env.FindAllUTxO A = .ok U → U.length < CollapseOutputsNum →
        A ∉ plan.map Prod.fst) ∧
      (∀ A ∈ tx.outputs.map TxOutput.address, A ∉ m.skipAddr →
        (tx.txType ≠ .Reward → A ≠ env.From tx) →
        ∀ U, env.FindAllUTxO A = .ok U → CollapseOutputsNum ≤ U.length →
          A ∈ plan.map Prod.fst ∨ c.inputs.length = InputsPerTxLimit) := by
  obtain ⟨opts', hash, hrun, _, hc⟩ := createCollapseTx_some env tx bn m c m' h
  obtain ⟨plan, h1, h2, h3, _, h5⟩ :=
    collapseOutputs_plan env tx.outputs _ _ opts' m' hrun (by simp [InputsPerTxLimit])
  have hin : c.inputs = opts'.inputs := by rw [hc]
  have hskip : ∀ a, a ∉ (if tx.txType ≠ .Reward then
        ({ m with skipAddr := skipInsert (env.From tx) m.skipAddr } : Miner) else m).skipAddr ↔
      (a ∉ m.skipAddr ∧ (tx.txType ≠ .Reward → a ≠ env.From tx)) := by
    intro a
    by_cases hty : tx.txType ≠ .Reward
    · rw [if_pos hty]
      simp only [mem_skipInsert, not_or]
      constructor
      · exact fun h => ⟨h.2, fun _ => h.1⟩
      · exact fun h => ⟨h.2 hty, h.1⟩
    · rw [if_neg hty]
      constructor
      · exact fun h => ⟨h, fun h' => absurd h' hty⟩
      · exact fun h => h.1
  refine ⟨plan, ?_, ?_, h2, ?_, ?_, ?_⟩
  · rw [hin, h1]; simp
  · rw [hc, h1]; simp
  · intro e he
    obtain ⟨a1, a2, a3, U, a4, a5, a6, a7⟩ := h3 e he
    have := (hskip e.1).1 a2
    exact ⟨a1, this.1, this.2, a3, U, a4, a5, a6, fun hne => by rw [hin]; exact a7 hne⟩
  · intro A U hU hlt hmem
    obtain ⟨e, he, hea⟩ := List.mem_map.1 hmem
    obtain ⟨_, _, _, U', a4, a5, _⟩ := h3 e he
    rw [hea, hU] at a4
    injection a4 with a4
    subst a4
    omega
  · intro A hA hAs hAf U hU hn
    rw [hin]
    exact h5 A hA ((hskip A).2 ⟨hAs, hAf⟩) U hU hn

/-- Witness of C5 (amended): the collapse transaction planned for `capTx`. -/
theorem createCollapseTx_threshold_witness :
    ∃ c m', createCollapseTx capEnv capTx 1 freshMiner = (.ok (some c), m') ∧
      ∃ plan : List (Address × List UTxO),
        c.outputs = plan.map (fun e => NewOutput e.1 ((e.2.map UTxO.amount).sum % U64) none) ∧
        (plan.map Prod.fst).Nodup :=
  ⟨_, _,
    capExample_run,
    (createCollapseTx_threshold capEnv capTx 1 _ _ _
      capExample_run).imp
      fun _ hp => ⟨hp.2.1, hp.2.2.1⟩⟩

/-- C6: a collapse transaction returned by `createCollapseTx` has at most
`InputsPerTxLimit = 2000` inputs; and when the address at hand supplies the 2000th input,
the loop stops there: only the first `2000 - len(opts.Inputs)` UTXOs of that address are
taken, and the result does not depend on the remaining outputs `outs` of the transaction
(no further index query is recorded, no further address enters `skipAddr`). -/
theorem createCollapseTx_input_cap :
    (∀ (env : Env) (tx : Transaction) (bn : Nat) (m : Miner) (c : Transaction) (m' : Miner),
      createCollapseTx env tx bn m = (.ok (some c), m') →
        c.inputs.length ≤ InputsPerTxLimit) ∧
    (∀ (env : Env) (out : TxOutput) (outs : List TxOutput) (opts : TxOptions) (m : Miner)
      (utxo : List UTxO),
      out.address ∉ m.skipAddr → env.FindAllUTxO out.address = .ok utxo →
      CollapseOutputsNum ≤ utxo.length → opts.inputs.length < InputsPerTxLimit →
      InputsPerTxLimit - opts.inputs.length ≤ utxo.length →
      collapseOutputs env (out :: outs) opts m =
        (.ok
          { opts with
            inputs := opts.inputs ++
              (utxo.take (InputsPerTxLimit - opts.inputs.length)).map UTxO.ToPbInput,
            outputs := opts.outputs ++
              [NewOutput out.address
                (((utxo.take (InputsPerTxLimit - opts.inputs.length)).map UTxO.amount).sum % U64)
                none] },
          { skipAddr := skipInsert out.address m.skipAddr,
            calls := m.calls ++ [Call.FindAllUTxO out.address] }) ∧
      (opts.inputs ++
        (utxo.take (InputsPerTxLimit - opts.inputs.length)).map UTxO.ToPbInput).length =
          InputsPerTxLimit) := by
  refine ⟨?_, ?_⟩
  · intro env tx bn m c m' h
    obtain ⟨opts', hash, hrun, _, hc⟩ := createCollapseTx_some env tx bn m c m' h
    obtain ⟨plan, _, _, _, h4, _⟩ :=
      collapseOutputs_plan env tx.outputs _ _ opts' m' hrun (by simp [InputsPerTxLimit])
    rw [hc]
    exact h4
  · intro env out outs opts m utxo hskip hq hn hlt hcut
    refine ⟨?_, ?_⟩
    · rw [collapseOutputs_many env out outs opts m utxo hskip hq hn hlt, if_pos hcut]
    · rw [List.length_append, List.length_map, List.length_take]
      omega

/-- Witness of C6: the collapse transaction planned for `capTx` has 2000 inputs, within
the cap. -/
theorem createCollapseTx_input_cap_witness :
    ∃ c m', createCollapseTx capEnv capTx 1 freshMiner = (.ok (some c), m') ∧
      c.inputs.length ≤ InputsPerTxLimit :=
  ⟨_, _,
    capExample_run,
    createCollapseTx_input_cap.1 capEnv capTx 1 _ _ _
      capExample_run⟩

end Miner

namespace Miner

/-! ## ForgeBlock -/

theorem createCollapseTx_type (env : Env) (tx : Transaction) (bn : Nat) (m : Miner)
    (c : Transaction) (m' : Miner) (h : createCollapseTx env tx bn m = (.ok (some c), m')) :
    c.txType = .Collapse ∧ c.fee = 0 ∧ c.num = bn := by
  obtain ⟨opts', hash, hrun, _, hc⟩ := createCollapseTx_some env tx bn m c m' h
  obtain ⟨plan, h1, _⟩ :=
    collapseOutputs_plan env tx.outputs _ _ opts' m' hrun (by simp [InputsPerTxLimit])
  rw [hc, h1]
  simp

theorem createRewardTx_type (env : Env) (bn : Nat) (r : Transaction)
    (h : createRewardTx env bn = .ok r) :
    r.txType = .Reward ∧ r.fee = 0 ∧ r.inputs = [] ∧
      r.outputs = createRewardOutputs env env.GetStakeSlots := by
  unfold createRewardTx at h
  simp only at h
  split at h
  · simp at h
  · unfold NewPbTransaction at h
    split at h
    · simp at h
    · simp only [Except.ok.injEq] at h
      rw [← h]
      simp

/-- The loop of `ForgeBlock`, one iteration: the batch is full. -/
theorem forgeLoop_full (env : Env) (cap : Int) (tx : Transaction) (q : List Transaction)
    (st : ForgeState) (m : Miner)
    (h : (st.txBatch.length : Int) + st.collapseBatch.length = cap) :
    forgeLoop env cap (tx :: q) st m = (.ok st, m) := by
  rw [forgeLoop]
  simp [h]

/-- The loop of `ForgeBlock`, one iteration: the transaction does not fit. -/
theorem forgeLoop_too_big (env : Env) (cap : Int) (tx : Transaction) (q : List Transaction)
    (st : ForgeState) (m : Miner)
    (hcap : (st.txBatch.length : Int) + st.collapseBatch.length ≠ cap)
    (hsize : st.totalSize + (env.Size tx : Int) > env.BlockSize) :
    forgeLoop env cap (tx :: q) st m = forgeLoop env cap q st m := by
  rw [forgeLoop]
  simp [hcap, hsize]

/-- The loop of `ForgeBlock`, one iteration: a stake transaction whose reservation
fails. -/
theorem forgeLoop_rejected (env : Env) (cap : Int) (tx : Transaction) (q : List Transaction)
    (st : ForgeState) (m : Miner)
    (hcap : (st.txBatch.length : Int) + st.collapseBatch.length ≠ cap)
    (hsize : st.totalSize + (env.Size tx : Int) ≤ env.BlockSize)
    (hstake : tx.txType = .Stake)
    (hres : (env.ReserveSlots m.calls (stakeAmount tx)).isSome) :
    forgeLoop env cap (tx :: q) st m =
      match env.DeleteTransaction (m.calls ++ [Call.ReserveSlots (stakeAmount tx)]) tx with
      | some err =>
        (.error (.wrap "Error creating block" (.external err)),
          { m with calls := m.calls ++
              [Call.ReserveSlots (stakeAmount tx), Call.DeleteTransaction tx] })
      | none =>
        forgeLoop env cap q st
          { m with calls := m.calls ++
              [Call.ReserveSlots (stakeAmount tx), Call.DeleteTransaction tx] } := by
  have hsize' : ¬ st.totalSize + (env.Size tx : Int) > env.BlockSize := by omega
  rw [forgeLoop]
  simp only [hcap, if_false, hsize', hstake, hres, and_self, if_true, List.append_assoc,
    List.singleton_append]

/-- The state reached by one iteration of the loop of `ForgeBlock` that admits `tx`,
given the outcome of the collapse planner. -/
theorem forgeLoop_accept (env : Env) (cap : Int) (tx : Transaction) (q : List Transaction)
    (st : ForgeState) (m : Miner)
    (hcap : (st.txBatch.length : Int) + st.collapseBatch.length ≠ cap)
    (hsize : st.totalSize + (env.Size tx : Int) ≤ env.BlockSize)
    (hok : ¬ (tx.txType = .Stake ∧ (env.ReserveSlots m.calls (stakeAmount tx)).isSome)) :
    forgeLoop env cap (tx :: q) st m =
      match createCollapseTx env tx env.GetBlockCount
          (if tx.txType = .Stake then
            { m with calls := m.calls ++ [Call.ReserveSlots (stakeAmount tx)] } else m) with
      | (.error err, m3) => (.error (err.wrapWith "Error collapsing tx outputs"), m3)
      | (.ok none, m3) =>
        if st.totalSize + (env.Size tx : Int) = env.BlockSize then
          (.ok ⟨st.txBatch ++ [tx], st.collapseBatch, st.totalSize + env.Size tx⟩, m3)
        else
          forgeLoop env cap q ⟨st.txBatch ++ [tx], st.collapseBatch, st.totalSize + env.Size tx⟩ m3
      | (.ok (some ctx), m3) =>
        match env.InsertCollapseTx m3.calls ctx with
        | some _ =>
          if st.totalSize + (env.Size tx : Int) = env.BlockSize then
            (.ok ⟨st.txBatch ++ [tx], st.collapseBatch, st.totalSize + env.Size tx⟩,
              { m3 with calls := m3.calls ++ [Call.InsertCollapseTx ctx] })
          else
            forgeLoop env cap q
              ⟨st.txBatch ++ [tx], st.collapseBatch, st.totalSize + env.Size tx⟩
              { m3 with calls := m3.calls ++ [Call.InsertCollapseTx ctx] }
        | none =>
          if st.totalSize + (env.Size tx : Int) + env.Size ctx = env.BlockSize then
            (.ok ⟨st.txBatch ++ [tx], st.collapseBatch ++ [ctx],
                st.totalSize + env.Size tx + env.Size ctx⟩,
              { m3 with calls := m3.calls ++ [Call.InsertCollapseTx ctx] })
          else
            forgeLoop env cap q
              ⟨st.txBatch ++ [tx], st.collapseBatch ++ [ctx],
                st.totalSize + env.Size tx + env.Size ctx⟩
              { m3 with calls := m3.calls ++ [Call.InsertCollapseTx ctx] } := by
  have hsize' : ¬ st.totalSize + (env.Size tx : Int) > env.BlockSize := by omega
  rw [forgeLoop]
  simp only [hcap, if_false, hsize', hok]
  generalize createCollapseTx env tx env.GetBlockCount
    (if tx.txType = .Stake then
      { m with calls := m.calls ++ [Call.ReserveSlots (stakeAmount tx)] } else m) = r
  rcases r with ⟨(err | (_ | ctx)), m3⟩
  · rfl
  · rfl
  · simp only
    cases env.InsertCollapseTx m3.calls ctx <;> rfl


/-- What the loop of `ForgeBlock` has done when it ends without error: it has appended
to `txBatch` transactions `users` of the queue, in queue order, and to `collapseBatch`
collapse transactions `cs` planned from them; `totalSize` has grown by at least the
sizes of `users`, and stood within `BlockSize` when the last of them was admitted. -/
theorem forgeLoop_shape (env : Env) (cap : Int) (q : List Transaction) :
    ∀ (st : ForgeState) (m : Miner) (st' : ForgeState) (m' : Miner),
      forgeLoop env cap q st m = (.ok st', m') →
      ∃ users cs,
        st'.txBatch = st.txBatch ++ users ∧ st'.collapseBatch = st.collapseBatch ++ cs ∧
        users.Sublist q ∧
        (∀ c ∈ cs, c.txType = .Collapse ∧ ∃ t ∈ users, ∃ m1 m2,
          createCollapseTx env t env.GetBlockCount m1 = (.ok (some c), m2)) ∧
        st.totalSize + ((users.map env.Size).sum : Nat) ≤ st'.totalSize ∧
        (users ≠ [] → st.totalSize + ((users.map env.Size).sum : Nat) ≤ env.BlockSize) := by
  induction q with
  | nil =>
    intro st m st' m' h
    simp only [forgeLoop, Prod.mk.injEq, Except.ok.injEq] at h
    refine ⟨[], [], ?_, ?_, List.Sublist.refl _, by simp, ?_, by simp⟩
    · rw [← h.1]; simp
    · rw [← h.1]; simp
    · rw [← h.1]; simp
  | cons tx q ih =>
    intro st m st' m' h
    by_cases hcap : (st.txBatch.length : Int) + st.collapseBatch.length = cap
    · rw [forgeLoop_full env cap tx q st m hcap] at h
      simp only [Prod.mk.injEq, Except.ok.injEq] at h
      refine ⟨[], [], ?_, ?_, List.nil_sublist _, by simp, ?_, by simp⟩
      · rw [← h.1]; simp
      · rw [← h.1]; simp
      · rw [← h.1]; simp
    by_cases hsize : st.totalSize + (env.Size tx : Int) > env.BlockSize
    · rw [forgeLoop_too_big env cap tx q st m hcap hsize] at h
      obtain ⟨users, cs, h1, h2, h3, h4⟩ := ih st m st' m' h
      exact ⟨users, cs, h1, h2, h3.cons tx, h4⟩
    have hfit : st.totalSize + (env.Size tx : Int) ≤ env.BlockSize := by omega
    by_cases hrej : tx.txType = .Stake ∧ (env.ReserveSlots m.calls (stakeAmount tx)).isSome
    · rw [forgeLoop_rejected env cap tx q st m hcap hfit hrej.1 hrej.2] at h
      cases hdel : env.DeleteTransaction (m.calls ++ [Call.ReserveSlots (stakeAmount tx)]) tx with
      | some err => simp [hdel] at h
      | none =>
        simp only [hdel] at h
        obtain ⟨users, cs, h1, h2, h3, h4⟩ := ih st _ st' m' h
        exact ⟨users, cs, h1, h2, h3.cons tx, h4⟩
    have key : ∀ (st1 : ForgeState) (m1 : Miner) (cs0 : List Transaction),
        st1.txBatch = st.txBatch ++ [tx] → st1.collapseBatch = st.collapseBatch ++ cs0 →
        st.totalSize + (env.Size tx : Int) ≤ st1.totalSize →
        (∀ c ∈ cs0, c.txType = .Collapse ∧ ∃ m1 m2,
          createCollapseTx env tx env.GetBlockCount m1 = (.ok (some c), m2)) →
        (if st1.totalSize = env.BlockSize then (Except.ok st1, m1)
          else forgeLoop env cap q st1 m1) = (.ok st', m') →
        ∃ users cs,
          st'.txBatch = st.txBatch ++ users ∧ st'.collapseBatch = st.collapseBatch ++ cs ∧
          users.Sublist (tx :: q) ∧
          (∀ c ∈ cs, c.txType = .Collapse ∧ ∃ t ∈ users, ∃ m1 m2,
            createCollapseTx env t env.GetBlockCount m1 = (.ok (some c), m2)) ∧
          st.totalSize + ((users.map env.Size).sum : Nat) ≤ st'.totalSize ∧
          (users ≠ [] → st.totalSize + ((users.map env.Size).sum : Nat) ≤ env.BlockSize) := by
      intro st1 m1 cs0 e1 e2 e3 e4 hres
      by_cases hbreak : st1.totalSize = env.BlockSize
      · rw [if_pos hbreak] at hres
        simp only [Prod.mk.injEq, Except.ok.injEq] at hres
        refine ⟨[tx], cs0, ?_, ?_, ?_, ?_, ?_, ?_⟩
        · rw [← hres.1, e1]
        · rw [← hres.1, e2]
        · exact (List.nil_sublist q).cons₂ tx
        · intro c hc
          obtain ⟨a1, a2⟩ := e4 c hc
          exact ⟨a1, tx, by simp, a2⟩
        · rw [← hres.1]
          simpa using e3
        · intro _
          simpa using hfit
      · rw [if_neg hbreak] at hres
        obtain ⟨users, cs, h1, h2, h3, h4, h5, h6⟩ := ih st1 m1 st' m' hres
        refine ⟨tx :: users, cs0 ++ cs, ?_, ?_, h3.cons₂ tx, ?_, ?_, ?_⟩
        · rw [h1, e1]; simp
        · rw [h2, e2]; simp
        · intro c hc
          rcases List.mem_append.1 hc with hc | hc
          · obtain ⟨a1, a2⟩ := e4 c hc
            exact ⟨a1, tx, by simp, a2⟩
          · obtain ⟨a1, t, a2, a3⟩ := h4 c hc
            exact ⟨a1, t, by simp [a2], a3⟩
        · simp only [List.map_cons, List.sum_cons, Nat.cast_add]
          omega
        · intro _
          simp only [List.map_cons, List.sum_cons, Nat.cast_add]
          by_cases hu : users = []
          · subst hu
            simpa using hfit
          · have := h6 hu
            omega
    rw [forgeLoop_accept env cap tx q st m hcap hfit hrej] at h
    rcases hr : createCollapseTx env tx env.GetBlockCount
      (if tx.txType = .Stake then
        { m with calls := m.calls ++ [Call.ReserveSlots (stakeAmount tx)] } else m)
      with ⟨(err | (_ | ctx)), m3⟩
    · simp [hr] at h
    · simp only [hr] at h
      exact key ⟨st.txBatch ++ [tx], st.collapseBatch, st.totalSize + env.Size tx⟩ m3 []
        rfl (by simp) (le_refl _) (by simp) h
    · simp only [hr] at h
      cases hins : env.InsertCollapseTx m3.calls ctx with
      | some e =>
        simp only [hins] at h
        exact key ⟨st.txBatch ++ [tx], st.collapseBatch, st.totalSize + env.Size tx⟩ _ []
          rfl (by simp) (le_refl _) (by simp) h
      | none =>
        simp only [hins] at h
        refine key ⟨st.txBatch ++ [tx], st.collapseBatch ++ [ctx],
          st.totalSize + env.Size tx + env.Size ctx⟩ _ [ctx] rfl rfl ?_ ?_ h
        · simp only
          omega
        · intro c hc
          rw [List.mem_singleton] at hc
          subst hc
          exact ⟨(createCollapseTx_type env tx _ _ c m3 hr).1, _, _, hr⟩


theorem createFeeTx_ok (env : Env) (txarr : List Transaction) (f : Transaction)
    (h : createFeeTx env txarr = .ok f) :
    (txarr.map env.GetRealFee).sum % U64 ≠ 0 ∧ f.txType = .Fee ∧ f.fee = 0 ∧ f.inputs = [] ∧
      f.num = env.GetBlockCount ∧
      f.outputs = [NewOutput BlackHoleAddress ((txarr.map env.GetRealFee).sum % U64) none] := by
  unfold createFeeTx at h
  simp only [feeAmount_eq] at h
  split at h
  · simp at h
  · rename_i hne
    unfold NewPbTransaction at h
    split at h
    · simp at h
    · simp only [Except.ok.injEq] at h
      rw [← h]
      exact ⟨hne, rfl, rfl, rfl, rfl, rfl⟩

theorem createFeeTx_error (env : Env) (txarr : List Transaction) (e : Err)
    (h : createFeeTx env txarr = .error e) (hz : e.is .ErrZeroFeeAmount = true) :
    e = .ErrZeroFeeAmount ∧ (txarr.map env.GetRealFee).sum % U64 = 0 := by
  unfold createFeeTx at h
  simp only [feeAmount_eq] at h
  split at h
  · rename_i h0
    simp only [Except.error.injEq] at h
    exact ⟨h.symm, h0⟩
  · unfold NewPbTransaction at h
    split at h
    · simp only [Except.error.injEq] at h
      rw [← h] at hz
      simp [Err.is] at hz
    · simp at h

/-- What the reward step of `ForgeBlock` leaves when it succeeds. -/
theorem addRewardTxToBatch_shape (env : Env) (m : Miner) (st : ForgeState) (m' : Miner)
    (h : addRewardTxToBatch env [] [] 0 m = (.ok st, m')) :
    (st.txBatch = [] ∨ ∃ r, createRewardTx env env.GetBlockCount = .ok r ∧ st.txBatch = [r]) ∧
    (∀ c ∈ st.collapseBatch, c.txType = .Collapse ∧ ∃ t ∈ st.txBatch, ∃ m1 m2,
      createCollapseTx env t env.GetBlockCount m1 = (.ok (some c), m2)) ∧
    st.collapseBatch.length ≤ st.txBatch.length ∧
    0 ≤ st.totalSize := by
  unfold addRewardTxToBatch at h
  cases hr : createRewardTx env env.GetBlockCount with
  | error err =>
    simp only [hr] at h
    split at h
    · simp only [Prod.mk.injEq, Except.ok.injEq] at h
      rw [← h.1]
      simp
    · simp at h
  | ok r =>
    simp only [hr] at h
    rcases hc : createCollapseTx env r env.GetBlockCount m with ⟨(err | (_ | ctx)), m3⟩
    · simp [hc] at h
    · simp only [hc, Prod.mk.injEq, Except.ok.injEq] at h
      rw [← h.1]
      simp
    · simp only [hc] at h
      cases hins : env.InsertCollapseTx m3.calls ctx with
      | some e =>
        simp only [hins, Prod.mk.injEq, Except.ok.injEq] at h
        rw [← h.1]
        simp
      | none =>
        simp only [hins, Prod.mk.injEq, Except.ok.injEq] at h
        rw [← h.1]
        refine ⟨by simp, ?_, by simp, ?_⟩
        · intro c hcm
          simp only [List.nil_append, List.mem_singleton] at hcm
          subst hcm
          exact ⟨(createCollapseTx_type env r _ m c m3 hc).1, r, by simp, _, _, hc⟩
        · simp only [List.nil_append, Int.zero_add]
          omega

/-- The shape of every block returned by `ForgeBlock`. -/
theorem ForgeBlock_shape (env : Env) (m : Miner) (blk : Block) (m' : Miner)
    (h : ForgeBlock env m = (.ok blk, m')) :
    ∃ rewardPart users collapses feePart,
      blk.transactions = rewardPart ++ users ++ collapses ++ feePart ∧
      (rewardPart = [] ∨
        ∃ r, createRewardTx env env.GetBlockCount = .ok r ∧ rewardPart = [r]) ∧
      users.Sublist env.GetQueue ∧
      (∀ c ∈ collapses, c.txType = .Collapse ∧ ∃ t ∈ rewardPart ++ users, ∃ m1 m2,
        createCollapseTx env t env.GetBlockCount m1 = (.ok (some c), m2)) ∧
      ((feePart = [] ∧
          ((rewardPart ++ users ++ collapses).map env.GetRealFee).sum % U64 = 0) ∨
        ∃ f, createFeeTx env (rewardPart ++ users ++ collapses) = .ok f ∧ feePart = [f]) ∧
      (users ≠ [] → (((users.map env.Size).sum : Nat) : Int) ≤ env.BlockSize) := by
  unfold ForgeBlock at h
  simp only at h
  rcases hrw : addRewardTxToBatch env [] [] 0 m with ⟨(err | st0), m0⟩
  · simp [hrw] at h
  simp only [hrw] at h
  rcases hl : forgeLoop env (txCountPerBlock env.GetQueue.length st0) env.GetQueue st0 m0
    with ⟨(err | st1), m1⟩
  · simp [hl] at h
  simp only [hl] at h
  obtain ⟨r1, r2, _, r4⟩ := addRewardTxToBatch_shape env m st0 m0 hrw
  obtain ⟨users, cs, l1, l2, l3, l4, _, l6⟩ := forgeLoop_shape env _ _ st0 m0 st1 m1 hl
  have hbatch : st1.txBatch ++ st1.collapseBatch =
      st0.txBatch ++ users ++ (st0.collapseBatch ++ cs) := by
    rw [l1, l2]
  have hcol : ∀ c ∈ st0.collapseBatch ++ cs, c.txType = .Collapse ∧
      ∃ t ∈ st0.txBatch ++ users, ∃ m1 m2,
        createCollapseTx env t env.GetBlockCount m1 = (.ok (some c), m2) := by
    intro c hc
    rcases List.mem_append.1 hc with hc | hc
    · obtain ⟨a1, t, a2, a3⟩ := r2 c hc
      exact ⟨a1, t, List.mem_append_left _ a2, a3⟩
    · obtain ⟨a1, t, a2, a3⟩ := l4 c hc
      exact ⟨a1, t, List.mem_append_right _ a2, a3⟩
  have hsz : users ≠ [] → (((users.map env.Size).sum : Nat) : Int) ≤ env.BlockSize := by
    intro hu
    have := l6 hu
    omega
  rw [hbatch] at h
  split at h
  · cases hf : createFeeTx env (st0.txBatch ++ users ++ (st0.collapseBatch ++ cs)) with
    | error e =>
      simp only [hf] at h
      split at h
      · simp at h
      · rename_i hz
        have hz : e.is .ErrZeroFeeAmount = true := by
          cases hb : e.is .ErrZeroFeeAmount
          · rw [hb] at hz
            simp at hz
          · rfl
        simp only [Prod.mk.injEq, Except.ok.injEq] at h
        refine ⟨st0.txBatch, users, st0.collapseBatch ++ cs, [], ?_, r1, l3, hcol,
          Or.inl ⟨rfl, (createFeeTx_error env _ e hf hz).2⟩, hsz⟩
        rw [← h.1]
        simp
    | ok f =>
      simp only [hf, Prod.mk.injEq, Except.ok.injEq] at h
      refine ⟨st0.txBatch, users, st0.collapseBatch ++ cs, [f], ?_, r1, l3, hcol,
        Or.inr ⟨f, hf, rfl⟩, hsz⟩
      rw [← h.1]
  · rename_i hlen
    simp only [Prod.mk.injEq, Except.ok.injEq] at h
    have hnil : st0.txBatch ++ users ++ (st0.collapseBatch ++ cs) = [] := by
      apply List.eq_nil_of_length_eq_zero
      omega
    refine ⟨st0.txBatch, users, st0.collapseBatch ++ cs, [], ?_, r1, l3, hcol,
      Or.inl ⟨rfl, by rw [hnil]; simp [U64]⟩, hsz⟩
    rw [← h.1]
    simp


/-- C4 (as stated, refuted): with the two queued transfers of fees `2 ^ 63` and
`2 ^ 63 + 1` (and `GetRealFee` returning the fee field) the forged block ends with a fee
transaction whose single output is 1, while the fees of the other transactions of the
block sum to `2 ^ 64 + 1`. -/
theorem ForgeBlock_fee_accounting_counterexample :
    ∃ blk m' txFee,
      ForgeBlock overflowEnv freshMiner = (.ok blk, m') ∧
      blk.transactions = [hugeFeeTx, hugeFeeTx2] ++ [txFee] ∧ txFee.txType = .Fee ∧
      (txFee.outputs.map TxOutput.amount).sum = 1 ∧
      ([hugeFeeTx, hugeFeeTx2].map Transaction.fee).sum = 2 ^ 64 + 1 :=
  ⟨⟨1, [hugeFeeTx, hugeFeeTx2,
      { num := 1, txType := .Fee, hash := 0, fee := 0, inputs := [],
        outputs := [NewOutput BlackHoleAddress 1 none] }]⟩,
    { skipAddr := [], calls := [Call.FindAllUTxO 2] }, _, rfl, rfl, rfl, rfl, by decide⟩

/-- C4 (amended): in every block returned by `ForgeBlock`, either the last transaction is
the fee transaction built by `createFeeTx` from all the other transactions of the block,
and the sum of its output amounts equals the sum of `GetRealFee` over those other
transactions modulo `2 ^ 64` (which is the sum of their `fee` fields when `GetRealFee`
returns the fee field and that sum is below `2 ^ 64`); or no fee transaction was appended,
and then the real fees of the transactions of the block sum to 0 modulo `2 ^ 64`. -/
theorem ForgeBlock_fee_accounting (env : Env) (m : Miner) (blk : Block) (m' : Miner)
    (h : ForgeBlock env m = (.ok blk, m')) :
    (∃ others txFee,
      blk.transactions = others ++ [txFee] ∧ createFeeTx env others = .ok txFee ∧
      txFee.txType = .Fee ∧
      (txFee.outputs.map TxOutput.amount).sum = (others.map env.GetRealFee).sum % U64 ∧
      ((∀ t ∈ others, env.GetRealFee t = t.fee) → (others.map Transaction.fee).sum < U64 →
        (txFee.outputs.map TxOutput.amount).sum = (others.map Transaction.fee).sum)) ∨
    (blk.transactions.map env.GetRealFee).sum % U64 = 0 := by
  obtain ⟨rewardPart, users, collapses, feePart, h1, _, _, _, h5, _⟩ :=
    ForgeBlock_shape env m blk m' h
  rcases h5 with ⟨hf, hz⟩ | ⟨f, hf, hfp⟩
  · right
    rw [h1, hf, List.append_nil]
    exact hz
  · left
    obtain ⟨_, f1, _, _, _, f5⟩ := createFeeTx_ok env _ f hf
    have hsum : (f.outputs.map TxOutput.amount).sum =
        ((rewardPart ++ users ++ collapses).map env.GetRealFee).sum % U64 := by
      rw [f5]
      simp [NewOutput]
    refine ⟨rewardPart ++ users ++ collapses, f, by rw [h1, hfp], hf, f1, hsum, ?_⟩
    intro hfee hlt
    have hmap : (rewardPart ++ users ++ collapses).map env.GetRealFee =
        (rewardPart ++ users ++ collapses).map Transaction.fee :=
      List.map_congr_left hfee
    rw [hsum, hmap, Nat.mod_eq_of_lt hlt]

/-- Witness of C4 (amended): the block forged from a queue of two transfers with one
staker. -/
theorem ForgeBlock_fee_accounting_witness :
    ∃ blk m', ForgeBlock twoTxEnv freshMiner = (.ok blk, m') ∧
      ((∃ others txFee,
        blk.transactions = others ++ [txFee] ∧ createFeeTx twoTxEnv others = .ok txFee ∧
        txFee.txType = .Fee ∧
        (txFee.outputs.map TxOutput.amount).sum = (others.map twoTxEnv.GetRealFee).sum % U64 ∧
        ((∀ t ∈ others, twoTxEnv.GetRealFee t = t.fee) →
          (others.map Transaction.fee).sum < U64 →
          (txFee.outputs.map TxOutput.amount).sum = (others.map Transaction.fee).sum)) ∨
      (blk.transactions.map twoTxEnv.GetRealFee).sum % U64 = 0) :=
  ⟨⟨1, [{ num := 1, txType := .Reward, hash := 0, fee := 0, inputs := [],
          outputs := [NewOutput 7 100 none] },
        demoTransfer,
        { num := 1, txType := .Fee, hash := 0, fee := 0, inputs := [],
          outputs := [NewOutput BlackHoleAddress 5 none] }]⟩,
    { skipAddr := [], calls := [Call.FindAllUTxO 7, Call.FindAllUTxO 2] }, rfl,
    ForgeBlock_fee_accounting twoTxEnv freshMiner _ _ rfl⟩

/-- C7: in every block returned by `ForgeBlock` (with a non-negative `BlockSize`), the
transactions `users` taken from the pool queue, which stand between the reward
transaction and the collapse transactions, have sizes summing to at most `BlockSize`. -/
theorem ForgeBlock_size_bound (env : Env) (m : Miner) (blk : Block) (m' : Miner)
    (h : ForgeBlock env m = (.ok blk, m')) (hB : 0 ≤ env.BlockSize) :
    ∃ rewardPart users collapses feePart,
      blk.transactions = rewardPart ++ users ++ collapses ++ feePart ∧
      (rewardPart = [] ∨
        ∃ r, createRewardTx env env.GetBlockCount = .ok r ∧ rewardPart = [r]) ∧
      users.Sublist env.GetQueue ∧
      (∀ c ∈ collapses, ∃ t ∈ rewardPart ++ users, ∃ m1 m2,
        createCollapseTx env t env.GetBlockCount m1 = (.ok (some c), m2)) ∧
      (feePart = [] ∨
        ∃ f, createFeeTx env (rewardPart ++ users ++ collapses) = .ok f ∧ feePart = [f]) ∧
      (((users.map env.Size).sum : Nat) : Int) ≤ env.BlockSize := by
  obtain ⟨rewardPart, users, collapses, feePart, h1, h2, h3, h4, h5, h6⟩ :=
    ForgeBlock_shape env m blk m' h
  refine ⟨rewardPart, users, collapses, feePart, h1, h2, h3, fun c hc => (h4 c hc).2, ?_, ?_⟩
  · rcases h5 with ⟨hf, _⟩ | hf
    · exact Or.inl hf
    · exact Or.inr hf
  · by_cases hu : users = []
    · subst hu
      simpa using hB
    · exact h6 hu

/-- Witness of C7: the block forged from a queue of two transfers with one staker. -/
theorem ForgeBlock_size_bound_witness :
    ∃ blk m', ForgeBlock twoTxEnv freshMiner = (.ok blk, m') ∧ 0 ≤ twoTxEnv.BlockSize ∧
      ∃ rewardPart users collapses feePart,
        blk.transactions = rewardPart ++ users ++ collapses ++ feePart ∧
        (rewardPart = [] ∨
          ∃ r, createRewardTx twoTxEnv twoTxEnv.GetBlockCount = .ok r ∧ rewardPart = [r]) ∧
        users.Sublist twoTxEnv.GetQueue ∧
        (∀ c ∈ collapses, ∃ t ∈ rewardPart ++ users, ∃ m1 m2,
          createCollapseTx twoTxEnv t twoTxEnv.GetBlockCount m1 = (.ok (some c), m2)) ∧
        (feePart = [] ∨
          ∃ f, createFeeTx twoTxEnv (rewardPart ++ users ++ collapses) = .ok f ∧
            feePart = [f]) ∧
        (((users.map twoTxEnv.Size).sum : Nat) : Int) ≤ twoTxEnv.BlockSize :=
  ⟨⟨1, [{ num := 1, txType := .Reward, hash := 0, fee := 0, inputs := [],
          outputs := [NewOutput 7 100 none] },
        demoTransfer,
        { num := 1, txType := .Fee, hash := 0, fee := 0, inputs := [],
          outputs := [NewOutput BlackHoleAddress 5 none] }]⟩,
    { skipAddr := [], calls := [Call.FindAllUTxO 7, Call.FindAllUTxO 2] }, rfl, by decide,
    ForgeBlock_size_bound twoTxEnv freshMiner _ _ rfl (by decide)⟩

/-- C8: every block returned by `ForgeBlock` is, in this order: the reward transaction
(of type `Reward`) if one was created; transactions of the pool queue, in queue order;
collapse transactions (of type `Collapse`), each planned by `createCollapseTx` from the
reward transaction or from one of the queue transactions of the block; and last the fee
transaction (of type `Fee`) built from all the transactions before it, if there is
one. -/
theorem ForgeBlock_order (env : Env) (m : Miner) (blk : Block) (m' : Miner)
    (h : ForgeBlock env m = (.ok blk, m')) :
    ∃ rewardPart users collapses feePart,
      blk.transactions = rewardPart ++ users ++ collapses ++ feePart ∧
      (rewardPart = [] ∨
        ∃ r, createRewardTx env env.GetBlockCount = .ok r ∧ r.txType = .Reward ∧
          rewardPart = [r]) ∧
      users.Sublist env.GetQueue ∧
      (∀ c ∈ collapses, c.txType = .Collapse ∧ ∃ t ∈ rewardPart ++ users, ∃ m1 m2,
        createCollapseTx env t env.GetBlockCount m1 = (.ok (some c), m2)) ∧
      (feePart = [] ∨
        ∃ f, createFeeTx env (rewardPart ++ users ++ collapses) = .ok f ∧ f.txType = .Fee ∧
          feePart = [f]) := by
  obtain ⟨rewardPart, users, collapses, feePart, h1, h2, h3, h4, h5, _⟩ :=
    ForgeBlock_shape env m blk m' h
  refine ⟨rewardPart, users, collapses, feePart, h1, ?_, h3, h4, ?_⟩
  · rcases h2 with h2 | ⟨r, hr, hrp⟩
    · exact Or.inl h2
    · exact Or.inr ⟨r, hr, (createRewardTx_type env _ r hr).1, hrp⟩
  · rcases h5 with ⟨hf, _⟩ | ⟨f, hf, hfp⟩
    · exact Or.inl hf
    · exact Or.inr ⟨f, hf, (createFeeTx_ok env _ f hf).2.1, hfp⟩

/-- Witness of C8: the block forged from a queue of two transfers with one staker is
reward, transfer, fee. -/
theorem ForgeBlock_order_witness :
    ∃ blk m', ForgeBlock twoTxEnv freshMiner = (.ok blk, m') ∧
      ∃ rewardPart users collapses feePart,
        blk.transactions = rewardPart ++ users ++ collapses ++ feePart ∧
        (rewardPart = [] ∨
          ∃ r, createRewardTx twoTxEnv twoTxEnv.GetBlockCount = .ok r ∧ r.txType = .Reward ∧
            rewardPart = [r]) ∧
        users.Sublist twoTxEnv.GetQueue ∧
        (∀ c ∈ collapses, c.txType = .Collapse ∧ ∃ t ∈ rewardPart ++ users, ∃ m1 m2,
          createCollapseTx twoTxEnv t twoTxEnv.GetBlockCount m1 = (.ok (some c), m2)) ∧
        (feePart = [] ∨
          ∃ f, createFeeTx twoTxEnv (rewardPart ++ users ++ collapses) = .ok f ∧
            f.txType = .Fee ∧ feePart = [f]) :=
  ⟨⟨1, [{ num := 1, txType := .Reward, hash := 0, fee := 0, inputs := [],
          outputs := [NewOutput 7 100 none] },
        demoTransfer,
        { num := 1, txType := .Fee, hash := 0, fee := 0, inputs := [],
          outputs := [NewOutput BlackHoleAddress 5 none] }]⟩,
    { skipAddr := [], calls := [Call.FindAllUTxO 7, Call.FindAllUTxO 2] }, rfl,
    ForgeBlock_order twoTxEnv freshMiner _ _ rfl⟩

/-- C9 (the code at the failing input): with one staker `7`, `RewardBase = 100` and a
queue holding the single transfer `demoTransfer` (10 bytes, fee 5, nothing to collapse,
`BlockSize = 1000`), `ForgeBlock` returns a block holding the reward transaction alone:
neither the transfer nor a fee transaction is in it.  In general the loop admits nothing
when the reward step has left as many transactions in the batches as the queue is
long. -/
theorem ForgeBlock_single_transfer :
    demoEnv.GetQueue = [demoTransfer] ∧ demoEnv.GetStakeSlots = [7] ∧
    ForgeBlock demoEnv freshMiner =
      (.ok ⟨1, [{ num := 1, txType := .Reward, hash := 0, fee := 0, inputs := [],
                  outputs := [NewOutput 7 100 none] }]⟩,
        { skipAddr := [], calls := [Call.FindAllUTxO 7] }) ∧
    (∀ (env : Env) (st : ForgeState) (m : Miner),
      st.txBatch.length + st.collapseBatch.length = env.GetQueue.length →
      env.GetQueue.length + st.txBatch.length + st.collapseBatch.length + 1 < txBatchLimit →
      forgeLoop env (txCountPerBlock env.GetQueue.length st) env.GetQueue st m = (.ok st, m)) := by
  refine ⟨rfl, rfl, rfl, ?_⟩
  intro env st m heq hlt
  have hcap : (st.txBatch.length : Int) + st.collapseBatch.length =
      txCountPerBlock env.GetQueue.length st := by
    unfold txCountPerBlock
    simp only
    rw [if_pos (by omega)]
    omega
  cases hq : env.GetQueue with
  | nil => rfl
  | cons tx q =>
    rw [hq] at hcap
    exact forgeLoop_full env _ tx q st m hcap

/-- C10: when the loop of `ForgeBlock` reaches a stake transaction `tx` that fits and the
stake pool refuses the reservation, then, if the pool deletes `tx`, the iteration leaves
`txBatch`, `collapseBatch` and `totalSize` as they were, has recorded exactly the calls
`ReserveSlots(amount)` and `DeleteTransaction(tx)`, and the loop goes on with the rest of
the queue; if the deletion fails the loop ends with an error.  Every error of the loop is
the result of `ForgeBlock`, which then returns no block. -/
theorem forgeLoop_stake_rejection (env : Env) (cap : Int) (tx : Transaction)
    (q : List Transaction) (st : ForgeState) (m : Miner)
    (hcap : (st.txBatch.length : Int) + st.collapseBatch.length ≠ cap)
    (hsize : st.totalSize + (env.Size tx : Int) ≤ env.BlockSize)
    (hstake : tx.txType = .Stake)
    (hres : (env.ReserveSlots m.calls (stakeAmount tx)).isSome) :
    (env.DeleteTransaction (m.calls ++ [Call.ReserveSlots (stakeAmount tx)]) tx = none →
      forgeLoop env cap (tx :: q) st m =
        forgeLoop env cap q st
          { skipAddr := m.skipAddr,
            calls := m.calls ++
              [Call.ReserveSlots (stakeAmount tx), Call.DeleteTransaction tx] }) ∧
    (∀ err, env.DeleteTransaction (m.calls ++ [Call.ReserveSlots (stakeAmount tx)]) tx =
        some err →
      forgeLoop env cap (tx :: q) st m =
        (.error (.wrap "Error creating block" (.external err)),
          { skipAddr := m.skipAddr,
            calls := m.calls ++
              [Call.ReserveSlots (stakeAmount tx), Call.DeleteTransaction tx] })) ∧
    (∀ m0 st0 m1 e m2, addRewardTxToBatch env [] [] 0 m0 = (.ok st0, m1) →
      forgeLoop env (txCountPerBlock env.GetQueue.length st0) env.GetQueue st0 m1 =
        (.error e, m2) →
      ForgeBlock env m0 = (.error e, m2)) := by
  refine ⟨?_, ?_, ?_⟩
  · intro hdel
    rw [forgeLoop_rejected env cap tx q st m hcap hsize hstake hres, hdel]
  · intro err hdel
    rw [forgeLoop_rejected env cap tx q st m hcap hsize hstake hres, hdel]
  · intro m0 st0 m1 e m2 hrw hl
    unfold ForgeBlock
    simp only [hrw, hl]

/-- Witness of C10: with a stake pool that refuses every reservation, the queued
`stakeTx` is passed over and its deletion is requested. -/
theorem forgeLoop_stake_rejection_witness :
    forgeLoop fullSlotsEnv 1 [stakeTx] ⟨[], [], 0⟩ freshMiner =
      forgeLoop fullSlotsEnv 1 [] ⟨[], [], 0⟩
        { skipAddr := [],
          calls := [Call.ReserveSlots (stakeAmount stakeTx), Call.DeleteTransaction stakeTx] } :=
  (forgeLoop_stake_rejection fullSlotsEnv 1 stakeTx [] ⟨[], [], 0⟩ freshMiner
    (by decide) (by decide) rfl rfl).1 rfl

end Miner

namespace ValidatorGerm

/-! ## Slot registry -/

/-- The search loop of `UnregisterStake` reports `notFound` exactly when no entry equals
the address, and then returns the slots as they were. -/
theorem removeStaker_not_mem (address : Address) (slots : List Address) :
    ((removeStaker address slots).2 = true ↔ address ∉ slots) ∧
      (address ∉ slots → (removeStaker address slots).1 = slots) := by
  induction slots with
  | nil => simp [removeStaker]
  | cons a slots ih =>
    by_cases h : a = address
    · subst h
      simp [removeStaker]
    · have h' : ¬ address = a := fun e => h e.symm
      simp only [removeStaker, h, if_false, List.mem_cons, h', false_or]
      refine ⟨ih.1, fun hn => ?_⟩
      rw [ih.2 hn]

/-- The search loop of `UnregisterStake` drops the first entry equal to the address. -/
theorem removeStaker_mem (address : Address) (slots : List Address) (h : address ∈ slots) :
    ∃ pre post, slots = pre ++ address :: post ∧ address ∉ pre ∧
      (removeStaker address slots).1 = pre ++ post := by
  induction slots with
  | nil => simp at h
  | cons a slots ih =>
    by_cases ha : a = address
    · subst ha
      exact ⟨[], slots, rfl, by simp, by simp [removeStaker]⟩
    · have h' : address ∈ slots := by
        rcases List.mem_cons.1 h with h | h
        · exact absurd h.symm ha
        · exact h
      obtain ⟨pre, post, h1, h2, h3⟩ := ih h'
      refine ⟨a :: pre, post, by rw [h1]; rfl, ?_, ?_⟩
      · simp only [List.mem_cons, not_or]
        exact ⟨fun e => ha e.symm, h2⟩
      · simp only [removeStaker, ha, if_false, h3, List.cons_append]

/-- C18: `CanStake` returns true if and only if `len(slots) + reserved < slotsLimit`, and
the registry after the call is the registry before it (`slots` and the reservations are
unchanged). -/
theorem CanStake_spec (vg : ValidatorGerm) :
    ((CanStake vg).1 = true ↔
      (vg.slots.length : Int) + vg.reservedSlots.length < vg.slotsLimit) ∧
    (CanStake vg).2.slots = vg.slots ∧
    (CanStake vg).2.reservedSlots = vg.reservedSlots ∧
    (CanStake vg).2.slotsLimit = vg.slotsLimit := by
  simp [CanStake]

/-- C19: `UnregisterStake` fails if and only if no entry of `slots` equals the address,
and then leaves `slots` unchanged; when an entry equals the address it succeeds and
removes exactly the first such entry: `slots = pre ++ addr :: post` with `addr` not in
`pre` becomes `pre ++ post`, one entry shorter, the other entries (further copies of the
address included) in their order.  The reservations are never touched. -/
theorem UnregisterStake_spec (vg : ValidatorGerm) (addr : Address) :
    (((UnregisterStake vg addr).1).isSome = true ↔ addr ∉ vg.slots) ∧
    (addr ∉ vg.slots → (UnregisterStake vg addr).2.slots = vg.slots) ∧
    (addr ∈ vg.slots →
      (UnregisterStake vg addr).1 = none ∧
      ∃ pre post, vg.slots = pre ++ addr :: post ∧ addr ∉ pre ∧
        (UnregisterStake vg addr).2.slots = pre ++ post ∧
        (UnregisterStake vg addr).2.slots.length + 1 = vg.slots.length) ∧
    (UnregisterStake vg addr).2.reservedSlots = vg.reservedSlots := by
  have hn := removeStaker_not_mem addr vg.slots
  refine ⟨?_, ?_, ?_, ?_⟩
  · unfold UnregisterStake
    simp only
    split
    · rename_i h
      simpa using hn.1.1 h
    · rename_i h
      simp only [Option.isSome_none, Bool.false_eq_true, false_iff, not_not]
      by_contra hc
      exact h (hn.1.2 hc)
  · intro h
    unfold UnregisterStake
    simp only
    split <;> exact hn.2 h
  · intro h
    obtain ⟨pre, post, h1, h2, h3⟩ := removeStaker_mem addr vg.slots h
    have hf : (removeStaker addr vg.slots).2 = false := by
      cases hb : (removeStaker addr vg.slots).2
      · rfl
      · exact absurd h (hn.1.1 hb)
    refine ⟨?_, pre, post, h1, h2, ?_, ?_⟩
    · simp [UnregisterStake, hf]
    · simp [UnregisterStake, hf, h3]
    · simp only [UnregisterStake, hf, Bool.false_eq_true, if_false, h3]
      rw [h1]
      simp
      omega
  · unfold UnregisterStake
    simp only
    split <;> rfl

/-- Witness of C19: unregistering 5 from the slots `[5, 6, 5]` leaves `[6, 5]`. -/
theorem UnregisterStake_spec_witness :
    (5 : Address) ∈ demoRegistry.slots ∧
    (UnregisterStake demoRegistry 5).1 = none ∧
    (UnregisterStake demoRegistry 5).2.slots = [6, 5] :=
  ⟨by decide, ((UnregisterStake_spec demoRegistry 5).2.2.1 (by decide)).1, rfl⟩


/-- C15 (as stated, refuted): from the empty registry with `slotsLimit = 1`, the calls
`ReserveSlot` then `RegisterStake 5` both succeed and leave one slot and one
reservation: `len(slots) + reserved = 2 > 1`. -/
theorem slot_invariant_counterexample :
    (ReserveSlot (empty 1 0 (.ok []))).1 = none ∧
    (RegisterStake (ReserveSlot (empty 1 0 (.ok []))).2 5).1 = none ∧
    (applyCalls (empty 1 0 (.ok [])) [.ReserveSlot, .RegisterStake 5]).slots = [5] ∧
    (applyCalls (empty 1 0 (.ok [])) [.ReserveSlot, .RegisterStake 5]).reservedSlots = [1] ∧
    ¬ (((applyCalls (empty 1 0 (.ok [])) [.ReserveSlot, .RegisterStake 5]).slots.length : Int) +
        (applyCalls (empty 1 0 (.ok [])) [.ReserveSlot, .RegisterStake 5]).reservedSlots.length ≤
      (applyCalls (empty 1 0 (.ok [])) [.ReserveSlot, .RegisterStake 5]).slotsLimit) := by
  refine ⟨rfl, rfl, rfl, rfl, ?_⟩
  decide

/-- `ReserveSlot` when a slot is free. -/
theorem ReserveSlot_free (vg : ValidatorGerm)
    (h : (vg.slots.length : Int) + vg.reservedSlots.length < vg.slotsLimit) :
    ReserveSlot vg = (none, { vg with reservedSlots := vg.reservedSlots ++ [1] }) := by
  simp [ReserveSlot, CanStake, h]

/-- `ReserveSlot` when no slot is free. -/
theorem ReserveSlot_full (vg : ValidatorGerm)
    (h : ¬ (vg.slots.length : Int) + vg.reservedSlots.length < vg.slotsLimit) :
    ReserveSlot vg = (some (.external "All stake slots are filled."), vg) := by
  simp [ReserveSlot, CanStake, h]

/-- `RegisterStake` when `len(slots) < slotsLimit`. -/
theorem RegisterStake_free (vg : ValidatorGerm) (addr : Address)
    (h : (vg.slots.length : Int) < vg.slotsLimit) :
    RegisterStake vg addr = (none, { vg with slots := vg.slots ++ [addr] }) := by
  have h0 : ¬ vg.slotsLimit - (vg.slots.length : Int) = 0 := by omega
  have h1 : ¬ vg.slotsLimit - (vg.slots.length : Int) < 0 := by omega
  simp [RegisterStake, getEmptySlots, h0, h1]

/-- `RegisterStake` when `len(slots) ≥ slotsLimit`: an error, the registry unchanged. -/
theorem RegisterStake_full (vg : ValidatorGerm) (addr : Address)
    (h : ¬ (vg.slots.length : Int) < vg.slotsLimit) :
    ((RegisterStake vg addr).1).isSome = true ∧ (RegisterStake vg addr).2 = vg := by
  unfold RegisterStake getEmptySlots
  simp only
  split
  · exact ⟨rfl, rfl⟩
  · split
    · exact ⟨rfl, rfl⟩
    · omega

/-- The search loop of `UnregisterStake` never lengthens the slots. -/
theorem removeStaker_length (addr : Address) (slots : List Address) :
    (removeStaker addr slots).1.length ≤ slots.length := by
  by_cases hm : addr ∈ slots
  · obtain ⟨pre, post, e1, _, e3⟩ := removeStaker_mem addr slots hm
    rw [e3, e1]
    simp
  · rw [(removeStaker_not_mem addr slots).2 hm]

/-- The registry after `UnregisterStake`, whatever the outcome. -/
theorem UnregisterStake_state (vg : ValidatorGerm) (addr : Address) :
    (UnregisterStake vg addr).2 = { vg with slots := (removeStaker addr vg.slots).1 } := by
  unfold UnregisterStake
  simp only
  split <;> rfl

/-- Every call of the registry keeps `slotsLimit`, and keeps `len(slots)` and the number
of reservations each within a non-negative `slotsLimit`. -/
theorem applyCall_bounds (vg : ValidatorGerm) (c : RegistryCall)
    (h1 : (vg.slots.length : Int) ≤ vg.slotsLimit)
    (h2 : (vg.reservedSlots.length : Int) ≤ vg.slotsLimit) :
    (applyCall vg c).slotsLimit = vg.slotsLimit ∧
    ((applyCall vg c).slots.length : Int) ≤ vg.slotsLimit ∧
    ((applyCall vg c).reservedSlots.length : Int) ≤ vg.slotsLimit := by
  cases c with
  | ReserveSlot =>
    by_cases hcan : (vg.slots.length : Int) + vg.reservedSlots.length < vg.slotsLimit
    · simp only [applyCall, ReserveSlot_free vg hcan]
      refine ⟨trivial, h1, ?_⟩
      simp only [List.length_append, List.length_singleton, Nat.cast_add, Nat.cast_one]
      omega
    · simp only [applyCall, ReserveSlot_full vg hcan]
      exact ⟨trivial, h1, h2⟩
  | RegisterStake addr =>
    by_cases hfree : (vg.slots.length : Int) < vg.slotsLimit
    · simp only [applyCall, RegisterStake_free vg addr hfree]
      refine ⟨trivial, ?_, h2⟩
      simp only [List.length_append, List.length_singleton, Nat.cast_add, Nat.cast_one]
      omega
    · simp only [applyCall, (RegisterStake_full vg addr hfree).2]
      exact ⟨trivial, h1, h2⟩
  | UnregisterStake addr =>
    have hlen := removeStaker_length addr vg.slots
    simp only [applyCall, UnregisterStake_state]
    exact ⟨trivial, by omega, h2⟩
  | FlushReserved =>
    simp only [applyCall, FlushReserved]
    refine ⟨trivial, h1, ?_⟩
    simp only [List.length_nil, Nat.cast_zero]
    omega

/-- Every call of the registry other than `RegisterStake` keeps
`len(slots) + reserved ≤ slotsLimit`. -/
theorem applyCall_sum (vg : ValidatorGerm) (c : RegistryCall)
    (hc : ∀ addr, c ≠ .RegisterStake addr)
    (h : (vg.slots.length : Int) + vg.reservedSlots.length ≤ vg.slotsLimit) :
    ((applyCall vg c).slots.length : Int) + (applyCall vg c).reservedSlots.length ≤
      (applyCall vg c).slotsLimit := by
  cases c with
  | ReserveSlot =>
    by_cases hcan : (vg.slots.length : Int) + vg.reservedSlots.length < vg.slotsLimit
    · simp only [applyCall, ReserveSlot_free vg hcan, List.length_append,
        List.length_singleton, Nat.cast_add, Nat.cast_one]
      omega
    · simp only [applyCall, ReserveSlot_full vg hcan]
      exact h
  | RegisterStake addr => exact absurd rfl (hc addr)
  | UnregisterStake addr =>
    have hlen := removeStaker_length addr vg.slots
    simp only [applyCall, UnregisterStake_state]
    omega
  | FlushReserved =>
    simp only [applyCall, FlushReserved, List.length_nil, Nat.cast_zero]
    omega

/-- The bounds of `applyCall_bounds` after a sequence of calls. -/
theorem applyCalls_bounds (calls : List RegistryCall) :
    ∀ vg : ValidatorGerm, (vg.slots.length : Int) ≤ vg.slotsLimit →
      (vg.reservedSlots.length : Int) ≤ vg.slotsLimit →
      (applyCalls vg calls).slotsLimit = vg.slotsLimit ∧
      ((applyCalls vg calls).slots.length : Int) ≤ vg.slotsLimit ∧
      ((applyCalls vg calls).reservedSlots.length : Int) ≤ vg.slotsLimit := by
  induction calls with
  | nil =>
    intro vg h1 h2
    exact ⟨rfl, h1, h2⟩
  | cons c calls ih =>
    intro vg h1 h2
    obtain ⟨a1, a2, a3⟩ := applyCall_bounds vg c h1 h2
    have := ih (applyCall vg c) (by rw [a1]; exact a2) (by rw [a1]; exact a3)
    rw [a1] at this
    exact this

/-- C15 (amended): starting from an empty registry with `slotsLimit ≥ 0`, after every
finite sequence of `ReserveSlot`, `RegisterStake`, `UnregisterStake` and `FlushReserved`
calls, `len(slots) ≤ slotsLimit` and `reserved ≤ slotsLimit`; and from any registry every
call other than `RegisterStake` keeps `len(slots) + reserved ≤ slotsLimit`
(`RegisterStake` compares `len(slots)` alone with the limit). -/
theorem slot_bounds (slotsLimit : Int) (reward : Nat) (deposits : Except String (List UTxO))
    (calls : List RegistryCall) (hl : 0 ≤ slotsLimit) :
    (((applyCalls (empty slotsLimit reward deposits) calls).slots.length : Int) ≤ slotsLimit ∧
      ((applyCalls (empty slotsLimit reward deposits) calls).reservedSlots.length : Int) ≤
        slotsLimit ∧
      (applyCalls (empty slotsLimit reward deposits) calls).slotsLimit = slotsLimit) ∧
    (∀ (vg : ValidatorGerm) (c : RegistryCall), (∀ addr, c ≠ .RegisterStake addr) →
      (vg.slots.length : Int) + vg.reservedSlots.length ≤ vg.slotsLimit →
      ((applyCall vg c).slots.length : Int) + (applyCall vg c).reservedSlots.length ≤
        (applyCall vg c).slotsLimit) := by
  refine ⟨?_, applyCall_sum⟩
  obtain ⟨a1, a2, a3⟩ := applyCalls_bounds calls (empty slotsLimit reward deposits)
    (by simpa [empty] using hl) (by simpa [empty] using hl)
  exact ⟨a2, a3, a1⟩

/-- Witness of C15 (amended): the two calls of the counterexample, with `slotsLimit = 1`. -/
theorem slot_bounds_witness :
    (0 : Int) ≤ 1 ∧
    ((applyCalls (empty 1 0 (.ok [])) [.ReserveSlot, .RegisterStake 5]).slots.length : Int) ≤ 1 ∧
    ((applyCalls (empty 1 0 (.ok [])) [.ReserveSlot, .RegisterStake 5]).reservedSlots.length :
      Int) ≤ 1 :=
  ⟨by decide,
    (slot_bounds 1 0 (.ok []) [.ReserveSlot, .RegisterStake 5] (by decide)).1.1,
    (slot_bounds 1 0 (.ok []) [.ReserveSlot, .RegisterStake 5] (by decide)).1.2.1⟩

/-- The loop of `LoadSlots` appends the owners of the deposits when they all fit, and
otherwise fails after having appended the owners of a part of them. -/
theorem registerDeposits_spec (deposits : List UTxO) :
    ∀ vg : ValidatorGerm,
      ((vg.slots.length : Int) + deposits.length ≤ vg.slotsLimit →
        registerDeposits deposits vg =
          (none, { vg with slots := vg.slots ++ deposits.map UTxO.To })) ∧
      (vg.slotsLimit < (vg.slots.length : Int) + deposits.length →
        (vg.slots.length : Int) ≤ vg.slotsLimit →
        ((registerDeposits deposits vg).1).isSome = true ∧
        ∃ k, k < deposits.length ∧
          (registerDeposits deposits vg).2.slots =
            vg.slots ++ (deposits.take k).map UTxO.To) := by
  induction deposits with
  | nil =>
    intro vg
    refine ⟨fun _ => by simp [registerDeposits], fun h h' => ?_⟩
    simp only [List.length_nil, Nat.cast_zero, Int.add_zero] at h
    omega
  | cons uo deposits ih =>
    intro vg
    by_cases hfree : (vg.slots.length : Int) < vg.slotsLimit
    · have hreg := RegisterStake_free vg uo.To hfree
      have hstep : registerDeposits (uo :: deposits) vg =
          registerDeposits deposits { vg with slots := vg.slots ++ [uo.To] } := by
        rw [registerDeposits, hreg]
      obtain ⟨ih1, ih2⟩ := ih { vg with slots := vg.slots ++ [uo.To] }
      refine ⟨fun h => ?_, fun h _ => ?_⟩
      · rw [hstep, ih1 (by
          simp only [List.length_append, List.length_singleton, Nat.cast_add, Nat.cast_one]
          simp only [List.length_cons, Nat.cast_add, Nat.cast_one] at h
          omega)]
        simp
      · rw [hstep]
        obtain ⟨a1, k, a2, a3⟩ := ih2 (by
          simp only [List.length_append, List.length_singleton, Nat.cast_add, Nat.cast_one]
          simp only [List.length_cons, Nat.cast_add, Nat.cast_one] at h
          omega) (by
          simp only [List.length_append, List.length_singleton, Nat.cast_add, Nat.cast_one]
          omega)
        refine ⟨a1, k + 1, by simp only [List.length_cons]; omega, ?_⟩
        rw [a3]
        simp
    · obtain ⟨hr1, hr2⟩ := RegisterStake_full vg uo.To hfree
      have hstep : registerDeposits (uo :: deposits) vg = RegisterStake vg uo.To := by
        rw [registerDeposits]
        cases hres : RegisterStake vg uo.To with
        | mk e v =>
          cases e with
          | none => rw [hres] at hr1; simp at hr1
          | some err => rfl
      refine ⟨fun h => ?_, fun _ _ => ?_⟩
      · simp only [List.length_cons, Nat.cast_add, Nat.cast_one] at h
        omega
      · rw [hstep]
        exact ⟨hr1, 0, by simp, by rw [hr2]; simp⟩

/-- The loop of `LoadSlots` registers the deposits that fit in the free slots, and
reports no error exactly when all of them fit. -/
theorem registerDeposits_exact (deposits : List UTxO) :
    ∀ vg : ValidatorGerm,
      (registerDeposits deposits vg).2 =
        { vg with
          slots := vg.slots ++
            (deposits.take (vg.slotsLimit - vg.slots.length).toNat).map UTxO.To } ∧
      ((registerDeposits deposits vg).1 = none ↔
        deposits = [] ∨ (vg.slots.length : Int) + deposits.length ≤ vg.slotsLimit) := by
  induction deposits with
  | nil =>
    intro vg
    simp [registerDeposits]
  | cons uo deposits ih =>
    intro vg
    by_cases hfree : (vg.slots.length : Int) < vg.slotsLimit
    · have hreg := RegisterStake_free vg uo.To hfree
      have hstep : registerDeposits (uo :: deposits) vg =
          registerDeposits deposits { vg with slots := vg.slots ++ [uo.To] } := by
        rw [registerDeposits, hreg]
      obtain ⟨ih1, ih2⟩ := ih { vg with slots := vg.slots ++ [uo.To] }
      have hn : (vg.slotsLimit - (vg.slots.length : Int)).toNat =
          (vg.slotsLimit - ((vg.slots ++ [uo.To]).length : Int)).toNat + 1 := by
        simp only [List.length_append, List.length_singleton, Nat.cast_add, Nat.cast_one]
        omega
      rw [hstep]
      refine ⟨?_, ?_⟩
      · rw [ih1, hn]
        simp
      · rw [ih2]
        have hl : ((vg.slots ++ [uo.To]).length : Int) = vg.slots.length + 1 := by simp
        have hc : ((uo :: deposits).length : Int) = deposits.length + 1 := by simp
        show deposits = [] ∨ ((vg.slots ++ [uo.To]).length : Int) + deposits.length ≤
            vg.slotsLimit ↔ _
        rw [hl, hc]
        constructor
        · rintro (h | h)
          · right
            subst h
            simp only [List.length_nil, Nat.cast_zero]
            omega
          · right
            omega
        · rintro (h | h)
          · cases h
          · right
            omega
    · obtain ⟨hr1, hr2⟩ := RegisterStake_full vg uo.To hfree
      have hstep : registerDeposits (uo :: deposits) vg = RegisterStake vg uo.To := by
        rw [registerDeposits]
        cases hres : RegisterStake vg uo.To with
        | mk e v =>
          cases e with
          | none => rw [hres] at hr1; simp at hr1
          | some err => rfl
      have hn : (vg.slotsLimit - (vg.slots.length : Int)).toNat = 0 := by omega
      rw [hstep, hr2, hn]
      refine ⟨by simp, ?_⟩
      constructor
      · intro h
        rw [h] at hr1
        simp at hr1
      · rintro (h | h)
        · cases h
        · simp only [List.length_cons, Nat.cast_add, Nat.cast_one] at h
          omega

/-- C16 (as stated, refuted): on the empty registry with room for 10 slots whose index
returns one deposit owned by address 5, the first `LoadSlots` leaves the slots `[5]` and
the second leaves `[5, 5]`. -/
theorem LoadSlots_twice_counterexample :
    (LoadSlots (empty 10 0 (.ok [demoDeposit]))).1 = none ∧
    (LoadSlots (empty 10 0 (.ok [demoDeposit]))).2.slots = [5] ∧
    (LoadSlots (LoadSlots (empty 10 0 (.ok [demoDeposit]))).2).1 = none ∧
    (LoadSlots (LoadSlots (empty 10 0 (.ok [demoDeposit]))).2).2.slots = [5, 5] ∧
    (LoadSlots (LoadSlots (empty 10 0 (.ok [demoDeposit]))).2).2.slots ≠
      (LoadSlots (empty 10 0 (.ok [demoDeposit]))).2.slots :=
  ⟨rfl, rfl, rfl, rfl, by decide⟩

/-- C16 (amended): given the deposits returned by the index, `LoadSlots` appends to
`slots` the owners of the deposits that fit in the free slots, in order: the first
`slotsLimit - len(slots)` of them (none when no slot is free, all when they all fit), and
changes nothing else.  It returns no error exactly when there is no deposit or all the
deposits fit; when they do not all fit it fails after appending those that fit.  So when
twice the deposits fit, `LoadSlots` followed by `LoadSlots` succeeds twice and leaves the
slots followed by the owners twice.  `LoadSlots` leaves `slots` unchanged exactly when the
index returns no deposit or the registry has no free slot (and also when the query fails,
which changes nothing); hence a second `LoadSlots` leaves `slots` as the first left them
exactly when there is no deposit or the first load has filled the registry. -/
theorem LoadSlots_appends (vg : ValidatorGerm) (deposits : List UTxO)
    (hd : vg.FindStakeDeposits = .ok deposits) :
    ((vg.slots.length : Int) + deposits.length ≤ vg.slotsLimit →
      LoadSlots vg = (none, { vg with slots := vg.slots ++ deposits.map UTxO.To })) ∧
    ((vg.slots.length : Int) + deposits.length + deposits.length ≤ vg.slotsLimit →
      LoadSlots (LoadSlots vg).2 =
        (none, { vg with
          slots := vg.slots ++ deposits.map UTxO.To ++ deposits.map UTxO.To })) ∧
    (vg.slotsLimit < (vg.slots.length : Int) + deposits.length →
      (vg.slots.length : Int) ≤ vg.slotsLimit →
      ((LoadSlots vg).1).isSome = true ∧
      ∃ k, k < deposits.length ∧ (k : Int) = vg.slotsLimit - vg.slots.length ∧
        (LoadSlots vg).2.slots = vg.slots ++ (deposits.take k).map UTxO.To) ∧
    (deposits = [] → LoadSlots vg = (none, vg)) ∧
    (∀ (vg' : ValidatorGerm) (err : String), vg'.FindStakeDeposits = .error err →
      LoadSlots vg' = (some (.external err), vg')) ∧
    (LoadSlots vg).2 =
      { vg with
        slots := vg.slots ++
          (deposits.take (vg.slotsLimit - vg.slots.length).toNat).map UTxO.To } ∧
    ((LoadSlots vg).1 = none ↔
      deposits = [] ∨ (vg.slots.length : Int) + deposits.length ≤ vg.slotsLimit) ∧
    ((LoadSlots vg).2.slots = vg.slots ↔
      deposits = [] ∨ vg.slotsLimit ≤ (vg.slots.length : Int)) ∧
    ((LoadSlots (LoadSlots vg).2).2.slots = (LoadSlots vg).2.slots ↔
      deposits = [] ∨ vg.slotsLimit ≤ (vg.slots.length : Int) + deposits.length) := by
  have h0 : LoadSlots vg = registerDeposits deposits vg := by
    unfold LoadSlots
    split
    · rename_i err he
      rw [hd] at he
      cases he
    · rename_i D he
      rw [hd] at he
      cases he
      rfl
  have hload : ∀ v : ValidatorGerm, v.FindStakeDeposits = .ok deposits →
      LoadSlots v = registerDeposits deposits v := by
    intro v hv
    unfold LoadSlots
    rw [hv]
  have h1 : (vg.slots.length : Int) + deposits.length ≤ vg.slotsLimit →
      LoadSlots vg = (none, { vg with slots := vg.slots ++ deposits.map UTxO.To }) := by
    intro h
    rw [h0]
    exact (registerDeposits_spec deposits vg).1 h
  have hexact := (registerDeposits_exact deposits vg).1
  have hunch : ∀ v : ValidatorGerm,
      ((registerDeposits deposits v).2.slots = v.slots ↔
        deposits = [] ∨ v.slotsLimit ≤ (v.slots.length : Int)) := by
    intro v
    rw [(registerDeposits_exact deposits v).1]
    simp only [List.append_right_eq_self, List.map_eq_nil_iff, List.take_eq_nil_iff,
      Int.toNat_eq_zero]
    constructor
    · rintro (h | h)
      · exact Or.inr (by omega)
      · exact Or.inl h
    · rintro (h | h)
      · exact Or.inr h
      · exact Or.inl (by omega)
  refine ⟨h1, ?_, ?_, ?_, ?_, ?_, ?_, ?_, ?_⟩
  · intro h
    rw [h1 (by omega)]
    simp only
    rw [hload { vg with slots := vg.slots ++ deposits.map UTxO.To } hd]
    rw [(registerDeposits_spec deposits _).1 (by
      simp only [List.length_append, List.length_map, Nat.cast_add]
      omega)]
  · intro h h'
    rw [h0]
    refine ⟨((registerDeposits_spec deposits vg).2 h h').1,
      (vg.slotsLimit - vg.slots.length).toNat, by omega, by omega, ?_⟩
    rw [hexact]
  · intro h
    subst h
    rw [h0]
    rfl
  · intro vg' err he
    unfold LoadSlots
    rw [he]
  · rw [h0]
    exact hexact
  · rw [h0]
    exact (registerDeposits_exact deposits vg).2
  · rw [h0]
    exact hunch vg
  · have hd1 : (LoadSlots vg).2.FindStakeDeposits = .ok deposits := by
      rw [h0, hexact]
      exact hd
    rw [hload _ hd1, hunch (LoadSlots vg).2, h0, hexact]
    simp only [List.length_append, List.length_map, List.length_take, Nat.cast_add]
    constructor
    · rintro (h | h)
      · exact Or.inl h
      · exact Or.inr (by omega)
    · rintro (h | h)
      · exact Or.inl h
      · exact Or.inr (by omega)

/-- Witness of C16 (amended): loading the deposit of address 5 into `demoRegistry`
appends it; loading it into the full registry `fullRegistry` fails and leaves the slots
as they are. -/
theorem LoadSlots_appends_witness :
    demoRegistry.FindStakeDeposits = .ok [demoDeposit] ∧
    LoadSlots demoRegistry = (none, { demoRegistry with slots := [5, 6, 5, 5] }) ∧
    fullRegistry.FindStakeDeposits = .ok [demoDeposit] ∧
    (LoadSlots fullRegistry).1 ≠ none ∧
    (LoadSlots fullRegistry).2.slots = fullRegistry.slots :=
  ⟨rfl, (LoadSlots_appends demoRegistry [demoDeposit] rfl).1 (by decide), rfl,
    fun h => by
      have := (LoadSlots_appends fullRegistry [demoDeposit] rfl).2.2.2.2.2.2.1.1 h
      revert this
      decide,
    (LoadSlots_appends fullRegistry [demoDeposit] rfl).2.2.2.2.2.2.2.1.2
      (Or.inr (by decide))⟩


/-- Repeating `ReserveSlot` `n` times when `n` slots are free reserves `n` slots. -/
theorem reserveTimes_free (n : Nat) :
    ∀ vg : ValidatorGerm,
      (vg.slots.length : Int) + vg.reservedSlots.length + n ≤ vg.slotsLimit →
      reserveTimes n vg =
        (none, { vg with reservedSlots := vg.reservedSlots ++ List.replicate n 1 }) := by
  induction n with
  | zero =>
    intro vg _
    simp [reserveTimes]
  | succ n ih =>
    intro vg h
    have hfree : (vg.slots.length : Int) + vg.reservedSlots.length < vg.slotsLimit := by
      simp only [Nat.cast_add, Nat.cast_one] at h
      omega
    rw [reserveTimes, ReserveSlot_free vg hfree]
    simp only
    rw [ih _ (by
      simp only [List.length_append, List.length_singleton, Nat.cast_add, Nat.cast_one] at h ⊢
      omega)]
    simp [List.replicate_succ]

/-- C17: `ReserveSlots(amount)` requests `amount / slotUnit` slots.  When
`len(slots) + reserved + amount / slotUnit ≤ slotsLimit` it succeeds and the registry has
`amount / slotUnit` more reservations, everything else unchanged, which is what that many
successful calls of `ReserveSlot` leave; when the request would exceed `slotsLimit` it
fails with `SlotsFull` and the registry is unchanged. -/
theorem ReserveSlots_spec (slotUnit : Nat) (vg : ValidatorGerm) (amount : Nat)
    (hu : 0 < slotUnit) :
    ((vg.slots.length : Int) + vg.reservedSlots.length + (amount / slotUnit : Nat) ≤
        vg.slotsLimit →
      ReserveSlots slotUnit vg amount =
        (none, { vg with
          reservedSlots := vg.reservedSlots ++ List.replicate (amount / slotUnit) 1 }) ∧
      (ReserveSlots slotUnit vg amount).2.reservedSlots.length =
        vg.reservedSlots.length + amount / slotUnit ∧
      (ReserveSlots slotUnit vg amount).2.slots = vg.slots ∧
      reserveTimes (amount / slotUnit) vg = ReserveSlots slotUnit vg amount) ∧
    (vg.slotsLimit <
        (vg.slots.length : Int) + vg.reservedSlots.length + (amount / slotUnit : Nat) →
      ReserveSlots slotUnit vg amount = (some (.external "SlotsFull"), vg)) ∧
    amount / slotUnit * slotUnit ≤ amount ∧ amount < (amount / slotUnit + 1) * slotUnit := by
  refine ⟨fun h => ?_, fun h => ?_, Nat.div_mul_le_self _ _, ?_⟩
  · have hres : ReserveSlots slotUnit vg amount =
        (none, { vg with
          reservedSlots := vg.reservedSlots ++ List.replicate (amount / slotUnit) 1 }) := by
      have hn : ¬ vg.slotsLimit <
          (vg.slots.length : Int) + vg.reservedSlots.length + (amount / slotUnit : Nat) := by
        omega
      unfold ReserveSlots
      simp only
      rw [if_neg hn]
    refine ⟨hres, ?_, ?_, ?_⟩
    · rw [hres]
      simp
    · rw [hres]
    · rw [hres]
      exact reserveTimes_free _ vg h
  · unfold ReserveSlots
    simp only
    rw [if_pos h]
  · have := Nat.lt_mul_div_succ amount hu
    rwa [Nat.mul_comm] at this


/-- Witness of C17: with `slotUnit = 50`, a stake of 100 reserves two slots of
`demoRegistry`. -/
theorem ReserveSlots_spec_witness :
    0 < 50 ∧
    ReserveSlots 50 demoRegistry 100 =
      (none, { demoRegistry with reservedSlots := [1, 1, 1] }) :=
  ⟨by decide, ((ReserveSlots_spec 50 demoRegistry 100 (by decide)).1 (by decide)).1⟩

end ValidatorGerm

namespace Miner

/-! ## FinalizeBlock -/

/-- The run of `FinalizeBlock` when the validator returns an error. -/
theorem FinalizeBlock_invalid (fenv : FinalizeEnv) (block : Block) (m : Miner)
    (failedTx : Option Transaction) (err : String)
    (hv : fenv.ValidateBlock m.calls block = (failedTx, some err)) :
    FinalizeBlock fenv block m =
      (some (.wrap "ValidateBlockError" (.external err)),
        { m with calls := m.calls ++ [Call.ValidateBlock block] ++
            (failedTx.map fun tx => Call.Finalize [tx]).toList }) := by
  unfold FinalizeBlock
  simp only [hv]
  cases failedTx <;> simp

/-- C13: when the block validator returns an error, `FinalizeBlock` returns that error
wrapped as a validation error, and the only collaborator calls it has made are
`ValidateBlock(block)` followed, when the validator named a failed transaction, by one
call `Finalize([failedTx])`: no `SaveBlock`, `ProcessBlock`, `UpdateStakeSlots`,
`FlushReservedSlots` or `CheckBalance`. -/
theorem FinalizeBlock_validation_error (fenv : FinalizeEnv) (block : Block) (m : Miner)
    (failedTx : Option Transaction) (err : String)
    (hv : fenv.ValidateBlock m.calls block = (failedTx, some err)) :
    (FinalizeBlock fenv block m).1 = some (.wrap "ValidateBlockError" (.external err)) ∧
    (FinalizeBlock fenv block m).2.calls =
      m.calls ++ [Call.ValidateBlock block] ++
        (failedTx.map fun tx => Call.Finalize [tx]).toList ∧
    (∀ tx, failedTx = some tx →
      (FinalizeBlock fenv block m).2.calls =
        m.calls ++ [Call.ValidateBlock block, Call.Finalize [tx]]) ∧
    (failedTx = none →
      (FinalizeBlock fenv block m).2.calls = m.calls ++ [Call.ValidateBlock block]) ∧
    (FinalizeBlock fenv block m).2.skipAddr = m.skipAddr := by
  rw [FinalizeBlock_invalid fenv block m failedTx err hv]
  refine ⟨rfl, rfl, ?_, ?_, rfl⟩
  · intro tx h
    subst h
    simp
  · intro h
    subst h
    simp

/-- Witness of C13: a validator that flags the second transaction of `demoBlock`. -/
theorem FinalizeBlock_validation_error_witness :
    rejectSecondEnv.ValidateBlock freshMiner.calls demoBlock =
      (some demoTransfer2, some "invalid transaction") ∧
    (FinalizeBlock rejectSecondEnv demoBlock freshMiner).1 =
      some (.wrap "ValidateBlockError" (.external "invalid transaction")) ∧
    (FinalizeBlock rejectSecondEnv demoBlock freshMiner).2.calls =
      [Call.ValidateBlock demoBlock, Call.Finalize [demoTransfer2]] :=
  ⟨rfl,
    (FinalizeBlock_validation_error rejectSecondEnv demoBlock freshMiner (some demoTransfer2)
      "invalid transaction" rfl).1,
    (FinalizeBlock_validation_error rejectSecondEnv demoBlock freshMiner (some demoTransfer2)
      "invalid transaction" rfl).2.2.1 demoTransfer2 rfl⟩

/-- C14 (as stated, refuted): when every step succeeds but `CheckBalance` fails,
`FinalizeBlock` fails and `FlushReservedSlots` has been called. -/
theorem FinalizeBlock_flush_counterexample :
    (FinalizeBlock badBalanceEnv demoBlock freshMiner).1 =
      some (.wrap "Balances inconsistency" (.external "balance mismatch")) ∧
    (FinalizeBlock badBalanceEnv demoBlock freshMiner).2.calls =
      [Call.ValidateBlock demoBlock, Call.SaveBlock demoBlock, Call.ProcessBlock demoBlock,
        Call.Finalize demoBlock.transactions, Call.UpdateStakeSlots demoBlock,
        Call.FlushReservedSlots, Call.CheckBalance] ∧
    Call.FlushReservedSlots ∈ (FinalizeBlock badBalanceEnv demoBlock freshMiner).2.calls :=
  ⟨rfl, rfl, by decide⟩

/-- C14 (amended): whenever `FinalizeBlock` fails, it has called `FlushReservedSlots` if
and only if the failing step is `CheckBalance`: a failure of the validator, of
`SaveBlock`, of `ProcessBlock` or of `UpdateStakeSlots` leaves the reservations in
place, a failure of `CheckBalance` comes after they were flushed. -/
theorem FinalizeBlock_flush (fenv : FinalizeEnv) (block : Block) (m : Miner) (e : Err)
    (m' : Miner) (h : FinalizeBlock fenv block m = (some e, m')) :
    ∃ added, m'.calls = m.calls ++ added ∧
      (Call.FlushReservedSlots ∈ added ↔
        ∃ msg, e = .wrap "Balances inconsistency" (.external msg)) ∧
      (Call.FlushReservedSlots ∈ added ↔ Call.CheckBalance ∈ added) := by
  unfold FinalizeBlock at h
  simp only at h
  rcases hv : fenv.ValidateBlock m.calls block with ⟨failedTx, verr⟩
  cases verr with
  | some err =>
    simp only [hv, Prod.mk.injEq, Option.some.injEq] at h
    refine ⟨[Call.ValidateBlock block] ++ (failedTx.map fun tx => Call.Finalize [tx]).toList,
      ?_, ?_, ?_⟩
    · rw [← h.2]
      cases failedTx <;> simp
    · rw [← h.1]
      cases failedTx <;> simp
    · cases failedTx <;> simp
  | none =>
    simp only [hv] at h
    cases hs : fenv.SaveBlock (m.calls ++ [Call.ValidateBlock block]) block with
    | some err =>
      simp only [hs, Prod.mk.injEq, Option.some.injEq] at h
      refine ⟨[Call.ValidateBlock block, Call.SaveBlock block], ?_, ?_, ?_⟩
      · rw [← h.2]; simp
      · rw [← h.1]; simp
      · simp
    | none =>
      simp only [hs] at h
      cases hp : fenv.ProcessBlock
        (m.calls ++ [Call.ValidateBlock block] ++ [Call.SaveBlock block]) block with
      | some err =>
        simp only [hp, Prod.mk.injEq, Option.some.injEq] at h
        refine ⟨[Call.ValidateBlock block, Call.SaveBlock block, Call.ProcessBlock block],
          ?_, ?_, ?_⟩
        · rw [← h.2]; simp
        · rw [← h.1]; simp
        · simp
      | none =>
        simp only [hp] at h
        cases hu : fenv.UpdateStakeSlots
          (m.calls ++ [Call.ValidateBlock block] ++ [Call.SaveBlock block] ++
            [Call.ProcessBlock block] ++ [Call.Finalize block.transactions]) block with
        | some err =>
          simp only [hu, Prod.mk.injEq, Option.some.injEq] at h
          refine ⟨[Call.ValidateBlock block, Call.SaveBlock block, Call.ProcessBlock block,
            Call.Finalize block.transactions, Call.UpdateStakeSlots block], ?_, ?_, ?_⟩
          · rw [← h.2]; simp
          · rw [← h.1]; simp
          · simp
        | none =>
          simp only [hu] at h
          cases hc : fenv.CheckBalance
            (m.calls ++ [Call.ValidateBlock block] ++ [Call.SaveBlock block] ++
              [Call.ProcessBlock block] ++ [Call.Finalize block.transactions] ++
              [Call.UpdateStakeSlots block] ++ [Call.FlushReservedSlots]) with
          | some err =>
            simp only [hc, Prod.mk.injEq, Option.some.injEq] at h
            refine ⟨[Call.ValidateBlock block, Call.SaveBlock block, Call.ProcessBlock block,
              Call.Finalize block.transactions, Call.UpdateStakeSlots block,
              Call.FlushReservedSlots, Call.CheckBalance], ?_, ?_, ?_⟩
            · rw [← h.2]; simp
            · rw [← h.1]; simp
            · simp
          | none =>
            simp only [List.append_assoc, List.cons_append, List.nil_append] at hc h
            simp [hc] at h

/-- Witness of C14 (amended): the failure of `CheckBalance` on `demoBlock`. -/
theorem FinalizeBlock_flush_witness :
    ∃ added, (FinalizeBlock badBalanceEnv demoBlock freshMiner).2.calls =
        freshMiner.calls ++ added ∧
      (Call.FlushReservedSlots ∈ added ↔
        ∃ msg, Err.wrap "Balances inconsistency" (.external "balance mismatch") =
          .wrap "Balances inconsistency" (.external msg)) ∧
      (Call.FlushReservedSlots ∈ added ↔ Call.CheckBalance ∈ added) :=
  FinalizeBlock_flush badBalanceEnv demoBlock freshMiner _ _ rfl

end Miner

namespace Miner

/-! ## ForgeBlock: the size step, the count cap and the scratch set -/

/-- An iteration of the loop of `ForgeBlock` that accepts `tx` appends it to `txBatch`;
what follows it in `txBatch` at loop exit is taken from the rest of the queue, in
order. -/
theorem forgeLoop_accept_shape (env : Env) (cap : Int) (tx : Transaction)
    (q : List Transaction) (st : ForgeState) (m : Miner) (st' : ForgeState) (m' : Miner)
    (hcap : (st.txBatch.length : Int) + st.collapseBatch.length ≠ cap)
    (hsize : st.totalSize + (env.Size tx : Int) ≤ env.BlockSize)
    (hok : ¬ (tx.txType = .Stake ∧ (env.ReserveSlots m.calls (stakeAmount tx)).isSome))
    (h : forgeLoop env cap (tx :: q) st m = (.ok st', m')) :
    ∃ users, st'.txBatch = st.txBatch ++ tx :: users ∧ users.Sublist q := by
  have key : ∀ (st1 : ForgeState) (m1 : Miner), st1.txBatch = st.txBatch ++ [tx] →
      (if st1.totalSize = env.BlockSize then (Except.ok st1, m1)
        else forgeLoop env cap q st1 m1) = (.ok st', m') →
      ∃ users, st'.txBatch = st.txBatch ++ tx :: users ∧ users.Sublist q := by
    intro st1 m1 e1 hres
    by_cases hbreak : st1.totalSize = env.BlockSize
    · rw [if_pos hbreak] at hres
      simp only [Prod.mk.injEq, Except.ok.injEq] at hres
      exact ⟨[], by rw [← hres.1, e1], List.nil_sublist q⟩
    · rw [if_neg hbreak] at hres
      obtain ⟨users, _, h1, _, h3, _⟩ := forgeLoop_shape env cap q st1 m1 st' m' hres
      exact ⟨users, by rw [h1, e1]; simp, h3⟩
  rw [forgeLoop_accept env cap tx q st m hcap hsize hok] at h
  rcases hr : createCollapseTx env tx env.GetBlockCount
    (if tx.txType = .Stake then
      { m with calls := m.calls ++ [Call.ReserveSlots (stakeAmount tx)] } else m)
    with ⟨(err | (_ | ctx)), m3⟩
  · simp [hr] at h
  · simp only [hr] at h
    exact key ⟨st.txBatch ++ [tx], st.collapseBatch, st.totalSize + env.Size tx⟩ m3 rfl h
  · simp only [hr] at h
    cases hins : env.InsertCollapseTx m3.calls ctx with
    | some e =>
      simp only [hins] at h
      exact key ⟨st.txBatch ++ [tx], st.collapseBatch, st.totalSize + env.Size tx⟩ _ rfl h
    | none =>
      simp only [hins] at h
      exact key ⟨st.txBatch ++ [tx], st.collapseBatch ++ [ctx],
        st.totalSize + env.Size tx + env.Size ctx⟩ _ rfl h

/-- C11: in an iteration of the loop of `ForgeBlock` (one that the count cap lets run), a
transaction whose size would push `totalSize` above `BlockSize` is passed over: the
batches, `totalSize` and the forger state are unchanged and the loop goes on with the
rest of the queue.  So when the next transaction fits (and is no refused stake), it is
the one appended to `txBatch`.  With `BlockSize = 1000`, one staker and the queue
`[bigTx of 1001 bytes, demoTransfer of 10 bytes]`, the forged block is reward,
`demoTransfer`, fee: it holds `demoTransfer` and not `bigTx`. -/
theorem forgeLoop_oversized_skipped :
    (∀ (env : Env) (cap : Int) (tx : Transaction) (q : List Transaction) (st : ForgeState)
      (m : Miner),
      (st.txBatch.length : Int) + st.collapseBatch.length ≠ cap →
      st.totalSize + (env.Size tx : Int) > env.BlockSize →
      forgeLoop env cap (tx :: q) st m = forgeLoop env cap q st m) ∧
    (∀ (env : Env) (cap : Int) (big small : Transaction) (q : List Transaction)
      (st : ForgeState) (m : Miner) (st' : ForgeState) (m' : Miner),
      (st.txBatch.length : Int) + st.collapseBatch.length ≠ cap →
      st.totalSize + (env.Size big : Int) > env.BlockSize →
      st.totalSize + (env.Size small : Int) ≤ env.BlockSize →
      ¬ (small.txType = .Stake ∧ (env.ReserveSlots m.calls (stakeAmount small)).isSome) →
      forgeLoop env cap (big :: small :: q) st m = (.ok st', m') →
      ∃ users, st'.txBatch = st.txBatch ++ small :: users ∧ users.Sublist q) ∧
    (bigSmallEnv.Size bigTx = 1001 ∧ bigSmallEnv.BlockSize = 1000 ∧
      bigSmallEnv.Size demoTransfer = 10 ∧
      ForgeBlock bigSmallEnv freshMiner =
        (.ok ⟨1, [{ num := 1, txType := .Reward, hash := 0, fee := 0, inputs := [],
                    outputs := [NewOutput 7 100 none] },
                  demoTransfer,
                  { num := 1, txType := .Fee, hash := 0, fee := 0, inputs := [],
                    outputs := [NewOutput BlackHoleAddress 5 none] }]⟩,
          { skipAddr := [], calls := [Call.FindAllUTxO 7, Call.FindAllUTxO 2] })) := by
  refine ⟨?_, ?_, rfl, rfl, rfl, rfl⟩
  · intro env cap tx q st m hcap hsize
    exact forgeLoop_too_big env cap tx q st m hcap hsize
  · intro env cap big small q st m st' m' hcap hbig hsmall hok h
    rw [forgeLoop_too_big env cap big (small :: q) st m hcap hbig] at h
    exact forgeLoop_accept_shape env cap small q st m st' m' hcap hsmall hok h

/-- Witness of C11: the first iteration of the loop on the queue of `bigSmallEnv`, after
the reward step, passes over `bigTx`. -/
theorem forgeLoop_oversized_skipped_witness :
    forgeLoop bigSmallEnv 2 [bigTx, demoTransfer]
        ⟨[{ num := 1, txType := .Reward, hash := 0, fee := 0, inputs := [],
            outputs := [NewOutput 7 100 none] }], [], 10⟩
        { skipAddr := [7], calls := [Call.FindAllUTxO 7] } =
      forgeLoop bigSmallEnv 2 [demoTransfer]
        ⟨[{ num := 1, txType := .Reward, hash := 0, fee := 0, inputs := [],
            outputs := [NewOutput 7 100 none] }], [], 10⟩
        { skipAddr := [7], calls := [Call.FindAllUTxO 7] } :=
  forgeLoop_oversized_skipped.1 bigSmallEnv 2 bigTx [demoTransfer] _ _ (by decide) (by decide)

/-- `ForgeBlock` clears the skip set when it returns a block. -/
theorem ForgeBlock_ok_skipAddr (env : Env) (m : Miner) (blk : Block) (m' : Miner)
    (h : ForgeBlock env m = (.ok blk, m')) : m'.skipAddr = [] := by
  unfold ForgeBlock at h
  simp only at h
  rcases hrw : addRewardTxToBatch env [] [] 0 m with ⟨(err | st0), m0⟩
  · simp [hrw] at h
  simp only [hrw] at h
  rcases hl : forgeLoop env (txCountPerBlock env.GetQueue.length st0) env.GetQueue st0 m0
    with ⟨(err | st1), m1⟩
  · simp [hl] at h
  simp only [hl] at h
  split at h
  · cases hf : createFeeTx env (st1.txBatch ++ st1.collapseBatch) with
    | error e =>
      simp only [hf] at h
      split at h
      · simp at h
      · simp only [Prod.mk.injEq, Except.ok.injEq] at h
        rw [← h.2]
    | ok f =>
      simp only [hf, Prod.mk.injEq, Except.ok.injEq] at h
      rw [← h.2]
  · simp only [Prod.mk.injEq, Except.ok.injEq] at h
    rw [← h.2]

/-- C20 (the code at the failing input): without stakers, with the queue `[demoTransfer]`
and an index that fails for address 2, `ForgeBlock` returns the index error and leaves the
sender, address 1, in `skipAddr`.  The skip set is cleared whenever `ForgeBlock` returns
a block. -/
theorem ForgeBlock_skipAddr_after_error :
    (ForgeBlock indexFailEnv freshMiner =
      (.error (.wrap "Error collapsing tx outputs" (.external "index unavailable")),
        { skipAddr := [1], calls := [Call.FindAllUTxO 2] })) ∧
    (ForgeBlock indexFailEnv freshMiner).2.skipAddr ≠ [] ∧
    (∀ (env : Env) (m : Miner) (blk : Block) (m' : Miner),
      ForgeBlock env m = (.ok blk, m') → m'.skipAddr = []) :=
  ⟨rfl, by decide, ForgeBlock_ok_skipAddr⟩


set_option maxRecDepth 100000 in
/-- C12 (the code at the failing input): with one staker `7` who owns 100 UTXOs and the
queue `[demoTransfer]`, the reward step leaves the reward transaction and a collapse
transaction, so `len(txBatch) + len(collapseBatch) = 2` and `txCountPerBlock = 1`; the
loop starts above the cap and still admits `demoTransfer`, which is in the forged block.
In general the loop admits a fitting transaction in every iteration that starts with
`len(txBatch) + len(collapseBatch)` above `txCountPerBlock`. -/
theorem forgeLoop_above_cap :
    addRewardTxToBatch collapseRewardEnv [] [] 0 freshMiner =
      (.ok ⟨[demoRewardTx], [stakerCollapseTx], 20⟩,
        { skipAddr := [7],
          calls := [Call.FindAllUTxO 7, Call.InsertCollapseTx stakerCollapseTx] }) ∧
    txCountPerBlock collapseRewardEnv.GetQueue.length
      ⟨[demoRewardTx], [stakerCollapseTx], 20⟩ = 1 ∧
    ForgeBlock collapseRewardEnv freshMiner =
      (.ok ⟨1, [demoRewardTx, demoTransfer, stakerCollapseTx,
                { num := 1, txType := .Fee, hash := 0, fee := 0, inputs := [],
                  outputs := [NewOutput BlackHoleAddress 5 none] }]⟩,
        { skipAddr := [],
          calls := [Call.FindAllUTxO 7, Call.InsertCollapseTx stakerCollapseTx,
            Call.FindAllUTxO 2] }) ∧
    (∀ (env : Env) (cap : Int) (tx : Transaction) (q : List Transaction) (st : ForgeState)
      (m : Miner) (st' : ForgeState) (m' : Miner),
      cap < (st.txBatch.length : Int) + st.collapseBatch.length →
      st.totalSize + (env.Size tx : Int) ≤ env.BlockSize →
      ¬ (tx.txType = .Stake ∧ (env.ReserveSlots m.calls (stakeAmount tx)).isSome) →
      forgeLoop env cap (tx :: q) st m = (.ok st', m') →
      ∃ users, st'.txBatch = st.txBatch ++ tx :: users ∧ users.Sublist q) := by
  refine ⟨rfl, rfl, rfl, ?_⟩
  intro env cap tx q st m st' m' hcap hsize hok h
  exact forgeLoop_accept_shape env cap tx q st m st' m' (by omega) hsize hok h

end Miner

namespace Miner

/-! ## Reward outputs: order, and the per-slot generator of the registry -/

/-- C21 (as stated, refuted): on the slots `[1, 2]` with `RewardBase = 100`, a map
iteration in insertion order returns the outputs to 1 then 2, a map iteration in reverse
order returns the outputs to 2 then 1: the second sequence is not sorted by address and
the two runs differ. -/
theorem createRewardOutputs_order_counterexample :
    createRewardOutputs demoEnv [1, 2] = [NewOutput 1 50 none, NewOutput 2 50 none] ∧
    createRewardOutputs reverseOrderEnv [1, 2] = [NewOutput 2 50 none, NewOutput 1 50 none] ∧
    demoEnv.RewardBase = reverseOrderEnv.RewardBase ∧
    ¬ ((createRewardOutputs reverseOrderEnv [1, 2]).map TxOutput.address).Sorted (· ≤ ·) ∧
    createRewardOutputs demoEnv [1, 2] ≠ createRewardOutputs reverseOrderEnv [1, 2] :=
  ⟨rfl, rfl, rfl, by decide, by decide⟩

/-- C21 (amended): the outputs of `createRewardOutputs` are determined up to their order:
two runs on the same slot list with the same `RewardBase`, whatever the iteration orders
of the map, return rearrangements of one another, and each is a rearrangement of the
grouped entries in the order in which the addresses first occur in the slot list. -/
theorem createRewardOutputs_perm (env env' : Env) (slots : List Address)
    (hR : env.RewardBase = env'.RewardBase) :
    (createRewardOutputs env slots).Perm (createRewardOutputs env' slots) ∧
    (slots ≠ [] →
      (createRewardOutputs env slots).Perm
        ((slots.foldl (rewardMapAdd (env.RewardBase / slots.length)) []).map
          fun e => NewOutput e.1 e.2 none)) := by
  by_cases hne : slots = []
  · subst hne
    refine ⟨?_, fun h => absurd rfl h⟩
    simp [createRewardOutputs]
  · refine ⟨?_, fun _ => ?_⟩
    · rw [createRewardOutputs_eq env slots hne, createRewardOutputs_eq env' slots hne, hR]
      exact ((env.rangeOrder_perm _).trans (env'.rangeOrder_perm _).symm).map _
    · rw [createRewardOutputs_eq env slots hne]
      exact (env.rangeOrder_perm _).map _

/-- Witness of C21 (amended): the two runs of the counterexample are rearrangements of
one another. -/
theorem createRewardOutputs_perm_witness :
    demoEnv.RewardBase = reverseOrderEnv.RewardBase ∧
    (createRewardOutputs demoEnv [1, 2]).Perm (createRewardOutputs reverseOrderEnv [1, 2]) :=
  ⟨rfl, (createRewardOutputs_perm demoEnv reverseOrderEnv [1, 2] rfl).1⟩


/-- The outputs of the per-slot generator of the registry that go to an address sum to
the per-slot reward times the number of slots of the address. -/
theorem perSlot_sum (reward : Nat) (a : Address) (slots : List Address) :
    (((slots.map fun addrHex => NewOutput addrHex reward none).filter
      fun o => decide (o.address = a)).map TxOutput.amount).sum = reward * slots.count a := by
  induction slots with
  | nil => simp
  | cons b slots ih =>
    by_cases hb : b = a
    · subst hb
      simp only [List.map_cons, NewOutput, decide_True, List.filter_cons_of_pos,
        List.sum_cons, List.count_cons_self]
      simp only [NewOutput] at ih
      rw [ih]
      ring
    · have hcount : (b :: slots).count a = slots.count a := List.count_cons_of_ne (fun h => hb h.symm) _
      simp only [List.map_cons, NewOutput, hb, decide_False, Bool.false_eq_true,
        not_false_eq_true, List.filter_cons_of_neg, hcount]
      simp only [NewOutput] at ih
      exact ih

/-- C28: for a slot list and a 64-bit reward base common to the two reward generators,
the outputs of `ValidatorGerm.createRewardOutputs` (one per slot) that go to a slot address
sum to the amount of the output, unique, that `Miner.createRewardOutputs` pays to it;
neither pays an address that holds no slot; and each returns no output exactly when the
slot list is empty. -/
theorem reward_generators_agree (env : Env) (vg : ValidatorGerm)
    (hbase : vg.blockReward = env.RewardBase) (hR : env.RewardBase < U64) :
    (∀ a ∈ vg.slots, ∃ o ∈ createRewardOutputs env vg.slots,
      o.address = a ∧
      o.amount = ((vg.createRewardOutputs.filter fun p => decide (p.address = a)).map
        TxOutput.amount).sum ∧
      ∀ o' ∈ createRewardOutputs env vg.slots, o'.address = a → o' = o) ∧
    (∀ a, a ∉ vg.slots →
      (∀ o ∈ createRewardOutputs env vg.slots, o.address ≠ a) ∧
      (∀ p ∈ vg.createRewardOutputs, p.address ≠ a)) ∧
    (vg.createRewardOutputs = [] ↔ vg.slots = []) ∧
    (createRewardOutputs env vg.slots = [] ↔ vg.slots = []) := by
  by_cases hne : vg.slots = []
  · simp [hne, ValidatorGerm.createRewardOutputs, createRewardOutputs]
  have hlen : vg.slots.length ≠ 0 := fun h => hne (List.length_eq_zero.1 h)
  have hvg : vg.createRewardOutputs =
      vg.slots.map fun addrHex => NewOutput addrHex (env.RewardBase / vg.slots.length) none := by
    simp [ValidatorGerm.createRewardOutputs, ValidatorGerm.GetRewardAmount, hlen, hbase]
  have hinv := rewardMap_inv env.RewardBase vg.slots hR
  have hperm := env.rangeOrder_perm
    (vg.slots.foldl (rewardMapAdd (env.RewardBase / vg.slots.length)) [])
  have hm := createRewardOutputs_eq env vg.slots hne
  have hmem : ∀ o, o ∈ createRewardOutputs env vg.slots ↔
      ∃ e ∈ vg.slots.foldl (rewardMapAdd (env.RewardBase / vg.slots.length)) [],
        o = NewOutput e.1 e.2 none := by
    intro o
    rw [hm, List.mem_map]
    constructor
    · rintro ⟨e, he, rfl⟩
      exact ⟨e, hperm.mem_iff.1 he, rfl⟩
    · rintro ⟨e, he, rfl⟩
      exact ⟨e, hperm.mem_iff.2 he, rfl⟩
  have hkey : ∀ e ∈ vg.slots.foldl (rewardMapAdd (env.RewardBase / vg.slots.length)) [],
      e.1 ∈ vg.slots := fun e he => (hinv.2.1 e.1).1 (List.mem_map.2 ⟨e, he, rfl⟩)
  refine ⟨?_, ?_, ?_, ?_⟩
  · intro a ha
    obtain ⟨e, he, hea⟩ := List.mem_map.1 ((hinv.2.1 a).2 ha)
    refine ⟨NewOutput e.1 e.2 none, (hmem _).2 ⟨e, he, rfl⟩, hea, ?_, ?_⟩
    · rw [hvg, perSlot_sum]
      have := hinv.2.2 e.1 e.2 he
      rw [hea] at this
      exact this
    · intro o' ho' hoa
      obtain ⟨e', he', rfl⟩ := (hmem o').1 ho'
      have h1 : e'.1 = a := hoa
      have hv := hinv.2.2 e.1 e.2 he
      have hv' := hinv.2.2 e'.1 e'.2 he'
      simp only [NewOutput]
      rw [h1, hea, hv, hv', h1, hea]
  · intro a ha
    refine ⟨?_, ?_⟩
    · intro o ho hoa
      obtain ⟨e, he, rfl⟩ := (hmem o).1 ho
      exact ha (by rw [← hoa]; exact hkey e he)
    · intro p hp hpa
      rw [hvg] at hp
      obtain ⟨b, hb, rfl⟩ := List.mem_map.1 hp
      exact ha (by rw [← hpa]; exact hb)
  · rw [hvg]
    simp
  · constructor
    · intro h
      exfalso
      obtain ⟨b, hb⟩ := List.exists_mem_of_ne_nil _ hne
      obtain ⟨e, he, _⟩ := List.mem_map.1 ((hinv.2.1 b).2 hb)
      have : NewOutput e.1 e.2 none ∈ createRewardOutputs env vg.slots :=
        (hmem _).2 ⟨e, he, rfl⟩
      rw [h] at this
      simp at this
    · intro h
      exact absurd h hne

/-- Witness of C28: the registry `demoRegistry` (slots `[5, 6, 5]`, reward 100) and the
environment `demoEnv` (`RewardBase = 100`). -/
theorem reward_generators_agree_witness :
    ValidatorGerm.demoRegistry.blockReward = demoEnv.RewardBase ∧ demoEnv.RewardBase < U64 ∧
    ∃ o ∈ createRewardOutputs demoEnv ValidatorGerm.demoRegistry.slots,
      o.address = 5 ∧
      o.amount = ((ValidatorGerm.demoRegistry.createRewardOutputs.filter
        fun p => decide (p.address = 5)).map TxOutput.amount).sum ∧
      ∀ o' ∈ createRewardOutputs demoEnv ValidatorGerm.demoRegistry.slots,
        o'.address = 5 → o' = o :=
  ⟨rfl, by decide,
    (reward_generators_agree demoEnv ValidatorGerm.demoRegistry rfl (by decide)).1 5
      (by decide)⟩

end Miner


namespace Miner

/-- With an empty slot list the reward step of `ForgeBlock` leaves the batches as they
are and reports no error. -/
theorem addRewardTxToBatch_no_stakers (env : Env) (h : env.GetStakeSlots = [])
    (txBatch collapseBatch : List Transaction) (totalSize : Int) (m : Miner) :
    addRewardTxToBatch env txBatch collapseBatch totalSize m =
      (.ok ⟨txBatch, collapseBatch, totalSize⟩, m) := by
  simp [addRewardTxToBatch, createRewardTx, createRewardOutputs, h, Err.is]

/-- C22: when the registry has no slots, `createRewardTx` fails with `ErrNoStakers`
for every block number; the reward step of `ForgeBlock` then reports no error and
leaves the batch empty; every block that `ForgeBlock` returns consists of transactions
of the queue, followed by collapse transactions, followed by at most one fee
transaction, so that a transaction of type Reward in it can only come from the queue;
and with an empty queue `ForgeBlock` succeeds with a block of zero transactions. -/
theorem ForgeBlock_no_stakers (env : Env) (h : env.GetStakeSlots = []) :
    (∀ bn, createRewardTx env bn = .error .ErrNoStakers) ∧
    (∀ m, addRewardTxToBatch env [] [] 0 m = (.ok ⟨[], [], 0⟩, m)) ∧
    (∀ m blk m', ForgeBlock env m = (.ok blk, m') →
      ∃ users collapses feePart,
        blk.transactions = users ++ collapses ++ feePart ∧
        users.Sublist env.GetQueue ∧
        (∀ c ∈ collapses, c.txType = .Collapse) ∧
        (feePart = [] ∨
          ∃ f, createFeeTx env (users ++ collapses) = .ok f ∧ feePart = [f] ∧
            f.txType = .Fee) ∧
        ∀ t ∈ blk.transactions, t.txType = .Reward → t ∈ env.GetQueue) ∧
    (env.GetQueue = [] →
      ∀ m, ForgeBlock env m = (.ok ⟨env.GetBlockCount, []⟩, { m with skipAddr := [] })) := by
  have hcr : ∀ bn, createRewardTx env bn = .error .ErrNoStakers := by
    intro bn
    simp [createRewardTx, createRewardOutputs, h]
  refine ⟨hcr, fun m => addRewardTxToBatch_no_stakers env h [] [] 0 m, ?_, ?_⟩
  · intro m blk m' hf
    obtain ⟨rewardPart, users, collapses, feePart, hb, hr, hu, hc, hfee, _⟩ :=
      ForgeBlock_shape env m blk m' hf
    have hnil : rewardPart = [] := by
      rcases hr with hr | ⟨r, hr, _⟩
      · exact hr
      · rw [hcr] at hr
        cases hr
    subst hnil
    simp only [List.nil_append] at hb hc hfee
    have hfee' : feePart = [] ∨
        ∃ f, createFeeTx env (users ++ collapses) = .ok f ∧ feePart = [f] ∧
          f.txType = .Fee := by
      rcases hfee with ⟨h1, _⟩ | ⟨f, h1, h2⟩
      · exact Or.inl h1
      · exact Or.inr ⟨f, h1, h2, (createFeeTx_ok env _ f h1).2.1⟩
    refine ⟨users, collapses, feePart, hb, hu, fun c hcm => (hc c hcm).1, hfee', ?_⟩
    intro t ht hty
    rw [hb] at ht
    rcases List.mem_append.1 ht with ht | ht
    · rcases List.mem_append.1 ht with ht | ht
      · exact hu.subset ht
      · rw [(hc t ht).1] at hty
        cases hty
    · rcases hfee' with h1 | ⟨f, _, h2, h3⟩
      · rw [h1] at ht
        cases ht
      · rw [h2, List.mem_singleton] at ht
        rw [ht, h3] at hty
        cases hty
  · intro hq m
    unfold ForgeBlock
    simp only [addRewardTxToBatch_no_stakers env h, hq, forgeLoop]
    simp

/-- Witness of C22: the environment `idleEnv` has no staker and an empty queue, and
its forger returns an empty block. -/
theorem ForgeBlock_no_stakers_witness :
    idleEnv.GetStakeSlots = [] ∧
    createRewardTx idleEnv 1 = .error .ErrNoStakers ∧
    ForgeBlock idleEnv freshMiner = (.ok ⟨1, []⟩, freshMiner) :=
  ⟨rfl, (ForgeBlock_no_stakers idleEnv rfl).1 1,
    (ForgeBlock_no_stakers idleEnv rfl).2.2.2 rfl freshMiner⟩

end Miner

namespace Miner

/-- C26 (as stated, refuted): when the validator rejects `demoBlock` and names its
second transaction, the calls of `FinalizeBlock` are `ValidateBlock(demoBlock)` followed
by `Finalize([demoTransfer2])`, which is not a prefix of the sequence of seven calls. -/
theorem FinalizeBlock_prefix_counterexample :
    (FinalizeBlock rejectSecondEnv demoBlock freshMiner).1 =
      some (.wrap "ValidateBlockError" (.external "invalid transaction")) ∧
    (FinalizeBlock rejectSecondEnv demoBlock freshMiner).2.calls =
      [Call.ValidateBlock demoBlock, Call.Finalize [demoTransfer2]] ∧
    ¬ (FinalizeBlock rejectSecondEnv demoBlock freshMiner).2.calls <+: finalizeCalls demoBlock :=
  ⟨rfl, rfl, by decide⟩

/-- C26 (amended): the collaborator calls added by one `FinalizeBlock` are a prefix of the
sequence `ValidateBlock`, `SaveBlock`, `ProcessBlock`, `Finalize(block transactions)`,
`UpdateStakeSlots`, `FlushReservedSlots`, `CheckBalance`, cut right after the first call
that fails, followed, when the failing call is `ValidateBlock` and it names a failed
transaction, by one call `Finalize([failedTx])`.  In particular a failure of `SaveBlock`
is returned after two calls, with no `ProcessBlock` and no `Finalize`; all seven calls
are made when `ValidateBlock`, `SaveBlock`, `ProcessBlock` and `UpdateStakeSlots`
succeed; and `FinalizeBlock` returns success if and only if no call fails, in which
case all seven calls were made. -/
theorem FinalizeBlock_call_sequence (fenv : FinalizeEnv) (block : Block) (m : Miner) :
    ∃ added, (FinalizeBlock fenv block m).2.calls = m.calls ++ added ∧
      (∀ failedTx err, fenv.ValidateBlock m.calls block = (failedTx, some err) →
        (FinalizeBlock fenv block m).1 = some (.wrap "ValidateBlockError" (.external err)) ∧
        added = (finalizeCalls block).take 1 ++
          (failedTx.map fun tx => Call.Finalize [tx]).toList) ∧
      ((fenv.ValidateBlock m.calls block).2 = none →
        (∀ err, fenv.SaveBlock (m.calls ++ (finalizeCalls block).take 1) block = some err →
          (FinalizeBlock fenv block m).1 = some (.external err) ∧
          added = (finalizeCalls block).take 2 ∧
          Call.ProcessBlock block ∉ added ∧ ∀ txs, Call.Finalize txs ∉ added) ∧
        (fenv.SaveBlock (m.calls ++ (finalizeCalls block).take 1) block = none →
          (∀ err,
            fenv.ProcessBlock (m.calls ++ (finalizeCalls block).take 2) block = some err →
            (FinalizeBlock fenv block m).1 =
              some (.wrap "Error process block" (.external err)) ∧
            added = (finalizeCalls block).take 3) ∧
          (fenv.ProcessBlock (m.calls ++ (finalizeCalls block).take 2) block = none →
            (∀ err,
              fenv.UpdateStakeSlots (m.calls ++ (finalizeCalls block).take 4) block =
                some err →
              (FinalizeBlock fenv block m).1 =
                some (.wrap "StakePool error" (.external err)) ∧
              added = (finalizeCalls block).take 5) ∧
            (fenv.UpdateStakeSlots (m.calls ++ (finalizeCalls block).take 4) block = none →
              added = finalizeCalls block ∧
              (∀ err, fenv.CheckBalance (m.calls ++ (finalizeCalls block).take 6) = some err →
                (FinalizeBlock fenv block m).1 =
                  some (.wrap "Balances inconsistency" (.external err))) ∧
              (fenv.CheckBalance (m.calls ++ (finalizeCalls block).take 6) = none →
                (FinalizeBlock fenv block m).1 = none))))) ∧
      ((FinalizeBlock fenv block m).1 = none ↔
        (fenv.ValidateBlock m.calls block).2 = none ∧
        fenv.SaveBlock (m.calls ++ (finalizeCalls block).take 1) block = none ∧
        fenv.ProcessBlock (m.calls ++ (finalizeCalls block).take 2) block = none ∧
        fenv.UpdateStakeSlots (m.calls ++ (finalizeCalls block).take 4) block = none ∧
        fenv.CheckBalance (m.calls ++ (finalizeCalls block).take 6) = none) ∧
      ((FinalizeBlock fenv block m).1 = none → added = finalizeCalls block) := by
  unfold FinalizeBlock
  simp only [finalizeCalls, List.take, List.append_assoc, List.cons_append, List.nil_append,
    List.singleton_append]
  rcases hv : fenv.ValidateBlock m.calls block with ⟨failedTx, (_ | verr)⟩
  · simp only
    cases hs : fenv.SaveBlock (m.calls ++ [Call.ValidateBlock block]) block with
    | some serr => exact ⟨_, rfl, by simp, by simp, by simp, by simp⟩
    | none =>
      simp only
      cases hp : fenv.ProcessBlock
          (m.calls ++ [Call.ValidateBlock block, Call.SaveBlock block]) block with
      | some perr => exact ⟨_, rfl, by simp, by simp, by simp, by simp⟩
      | none =>
        simp only
        cases hu : fenv.UpdateStakeSlots
            (m.calls ++ [Call.ValidateBlock block, Call.SaveBlock block,
              Call.ProcessBlock block, Call.Finalize block.transactions]) block with
        | some uerr => exact ⟨_, rfl, by simp, by simp, by simp, by simp⟩
        | none =>
          simp only
          cases hc : fenv.CheckBalance
              (m.calls ++ [Call.ValidateBlock block, Call.SaveBlock block,
                Call.ProcessBlock block, Call.Finalize block.transactions,
                Call.UpdateStakeSlots block, Call.FlushReservedSlots]) with
          | some cerr => exact ⟨_, rfl, by simp, by simp, by simp, by simp⟩
          | none => exact ⟨_, rfl, by simp, by simp, by simp, by simp⟩
  · cases failedTx with
    | none => exact ⟨_, by simp; rfl, by simp, by simp, by simp, by simp⟩
    | some tx => exact ⟨_, by simp; rfl, by simp, by simp, by simp, by simp⟩

end Miner

namespace Miner

/-! ## Collapse planner: index queries and the skip set -/

/-- The outer loop of `createCollapseTx`, one iteration on an address with 100 UTXOs or
more: the options gain at most one output, to that address, and the loop either ends
there or goes on with the next output. -/
theorem collapseOutputs_step (env : Env) (out : TxOutput) (outs : List TxOutput)
    (opts : TxOptions) (m : Miner) (utxo : List UTxO) (h : out.address ∉ m.skipAddr)
    (hq : env.FindAllUTxO out.address = .ok utxo) (hn : ¬ utxo.length < CollapseOutputsNum) :
    ∃ opts1 : TxOptions,
      (opts1.outputs = opts.outputs ∨
        ∃ b, opts1.outputs = opts.outputs ++ [NewOutput out.address b none]) ∧
      (collapseOutputs env (out :: outs) opts m =
          (.ok opts1,
            { skipAddr := skipInsert out.address m.skipAddr,
              calls := m.calls ++ [Call.FindAllUTxO out.address] }) ∨
        collapseOutputs env (out :: outs) opts m =
          collapseOutputs env outs opts1
            { skipAddr := skipInsert out.address m.skipAddr,
              calls := m.calls ++ [Call.FindAllUTxO out.address] }) := by
  rw [collapseOutputs]
  simp only [h, if_false, hq, hn]
  refine ⟨if (collectInputs opts.inputs.length utxo [] 0).1.length > 0 then
      { opts with
        inputs := opts.inputs ++ (collectInputs opts.inputs.length utxo [] 0).1,
        outputs := opts.outputs ++
          [NewOutput out.address (collectInputs opts.inputs.length utxo [] 0).2.1 none] }
    else opts, ?_, ?_⟩
  · split
    · exact Or.inr ⟨_, rfl⟩
    · exact Or.inl rfl
  · cases (collectInputs opts.inputs.length utxo [] 0).2.2
    · exact Or.inr rfl
    · exact Or.inl rfl

/-- A run that queries nothing. -/
theorem collapseTrace_refl (env : Env) (addrs : List Address) (opts : TxOptions) (m : Miner) :
    CollapseTrace env addrs opts m (.ok opts) m := by
  refine ⟨[], by simp, List.nodup_nil, List.nil_sublist _, by simp, by simp, ?_, ?_⟩
  · intro opts1 h
    cases h
    exact ⟨by simp, [], by simp, by simp⟩
  · intro err h
    cases h

/-- A run preceded by an output whose address is skipped. -/
theorem collapseTrace_skip (env : Env) (a : Address) (addrs : List Address)
    (opts : TxOptions) (m : Miner) (r : Except Err TxOptions) (m1 : Miner)
    (h : CollapseTrace env addrs opts m r m1) :
    CollapseTrace env (a :: addrs) opts m r m1 := by
  obtain ⟨queried, h1, h2, h3, h4⟩ := h
  exact ⟨queried, h1, h2, List.Sublist.cons _ h3, h4⟩

/-- A run that ends on a failing index query. -/
theorem collapseTrace_failed (env : Env) (a : Address) (addrs : List Address)
    (opts : TxOptions) (m : Miner) (msg : String) (hs : a ∉ m.skipAddr)
    (hq : env.FindAllUTxO a = .error msg) :
    CollapseTrace env (a :: addrs) opts m (.error (.external msg))
      { m with calls := m.calls ++ [Call.FindAllUTxO a] } := by
  refine ⟨[a], by simp, by simp, by simp, by simpa using hs, ?_, ?_, ?_⟩
  · intro b
    constructor
    · exact Or.inl
    · rintro (h | ⟨h, U, hU⟩)
      · exact h
      · rw [List.mem_singleton] at h
        rw [h, hq] at hU
        cases hU
  · intro opts1 h
    cases h
  · intro err h
    cases h
    exact ⟨a, msg, by simp, hq, rfl⟩

/-- A run preceded by an output whose address is queried with success. -/
theorem collapseTrace_query (env : Env) (a : Address) (addrs : List Address)
    (opts opts0 : TxOptions) (m : Miner) (U : List UTxO) (pre : List TxOutput)
    (r : Except Err TxOptions) (m1 : Miner) (hs : a ∉ m.skipAddr)
    (hq : env.FindAllUTxO a = .ok U) (hpre : opts0.outputs = opts.outputs ++ pre)
    (hsub : (pre.map TxOutput.address).Sublist [a])
    (h : CollapseTrace env addrs opts0
      { skipAddr := skipInsert a m.skipAddr, calls := m.calls ++ [Call.FindAllUTxO a] }
      r m1) :
    CollapseTrace env (a :: addrs) opts m r m1 := by
  obtain ⟨queried, h1, h2, h3, h4, h5, h6, h7⟩ := h
  have hnot : a ∉ queried := by
    intro ha
    exact h4 a ha ((mem_skipInsert a a m.skipAddr).2 (Or.inl rfl))
  refine ⟨a :: queried, ?_, List.nodup_cons.2 ⟨hnot, h2⟩, List.Sublist.cons₂ _ h3, ?_, ?_, ?_, ?_⟩
  · rw [h1]
    simp
  · intro b hb
    rcases List.mem_cons.1 hb with hb | hb
    · rw [hb]
      exact hs
    · intro hbs
      exact h4 b hb ((mem_skipInsert b a m.skipAddr).2 (Or.inr hbs))
  · intro b
    rw [h5 b]
    simp only [mem_skipInsert, List.mem_cons]
    constructor
    · rintro ((hb | hb) | ⟨hb, hU⟩)
      · exact Or.inr ⟨Or.inl hb, U, by rw [hb]; exact hq⟩
      · exact Or.inl hb
      · exact Or.inr ⟨Or.inr hb, hU⟩
    · rintro (hb | ⟨hb | hb, hU⟩)
      · exact Or.inl (Or.inr hb)
      · exact Or.inl (Or.inl hb)
      · exact Or.inr ⟨hb, hU⟩
  · intro opts1 hr
    obtain ⟨k1, added, k2, k3⟩ := h6 opts1 hr
    refine ⟨?_, pre ++ added, ?_, ?_⟩
    · intro b hb
      rcases List.mem_cons.1 hb with hb | hb
      · exact ⟨U, by rw [hb]; exact hq⟩
      · exact k1 b hb
    · rw [k2, hpre, List.append_assoc]
    · rw [List.map_append]
      exact List.Sublist.append hsub k3
  · intro err hr
    obtain ⟨b, msg, k1, k2⟩ := h7 err hr
    exact ⟨b, msg, List.mem_cons_of_mem _ k1, k2⟩

/-- Every run of the outer loop of `createCollapseTx` has a trace: the index queries it
made, the addresses it put in `skipAddr`, the outputs it planned. -/
theorem collapseOutputs_trace (env : Env) (outs : List TxOutput) :
    ∀ (opts : TxOptions) (m : Miner) (r : Except Err TxOptions) (m1 : Miner),
      collapseOutputs env outs opts m = (r, m1) →
      CollapseTrace env (outs.map TxOutput.address) opts m r m1 := by
  induction outs with
  | nil =>
    intro opts m r m1 h
    simp only [collapseOutputs, Prod.mk.injEq] at h
    rw [← h.1, ← h.2]
    exact collapseTrace_refl env _ opts m
  | cons out outs ih =>
    intro opts m r m1 h
    rw [List.map_cons]
    by_cases hskip : out.address ∈ m.skipAddr
    · rw [collapseOutputs_skip env out outs opts m hskip] at h
      exact collapseTrace_skip env _ _ opts m r m1 (ih opts m r m1 h)
    · cases hq : env.FindAllUTxO out.address with
      | error msg =>
        rw [collapseOutputs_error env out outs opts m msg hskip hq] at h
        simp only [Prod.mk.injEq] at h
        rw [← h.1, ← h.2]
        exact collapseTrace_failed env _ _ opts m msg hskip hq
      | ok utxo =>
        by_cases hn : utxo.length < CollapseOutputsNum
        · rw [collapseOutputs_few env out outs opts m utxo hskip hq hn] at h
          exact collapseTrace_query env _ _ opts opts m utxo [] r m1 hskip hq (by simp)
            (by simp) (ih opts _ r m1 h)
        · obtain ⟨opts1, ho, hrun⟩ := collapseOutputs_step env out outs opts m utxo hskip hq hn
          have hpre : ∃ pre, opts1.outputs = opts.outputs ++ pre ∧
              (pre.map TxOutput.address).Sublist [out.address] := by
            rcases ho with ho | ⟨b, ho⟩
            · exact ⟨[], by simpa using ho, by simp⟩
            · exact ⟨[NewOutput out.address b none], ho, by simp [NewOutput]⟩
          obtain ⟨pre, hp1, hp2⟩ := hpre
          rcases hrun with hrun | hrun
          · rw [hrun] at h
            simp only [Prod.mk.injEq] at h
            rw [← h.1, ← h.2]
            exact collapseTrace_query env _ _ opts opts1 m utxo pre _ _ hskip hq hp1 hp2
              (collapseTrace_refl env _ opts1 _)
          · rw [hrun] at h
            exact collapseTrace_query env _ _ opts opts1 m utxo pre r m1 hskip hq hp1 hp2
              (ih opts1 _ r m1 h)

/-- The result of `createCollapseTx` on a transaction with outputs, in terms of the run
of its outer loop. -/
theorem createCollapseTx_run (env : Env) (tx : Transaction) (bn : Nat) (m : Miner)
    (hout : tx.outputs ≠ []) :
    ∃ r0, collapseOutputs env tx.outputs
        { inputs := [], outputs := [], fee := 0, num := bn, txType := .Collapse }
        (if tx.txType ≠ .Reward then { m with skipAddr := skipInsert (env.From tx) m.skipAddr }
          else m) = (r0, (createCollapseTx env tx bn m).2) ∧
      (createCollapseTx env tx bn m).1 =
        match r0 with
        | .error err => .error err
        | .ok opts1 =>
          if opts1.inputs.length > 0 then
            match NewPbTransaction env opts1 with
            | .error err => .error err
            | .ok c => .ok (some c)
          else .ok none := by
  have hlen : ¬ tx.outputs.length = 0 := fun h => hout (List.length_eq_zero.1 h)
  unfold createCollapseTx
  rw [if_neg hlen]
  simp only
  generalize collapseOutputs env tx.outputs
    { inputs := [], outputs := [], fee := 0, num := bn, txType := .Collapse }
    (if tx.txType ≠ .Reward then { m with skipAddr := skipInsert (env.From tx) m.skipAddr }
      else m) = p
  rcases p with ⟨(err | opts1), m1⟩
  · exact ⟨_, rfl, rfl⟩
  · refine ⟨.ok opts1, ?_, ?_⟩
    · by_cases hpos : opts1.inputs.length > 0
      · simp only [hpos, if_true]
        cases NewPbTransaction env opts1 <;> rfl
      · simp only [hpos, if_false]
    · by_cases hpos : opts1.inputs.length > 0
      · simp only [hpos, if_true]
        cases NewPbTransaction env opts1 <;> rfl
      · simp only [hpos, if_false]

/-- The index queries recorded by a list of queries. -/
theorem queriedOf_queries (q : List Address) : queriedOf (q.map Call.FindAllUTxO) = q := by
  induction q with
  | nil => rfl
  | cons a q ih =>
    simp only [queriedOf, List.map_cons, List.filterMap_cons] at ih ⊢
    rw [ih]

/-- The index queries of two runs of calls. -/
theorem queriedOf_append (c1 c2 : List Call) :
    queriedOf (c1 ++ c2) = queriedOf c1 ++ queriedOf c2 := by
  simp [queriedOf, List.filterMap_append]

/-- What `createCollapseTx` does to the index and to the skip set, whatever it
returns. -/
theorem createCollapseTx_cycle (env : Env) (tx : Transaction) (bn : Nat) (m : Miner) :
    ∃ queried : List Address,
      (createCollapseTx env tx bn m).2.calls = m.calls ++ queried.map Call.FindAllUTxO ∧
      queried.Nodup ∧ queried.Sublist (tx.outputs.map TxOutput.address) ∧
      (∀ a ∈ queried, a ∉ m.skipAddr ∧ (tx.txType ≠ .Reward → a ≠ env.From tx)) ∧
      (∀ a, a ∈ (createCollapseTx env tx bn m).2.skipAddr ↔
        a ∈ m.skipAddr ∨ (tx.txType ≠ .Reward ∧ tx.outputs ≠ [] ∧ a = env.From tx) ∨
          (a ∈ queried ∧ ∃ U, env.FindAllUTxO a = .ok U)) ∧
      (∀ x, (createCollapseTx env tx bn m).1 = .ok x →
        ∀ a ∈ queried, ∃ U, env.FindAllUTxO a = .ok U) ∧
      (∀ c, (createCollapseTx env tx bn m).1 = .ok (some c) →
        (c.outputs.map TxOutput.address).Sublist queried) := by
  by_cases hout : tx.outputs = []
  · refine ⟨[], ?_, List.nodup_nil, List.nil_sublist _, by simp, ?_, by simp, ?_⟩
    · simp [createCollapseTx, hout]
    · intro a
      simp [createCollapseTx, hout]
    · intro c hc
      simp [createCollapseTx, hout] at hc
  · obtain ⟨r0, hrun, hres⟩ := createCollapseTx_run env tx bn m hout
    obtain ⟨queried, h1, h2, h3, h4, h5, h6, h7⟩ :=
      collapseOutputs_trace env tx.outputs _ _ r0 _ hrun
    have hskip : ∀ a, a ∈ (if tx.txType ≠ .Reward then
          ({ m with skipAddr := skipInsert (env.From tx) m.skipAddr } : Miner) else m).skipAddr ↔
        (a ∈ m.skipAddr ∨ (tx.txType ≠ .Reward ∧ a = env.From tx)) := by
      intro a
      by_cases hty : tx.txType ≠ .Reward
      · rw [if_pos hty]
        simp only [mem_skipInsert]
        constructor
        · rintro (h | h)
          · exact Or.inr ⟨hty, h⟩
          · exact Or.inl h
        · rintro (h | h)
          · exact Or.inr h
          · exact Or.inl h.2
      · rw [if_neg hty]
        constructor
        · exact Or.inl
        · rintro (h | h)
          · exact h
          · exact absurd h.1 hty
    have hcalls : (if tx.txType ≠ .Reward then
          ({ m with skipAddr := skipInsert (env.From tx) m.skipAddr } : Miner) else m).calls =
        m.calls := by
      split <;> rfl
    refine ⟨queried, ?_, h2, h3, ?_, ?_, ?_, ?_⟩
    · rw [h1, hcalls]
    · intro a ha
      have := h4 a ha
      rw [hskip a, not_or] at this
      exact ⟨this.1, fun hty he => this.2 ⟨hty, he⟩⟩
    · intro a
      rw [h5 a, hskip a]
      constructor
      · rintro ((h | h) | h)
        · exact Or.inl h
        · exact Or.inr (Or.inl ⟨h.1, hout, h.2⟩)
        · exact Or.inr (Or.inr h)
      · rintro (h | h | h)
        · exact Or.inl (Or.inl h)
        · exact Or.inl (Or.inr ⟨h.1, h.2.2⟩)
        · exact Or.inr h
    · intro x hx
      rw [hres] at hx
      rcases r0 with err | opts1
      · cases hx
      · exact (h6 opts1 rfl).1
    · intro c hc
      rw [hres] at hc
      rcases r0 with err | opts1
      · cases hc
      · obtain ⟨_, added, k1, k2⟩ := h6 opts1 rfl
        simp only at hc
        split at hc
        · unfold NewPbTransaction at hc
          cases hh : env.txHash opts1 with
          | none => simp [hh] at hc
          | some hash =>
            simp only [hh, Except.ok.injEq, Option.some.injEq] at hc
            rw [← hc]
            simp only
            rw [k1]
            simpa using k2
        · cases hc

end Miner

namespace Miner

/-! ## One forge cycle: index queries and the skip set -/

/-- Two parts of a cycle in a row. -/
theorem cycleTrace_compose (m mA mB : Miner) (n1 n2 : List Address)
    (h1 : CycleTrace m mA n1) (hok : CycleOk m mA n1) (h2 : CycleTrace mA mB n2) :
    CycleTrace m mB (n1 ++ n2) := by
  obtain ⟨a1, a2, a3⟩ := h1
  obtain ⟨b1, b2, b3⟩ := h2
  refine ⟨by rw [b1, a1, List.append_assoc], ?_, ?_⟩
  · rw [List.nodup_append]
    exact ⟨a2, b2, fun a ha hb => b3 a hb (hok.2 a ha)⟩
  · intro a ha
    rcases List.mem_append.1 ha with ha | ha
    · exact a3 a ha
    · exact fun hs => b3 a ha (hok.1 a hs)

/-- The skip set after two parts of a cycle in a row. -/
theorem cycleOk_compose (m mA mB : Miner) (n1 n2 : List Address)
    (h1 : CycleOk m mA n1) (h2 : CycleOk mA mB n2) : CycleOk m mB (n1 ++ n2) := by
  refine ⟨fun a ha => h2.1 a (h1.1 a ha), ?_⟩
  intro a ha
  rcases List.mem_append.1 ha with ha | ha
  · exact h2.1 a (h1.2 a ha)
  · exact h2.2 a ha

/-- A part of the cycle that ends at once. -/
theorem forgeTrace_refl (st : ForgeState) (m : Miner) :
    ForgeTrace st.collapseBatch m (.ok st) m := by
  refine ⟨[], ⟨by simp, List.nodup_nil, by simp⟩, ?_⟩
  intro st1 h
  cases h
  exact ⟨⟨fun a ha => ha, by simp⟩, [], by simp, by simp [plannedOf]⟩

/-- A part of the cycle that ends with an error. -/
theorem forgeTrace_failed (cb : List Transaction) (m m1 : Miner) (e : Err)
    (new : List Address) (h : CycleTrace m m1 new) : ForgeTrace cb m (.error e) m1 := by
  refine ⟨new, h, ?_⟩
  intro st1 h
  cases h

/-- A part of the cycle preceded by a step that did not fail. -/
theorem forgeTrace_extend (cb cs1 : List Transaction) (m mA : Miner) (n1 : List Address)
    (r : Except Err ForgeState) (m1 : Miner)
    (h1 : CycleTrace m mA n1) (hok : CycleOk m mA n1) (hp : (plannedOf cs1).Sublist n1)
    (h : ForgeTrace (cb ++ cs1) mA r m1) : ForgeTrace cb m r m1 := by
  obtain ⟨n2, k1, k2⟩ := h
  refine ⟨n1 ++ n2, cycleTrace_compose m mA m1 n1 n2 h1 hok k1, ?_⟩
  intro st1 hr
  obtain ⟨k3, cs, k4, k5⟩ := k2 st1 hr
  refine ⟨cycleOk_compose m mA m1 n1 n2 hok k3, cs1 ++ cs, by rw [k4, List.append_assoc], ?_⟩
  have : plannedOf (cs1 ++ cs) = plannedOf cs1 ++ plannedOf cs := by
    simp [plannedOf]
  rw [this]
  exact List.Sublist.append hp k5

/-- A step that records calls other than index queries. -/
theorem cycleTrace_calls (m : Miner) (cs : List Call) (h : queriedOf cs = []) :
    CycleTrace m { m with calls := m.calls ++ cs } [] ∧
      CycleOk m { m with calls := m.calls ++ cs } [] := by
  refine ⟨⟨?_, List.nodup_nil, by simp⟩, fun a ha => ha, by simp⟩
  simp only [queriedOf_append, h]

/-- The run of `createCollapseTx` as a step of the cycle. -/
theorem createCollapseTx_step (env : Env) (tx : Transaction) (bn : Nat) (m : Miner) :
    ∃ queried : List Address,
      CycleTrace m (createCollapseTx env tx bn m).2 queried ∧
      (∀ x, (createCollapseTx env tx bn m).1 = .ok x →
        CycleOk m (createCollapseTx env tx bn m).2 queried) ∧
      (∀ c, (createCollapseTx env tx bn m).1 = .ok (some c) →
        (plannedOf [c]).Sublist queried) := by
  obtain ⟨queried, h1, h2, h3, h4, h5, h6, h7⟩ := createCollapseTx_cycle env tx bn m
  refine ⟨queried, ⟨?_, h2, fun a ha => (h4 a ha).1⟩, ?_, ?_⟩
  · rw [h1, queriedOf_append, queriedOf_queries]
  · intro x hx
    exact ⟨fun a ha => (h5 a).2 (Or.inl ha),
      fun a ha => (h5 a).2 (Or.inr (Or.inr ⟨ha, h6 x hx a ha⟩))⟩
  · intro c hc
    simpa [plannedOf] using h7 c hc

/-- The loop of `ForgeBlock` as a part of the cycle. -/
theorem forgeLoop_cycle (env : Env) (cap : Int) (q : List Transaction) :
    ∀ (st : ForgeState) (m : Miner) (r : Except Err ForgeState) (m1 : Miner),
      forgeLoop env cap q st m = (r, m1) → ForgeTrace st.collapseBatch m r m1 := by
  induction q with
  | nil =>
    intro st m r m1 h
    simp only [forgeLoop, Prod.mk.injEq] at h
    rw [← h.1, ← h.2]
    exact forgeTrace_refl st m
  | cons tx q ih =>
    intro st m r m1 h
    by_cases hcap : (st.txBatch.length : Int) + st.collapseBatch.length = cap
    · rw [forgeLoop_full env cap tx q st m hcap] at h
      simp only [Prod.mk.injEq] at h
      rw [← h.1, ← h.2]
      exact forgeTrace_refl st m
    by_cases hsize : st.totalSize + (env.Size tx : Int) > env.BlockSize
    · rw [forgeLoop_too_big env cap tx q st m hcap hsize] at h
      exact ih st m r m1 h
    have hsize1 : st.totalSize + (env.Size tx : Int) ≤ env.BlockSize := by omega
    by_cases hok : tx.txType = .Stake ∧ (env.ReserveSlots m.calls (stakeAmount tx)).isSome
    · rw [forgeLoop_rejected env cap tx q st m hcap hsize1 hok.1 hok.2] at h
      have hc := cycleTrace_calls m
        [Call.ReserveSlots (stakeAmount tx), Call.DeleteTransaction tx] rfl
      cases hd : env.DeleteTransaction (m.calls ++ [Call.ReserveSlots (stakeAmount tx)]) tx with
      | some err =>
        simp only [hd, Prod.mk.injEq] at h
        rw [← h.1, ← h.2]
        exact forgeTrace_failed _ _ _ _ [] hc.1
      | none =>
        simp only [hd] at h
        have := ih st _ r m1 h
        exact forgeTrace_extend st.collapseBatch [] m _ [] r m1 hc.1 hc.2
          (by simp [plannedOf]) (by simpa using this)
    · have key : ∀ (c : Prop) [Decidable c] (st1 : ForgeState) (mA : Miner),
          (if c then (Except.ok st1, mA) else forgeLoop env cap q st1 mA) = (r, m1) →
          ForgeTrace st1.collapseBatch mA r m1 := by
        intro c _ st1 mA hres
        split at hres
        · simp only [Prod.mk.injEq] at hres
          rw [← hres.1, ← hres.2]
          exact forgeTrace_refl st1 mA
        · exact ih st1 mA r m1 hres
      rw [forgeLoop_accept env cap tx q st m hcap hsize1 hok] at h
      generalize hmS : (if tx.txType = .Stake then
        ({ m with calls := m.calls ++ [Call.ReserveSlots (stakeAmount tx)] } : Miner)
        else m) = mS at h
      have hS : CycleTrace m mS [] ∧ CycleOk m mS [] := by
        rw [← hmS]
        split
        · exact cycleTrace_calls m [Call.ReserveSlots (stakeAmount tx)] rfl
        · exact ⟨⟨by simp, List.nodup_nil, by simp⟩, fun a ha => ha, by simp⟩
      obtain ⟨queried, c1, c2, c3⟩ := createCollapseTx_step env tx env.GetBlockCount mS
      rcases hr : createCollapseTx env tx env.GetBlockCount mS with ⟨(err | (_ | ctx)), m3⟩
      · rw [hr] at c1
        simp only [hr, Prod.mk.injEq] at h
        rw [← h.1, ← h.2]
        exact forgeTrace_extend st.collapseBatch [] m mS [] _ m3 hS.1 hS.2
          (by simp [plannedOf]) (forgeTrace_failed _ mS m3 _ queried c1)
      · rw [hr] at c1 c2
        simp only [hr] at h
        have := key _ _ _ h
        exact forgeTrace_extend st.collapseBatch [] m mS [] r m1 hS.1 hS.2
          (by simp [plannedOf])
          (forgeTrace_extend _ [] mS m3 queried r m1 c1 (c2 none rfl) (by simp [plannedOf])
            (by simpa using this))
      · rw [hr] at c1 c2 c3
        simp only [hr] at h
        have hi := cycleTrace_calls m3 [Call.InsertCollapseTx ctx] rfl
        cases hins : env.InsertCollapseTx m3.calls ctx with
        | some e =>
          simp only [hins] at h
          have := key _ _ _ h
          exact forgeTrace_extend st.collapseBatch [] m mS [] r m1 hS.1 hS.2
            (by simp [plannedOf])
            (forgeTrace_extend _ [] mS m3 queried r m1 c1 (c2 _ rfl) (by simp [plannedOf])
              (forgeTrace_extend _ [] m3 _ [] r m1 hi.1 hi.2 (by simp [plannedOf])
                (by simpa using this)))
        | none =>
          simp only [hins] at h
          have := key _ _ _ h
          exact forgeTrace_extend st.collapseBatch [] m mS [] r m1 hS.1 hS.2
            (by simp [plannedOf])
            (forgeTrace_extend _ [ctx] mS m3 queried r m1 c1 (c2 _ rfl) (c3 ctx rfl)
              (forgeTrace_extend _ [] m3 _ [] r m1 hi.1 hi.2 (by simp [plannedOf])
                (by simpa using this)))

/-- The reward step of `ForgeBlock` as a part of the cycle. -/
theorem addRewardTxToBatch_cycle (env : Env) (m : Miner) (r : Except Err ForgeState)
    (m1 : Miner) (h : addRewardTxToBatch env [] [] 0 m = (r, m1)) :
    ForgeTrace [] m r m1 := by
  unfold addRewardTxToBatch at h
  cases hr : createRewardTx env env.GetBlockCount with
  | error err =>
    simp only [hr] at h
    split at h
    · simp only [Prod.mk.injEq] at h
      rw [← h.1, ← h.2]
      exact forgeTrace_refl ⟨[], [], 0⟩ m
    · simp only [Prod.mk.injEq] at h
      rw [← h.1, ← h.2]
      exact forgeTrace_failed _ _ _ _ [] ⟨by simp, List.nodup_nil, by simp⟩
  | ok rw =>
    simp only [hr] at h
    obtain ⟨queried, c1, c2, c3⟩ := createCollapseTx_step env rw env.GetBlockCount m
    rcases hc : createCollapseTx env rw env.GetBlockCount m with ⟨(err | (_ | ctx)), m3⟩
    · rw [hc] at c1
      simp only [hc, Prod.mk.injEq] at h
      rw [← h.1, ← h.2]
      exact forgeTrace_failed _ _ _ _ queried c1
    · rw [hc] at c1 c2
      simp only [hc, Prod.mk.injEq] at h
      rw [← h.1, ← h.2]
      exact forgeTrace_extend [] [] m m3 queried _ m3 c1 (c2 none rfl) (by simp [plannedOf])
        (forgeTrace_refl ⟨[] ++ [rw], [], 0 + env.SizeSSZ rw⟩ m3)
    · rw [hc] at c1 c2 c3
      simp only [hc] at h
      have hi := cycleTrace_calls m3 [Call.InsertCollapseTx ctx] rfl
      cases hins : env.InsertCollapseTx m3.calls ctx with
      | some e =>
        simp only [hins, Prod.mk.injEq] at h
        rw [← h.1, ← h.2]
        exact forgeTrace_extend [] [] m m3 queried _ _ c1 (c2 _ rfl) (by simp [plannedOf])
          (forgeTrace_extend _ [] m3 _ [] _ _ hi.1 hi.2 (by simp [plannedOf])
            (forgeTrace_refl ⟨[] ++ [rw], [], 0 + env.SizeSSZ rw⟩ _))
      | none =>
        simp only [hins, Prod.mk.injEq] at h
        rw [← h.1, ← h.2]
        exact forgeTrace_extend [] [ctx] m m3 queried _ _ c1 (c2 _ rfl) (c3 ctx rfl)
          (forgeTrace_extend _ [] m3 _ [] _ _ hi.1 hi.2 (by simp [plannedOf])
            (forgeTrace_refl ⟨[] ++ [rw], [] ++ [ctx], 0 + env.SizeSSZ rw + env.Size ctx⟩ _))

/-- The run of `ForgeBlock` in terms of its reward step and its loop. -/
theorem ForgeBlock_run (env : Env) (m : Miner) :
    (∃ e, addRewardTxToBatch env [] [] 0 m = (.error e, (ForgeBlock env m).2) ∧
      (ForgeBlock env m).1 = .error e) ∨
    ∃ st0 m0, addRewardTxToBatch env [] [] 0 m = (.ok st0, m0) ∧
      ((∃ e, forgeLoop env (txCountPerBlock env.GetQueue.length st0) env.GetQueue st0 m0 =
            (.error e, (ForgeBlock env m).2) ∧
          (ForgeBlock env m).1 = .error e) ∨
        ∃ st1 m1, forgeLoop env (txCountPerBlock env.GetQueue.length st0) env.GetQueue st0 m0 =
            (.ok st1, m1) ∧
          (ForgeBlock env m).2.calls = m1.calls ∧
          ((∃ e, (ForgeBlock env m).1 = .error e ∧ (ForgeBlock env m).2 = m1 ∧
              createFeeTx env (st1.txBatch ++ st1.collapseBatch) = .error e) ∨
            ∃ feePart, ForgeBlock env m =
                (.ok ⟨env.GetBlockCount, st1.txBatch ++ st1.collapseBatch ++ feePart⟩,
                  { m1 with skipAddr := [] }) ∧
              ((feePart = [] ∧
                  (st1.txBatch ++ st1.collapseBatch = [] ∨
                    createFeeTx env (st1.txBatch ++ st1.collapseBatch) =
                      .error .ErrZeroFeeAmount)) ∨
                ∃ f, createFeeTx env (st1.txBatch ++ st1.collapseBatch) = .ok f ∧
                  feePart = [f]))) := by
  unfold ForgeBlock
  simp only
  rcases hrw : addRewardTxToBatch env [] [] 0 m with ⟨(err | st0), m0⟩
  · exact Or.inl ⟨err, rfl, rfl⟩
  refine Or.inr ⟨st0, m0, rfl, ?_⟩
  simp only
  rcases hl : forgeLoop env (txCountPerBlock env.GetQueue.length st0) env.GetQueue st0 m0
    with ⟨(err | st1), m1⟩
  · exact Or.inl ⟨err, rfl, rfl⟩
  refine Or.inr ⟨st1, m1, rfl, ?_⟩
  simp only
  by_cases hlen : (st1.txBatch ++ st1.collapseBatch).length > 0
  · simp only [hlen, if_true]
    cases hf : createFeeTx env (st1.txBatch ++ st1.collapseBatch) with
    | error e =>
      simp only
      by_cases hz : e.is .ErrZeroFeeAmount = true
      · have := (createFeeTx_error env _ e hf hz).1
        subst this
        simp only [hz, Bool.not_true, Bool.false_eq_true, if_false]
        exact ⟨(by trivial), Or.inr ⟨[], by simp, Or.inl ⟨rfl, Or.inr trivial⟩⟩⟩
      · simp only [hz, Bool.not_false, if_true]
        exact ⟨(by trivial), Or.inl ⟨e, (by trivial), (by trivial), (by trivial)⟩⟩
    | ok f =>
      exact ⟨(by trivial), Or.inr ⟨[f], (by trivial), Or.inr ⟨f, (by trivial), rfl⟩⟩⟩
  · simp only [hlen, if_false]
    have hnil : st1.txBatch ++ st1.collapseBatch = [] := by
      apply List.eq_nil_of_length_eq_zero
      omega
    exact ⟨(by trivial), Or.inr ⟨[], by simp, Or.inl ⟨rfl, Or.inl hnil⟩⟩⟩

/-- The index queries of one run of `ForgeBlock`, and the addresses paid by the collapse
transactions of the block it returns. -/
theorem ForgeBlock_cycle (env : Env) (m : Miner) :
    ∃ new : List Address, CycleTrace m (ForgeBlock env m).2 new ∧
      ∀ blk, (ForgeBlock env m).1 = .ok blk →
        ∃ rewardPart users collapses feePart,
          blk.transactions = rewardPart ++ users ++ collapses ++ feePart ∧
          (rewardPart = [] ∨
            ∃ r, createRewardTx env env.GetBlockCount = .ok r ∧ rewardPart = [r]) ∧
          users.Sublist env.GetQueue ∧
          (∀ c ∈ collapses, c.txType = .Collapse ∧ ∃ t ∈ rewardPart ++ users, ∃ m1 m2,
            createCollapseTx env t env.GetBlockCount m1 = (.ok (some c), m2)) ∧
          (feePart = [] ∨
            ∃ f, createFeeTx env (rewardPart ++ users ++ collapses) = .ok f ∧
              feePart = [f]) ∧
          (plannedOf collapses).Sublist new := by
  have hcalls : ∀ (m1 m2 : Miner) (n : List Address), m2.calls = m1.calls →
      CycleTrace m m1 n → CycleTrace m m2 n := by
    intro m1 m2 n hc ht
    exact ⟨by rw [hc]; exact ht.1, ht.2⟩
  rcases ForgeBlock_run env m with ⟨e, h1, h2⟩ | ⟨st0, m0, h0, hrest⟩
  · obtain ⟨new, k1, _⟩ := addRewardTxToBatch_cycle env m _ _ h1
    refine ⟨new, k1, ?_⟩
    intro blk hb
    rw [h2] at hb
    cases hb
  · obtain ⟨n0, a1, a2⟩ := addRewardTxToBatch_cycle env m _ _ h0
    obtain ⟨a3, cs0, a4, a5⟩ := a2 st0 rfl
    rcases hrest with ⟨e, h1, h2⟩ | ⟨st1, m1, h1, h2, h3⟩
    · have := forgeLoop_cycle env _ _ st0 m0 _ _ h1
      obtain ⟨new, k1, _⟩ := forgeTrace_extend [] cs0 m m0 n0 _ _ a1 a3 a5
        (by rw [← a4]; exact this)
      refine ⟨new, k1, ?_⟩
      intro blk hb
      rw [h2] at hb
      cases hb
    · have := forgeLoop_cycle env _ _ st0 m0 _ _ h1
      obtain ⟨new, k1, k2⟩ := forgeTrace_extend [] cs0 m m0 n0 _ _ a1 a3 a5
        (by rw [← a4]; exact this)
      obtain ⟨_, cs, k3, k4⟩ := k2 st1 rfl
      refine ⟨new, hcalls m1 _ new h2 k1, ?_⟩
      intro blk hb
      rcases h3 with ⟨e, h4, _⟩ | ⟨feePart, h4, h5⟩
      · rw [h4] at hb
        cases hb
      · rw [h4] at hb
        simp only [Except.ok.injEq] at hb
        obtain ⟨r1, r2, _, _⟩ := addRewardTxToBatch_shape env m st0 m0 h0
        obtain ⟨users, cs1, l1, l2, l3, l4, _, _⟩ :=
          forgeLoop_shape env _ _ st0 m0 st1 m1 h1
        have hcol : ∀ c ∈ st1.collapseBatch, c.txType = .Collapse ∧
            ∃ t ∈ st0.txBatch ++ users, ∃ m1 m2,
              createCollapseTx env t env.GetBlockCount m1 = (.ok (some c), m2) := by
          intro c hc
          rw [l2] at hc
          rcases List.mem_append.1 hc with hc | hc
          · obtain ⟨b1, t, b2, b3⟩ := r2 c hc
            exact ⟨b1, t, List.mem_append_left _ b2, b3⟩
          · obtain ⟨b1, t, b2, b3⟩ := l4 c hc
            exact ⟨b1, t, List.mem_append_right _ b2, b3⟩
        refine ⟨st0.txBatch, users, st1.collapseBatch, feePart, ?_, r1, l3, hcol, ?_, ?_⟩
        · rw [← hb, ← l1]
        · rcases h5 with ⟨h5, _⟩ | ⟨f, h5, h6⟩
          · exact Or.inl h5
          · exact Or.inr ⟨f, by rw [← l1]; exact h5, h6⟩
        · rw [k3]
          simpa using k4

end Miner

namespace Miner

/-- Every input of a collapse transaction returned by `createCollapseTx` is made from a
UTXO that the index returned for an address paid by one of its outputs. -/
theorem createCollapseTx_inputs (env : Env) (tx : Transaction) (bn : Nat) (m : Miner)
    (c : Transaction) (m1 : Miner) (h : createCollapseTx env tx bn m = (.ok (some c), m1)) :
    ∀ i ∈ c.inputs, ∃ a ∈ c.outputs.map TxOutput.address,
      ∃ U, env.FindAllUTxO a = .ok U ∧ ∃ u ∈ U, i = u.ToPbInput := by
  obtain ⟨opts1, hash, hrun, _, hc⟩ := createCollapseTx_some env tx bn m c m1 h
  obtain ⟨plan, h1, _, h3, _, _⟩ :=
    collapseOutputs_plan env tx.outputs _ _ opts1 m1 hrun (by simp [InputsPerTxLimit])
  intro i hi
  rw [hc, h1] at hi
  simp only [List.nil_append, List.mem_flatten, List.mem_map] at hi
  obtain ⟨l, ⟨e, he, rfl⟩, hi⟩ := hi
  obtain ⟨u, hu, rfl⟩ := List.mem_map.1 hi
  obtain ⟨_, _, _, U, a4, _, a6, _⟩ := h3 e he
  refine ⟨e.1, ?_, U, a4, u, a6.subset hu, rfl⟩
  rw [hc, h1]
  simp only [List.nil_append, List.map_map, List.mem_map, Function.comp]
  exact ⟨e, he, rfl⟩

/-- C23 (as stated, refuted): the planner run on `demoTransfer` (sender 1, one output to
address 2) with an index that fails for address 2 queries the UTXOs of address 2 and
returns the index error; address 2 is not in `skipAddr` afterwards. -/
theorem createCollapseTx_skip_counterexample :
    createCollapseTx indexFailEnv demoTransfer 1 freshMiner =
      (.error (.external "index unavailable"),
        { skipAddr := [1], calls := [Call.FindAllUTxO 2] }) ∧
    Call.FindAllUTxO 2 ∈ (createCollapseTx indexFailEnv demoTransfer 1 freshMiner).2.calls ∧
    (2 : Address) ∉ (createCollapseTx indexFailEnv demoTransfer 1 freshMiner).2.skipAddr :=
  ⟨rfl, by decide, by decide⟩

/-- C23 (amended): `createCollapseTx` never queries or collapses an address that is in
`skipAddr`.  The addresses `queried` are output addresses of `T`, each queried once, in
the order of the outputs, none of them in `skipAddr` at the call and none the sender of a
non-Reward `T`, whose address is put in `skipAddr` first (for `T` with an output).  The
skip set after the call is the one before, the sender, and the addresses whose query
succeeded, whether or not they were collapsed: a failed query returns the error at once
and leaves its address out.  The outputs of a returned collapse transaction pay queried
addresses, each at most once, and its inputs are UTXOs that the index returned for these
addresses.  So in one run of `ForgeBlock`, whatever it returns, the addresses `new` asked
from the index are distinct and outside the `skipAddr` it started from, and the outputs
of the collapse transactions of a returned block pay distinct addresses among them. -/
theorem createCollapseTx_once_per_cycle (env : Env) (m : Miner) :
    (∀ (tx : Transaction) (bn : Nat), ∃ queried : List Address,
      (createCollapseTx env tx bn m).2.calls = m.calls ++ queried.map Call.FindAllUTxO ∧
      queried.Nodup ∧ queried.Sublist (tx.outputs.map TxOutput.address) ∧
      (∀ a ∈ queried, a ∉ m.skipAddr ∧ (tx.txType ≠ .Reward → a ≠ env.From tx)) ∧
      (∀ a, a ∈ (createCollapseTx env tx bn m).2.skipAddr ↔
        a ∈ m.skipAddr ∨ (tx.txType ≠ .Reward ∧ tx.outputs ≠ [] ∧ a = env.From tx) ∨
          (a ∈ queried ∧ ∃ U, env.FindAllUTxO a = .ok U)) ∧
      (∀ x, (createCollapseTx env tx bn m).1 = .ok x →
        ∀ a ∈ queried, a ∈ (createCollapseTx env tx bn m).2.skipAddr) ∧
      (∀ c, (createCollapseTx env tx bn m).1 = .ok (some c) →
        (c.outputs.map TxOutput.address).Sublist queried ∧
        (c.outputs.map TxOutput.address).Nodup ∧
        (∀ o ∈ c.outputs, o.address ∉ m.skipAddr ∧
          (tx.txType ≠ .Reward → o.address ≠ env.From tx)) ∧
        ∀ i ∈ c.inputs, ∃ a ∈ c.outputs.map TxOutput.address,
          ∃ U, env.FindAllUTxO a = .ok U ∧ ∃ u ∈ U, i = u.ToPbInput)) ∧
    ∃ new : List Address,
      queriedOf (ForgeBlock env m).2.calls = queriedOf m.calls ++ new ∧ new.Nodup ∧
      (∀ a ∈ new, a ∉ m.skipAddr) ∧
      ∀ blk, (ForgeBlock env m).1 = .ok blk →
        ∃ rewardPart users collapses feePart,
          blk.transactions = rewardPart ++ users ++ collapses ++ feePart ∧
          (rewardPart = [] ∨
            ∃ r, createRewardTx env env.GetBlockCount = .ok r ∧ rewardPart = [r]) ∧
          users.Sublist env.GetQueue ∧
          (∀ c ∈ collapses, c.txType = .Collapse ∧ ∃ t ∈ rewardPart ++ users, ∃ m1 m2,
            createCollapseTx env t env.GetBlockCount m1 = (.ok (some c), m2)) ∧
          (feePart = [] ∨
            ∃ f, createFeeTx env (rewardPart ++ users ++ collapses) = .ok f ∧
              feePart = [f]) ∧
          (plannedOf collapses).Sublist new ∧ (plannedOf collapses).Nodup := by
  refine ⟨?_, ?_⟩
  · intro tx bn
    obtain ⟨queried, h1, h2, h3, h4, h5, h6, h7⟩ := createCollapseTx_cycle env tx bn m
    refine ⟨queried, h1, h2, h3, h4, h5, ?_, ?_⟩
    · intro x hx a ha
      exact (h5 a).2 (Or.inr (Or.inr ⟨ha, h6 x hx a ha⟩))
    · intro c hc
      have hsub := h7 c hc
      refine ⟨hsub, hsub.nodup h2, ?_, ?_⟩
      · intro o ho
        exact h4 o.address (hsub.subset (List.mem_map.2 ⟨o, ho, rfl⟩))
      · exact createCollapseTx_inputs env tx bn m c (createCollapseTx env tx bn m).2
          (by rw [← hc])
  · obtain ⟨new, ⟨k1, k2, k3⟩, k4⟩ := ForgeBlock_cycle env m
    refine ⟨new, k1, k2, k3, ?_⟩
    intro blk hb
    obtain ⟨rewardPart, users, collapses, feePart, a1, a2, a3, a4, a5, a6⟩ := k4 blk hb
    exact ⟨rewardPart, users, collapses, feePart, a1, a2, a3, a4, a5, a6, a6.nodup k2⟩

end Miner

namespace Miner

/-- The skip set with which the outer loop of `createCollapseTx` starts. -/
theorem mem_senderSkip (env : Env) (tx : Transaction) (m : Miner) (a : Address) :
    a ∈ (if tx.txType ≠ .Reward then
        ({ m with skipAddr := skipInsert (env.From tx) m.skipAddr } : Miner) else m).skipAddr ↔
      (a ∈ m.skipAddr ∨ (tx.txType ≠ .Reward ∧ a = env.From tx)) := by
  by_cases hty : tx.txType ≠ .Reward
  · rw [if_pos hty]
    simp only [mem_skipInsert]
    constructor
    · rintro (h | h)
      · exact Or.inr ⟨hty, h⟩
      · exact Or.inl h
    · rintro (h | h)
      · exact Or.inr h
      · exact Or.inl h.2
  · rw [if_neg hty]
    constructor
    · exact Or.inl
    · rintro (h | h)
      · exact h
      · exact absurd h.1 hty

set_option maxRecDepth 100000 in
/-- C24 (as stated, refuted): (1) address 3 is an output address of `payThreeTwoTx`
outside the skip set and owns 100 UTXOs, which the planner takes as inputs, but the index
query for the next output address fails and the planner returns that error, not a
collapse transaction; (2) for `demoTransfer`, which pays address 2 only, no input is
accumulated and the planner returns the index error, not none; (3) when the transaction
constructor fails, the planner returns its error although inputs were accumulated;
(4) for a transaction without outputs the planner panics. -/
theorem createCollapseTx_iff_counterexample :
    ((3 : Address) ∈ payThreeTwoTx.outputs.map TxOutput.address ∧
      (3 : Address) ∉ freshMiner.skipAddr ∧ halfIndexEnv.From payThreeTwoTx ≠ 3 ∧
      halfIndexEnv.FindAllUTxO 3 = .ok (manyUTxO 3 100) ∧
      CollapseOutputsNum ≤ (manyUTxO 3 100).length ∧
      createCollapseTx halfIndexEnv payThreeTwoTx 1 freshMiner =
        (.error (.external "index unavailable"),
          { skipAddr := [3, 1], calls := [Call.FindAllUTxO 3, Call.FindAllUTxO 2] })) ∧
    (createCollapseTx halfIndexEnv demoTransfer 1 freshMiner).1 =
      .error (.external "index unavailable") ∧
    (createCollapseTx noHashEnv payThreeTx 1 freshMiner).1 =
      .error (.external "NewPbTransaction") ∧
    (createCollapseTx demoEnv noOutputTx 1 freshMiner).1 =
      .error (.panic "makeslice: cap out of range") :=
  ⟨⟨by decide, by decide, by decide, rfl, by decide, rfl⟩, rfl, rfl, rfl⟩

/-- The outer loop of `createCollapseTx` ends without error when every index query it
can make succeeds. -/
theorem collapseOutputs_ok (env : Env) (outs : List TxOutput) (opts : TxOptions) (m : Miner)
    (hq : ∀ a ∈ outs.map TxOutput.address, ∃ U, env.FindAllUTxO a = .ok U) :
    ∃ opts1, (collapseOutputs env outs opts m).1 = .ok opts1 := by
  rcases hr : collapseOutputs env outs opts m with ⟨(err | opts1), m1⟩
  · obtain ⟨queried, _, _, h3, _, _, _, h7⟩ := collapseOutputs_trace env outs opts m _ _ hr
    obtain ⟨a, msg, ha, hfail, _⟩ := h7 err rfl
    obtain ⟨U, hU⟩ := hq a (h3.subset ha)
    rw [hU] at hfail
    cases hfail
  · exact ⟨opts1, rfl⟩

/-- C24 (amended): for a transaction `T` with at least one output and an index that
answers every query for an output address of `T`, the outer loop of `createCollapseTx`
ends without error, and it has accumulated at least one input if and only if some output
address of `T` outside `skipAddr`, other than the sender when `T` is not a reward, holds
at least 100 unspent UTXOs.  With no input accumulated the planner returns none and no
error.  With an input accumulated it returns what the transaction constructor returns
for the options of type Collapse, fee 0 and num the given block number: the collapse
transaction with these fields, or the error of the constructor. -/
theorem createCollapseTx_iff (env : Env) (tx : Transaction) (bn : Nat) (m : Miner)
    (hout : tx.outputs ≠ [])
    (hq : ∀ a ∈ tx.outputs.map TxOutput.address, ∃ U, env.FindAllUTxO a = .ok U) :
    ∃ opts1,
      collapseOutputs env tx.outputs
        { inputs := [], outputs := [], fee := 0, num := bn, txType := .Collapse }
        (if tx.txType ≠ .Reward then { m with skipAddr := skipInsert (env.From tx) m.skipAddr }
          else m) = (.ok opts1, (createCollapseTx env tx bn m).2) ∧
      opts1.txType = .Collapse ∧ opts1.fee = 0 ∧ opts1.num = bn ∧
      (opts1.inputs ≠ [] ↔
        ∃ a ∈ tx.outputs.map TxOutput.address, a ∉ m.skipAddr ∧
          (tx.txType ≠ .Reward → a ≠ env.From tx) ∧
          ∃ U, env.FindAllUTxO a = .ok U ∧ CollapseOutputsNum ≤ U.length) ∧
      (opts1.inputs = [] → (createCollapseTx env tx bn m).1 = .ok none) ∧
      (opts1.inputs ≠ [] → ∀ hash, env.txHash opts1 = some hash →
        (createCollapseTx env tx bn m).1 =
          .ok (some { num := bn, txType := .Collapse, hash := hash, fee := 0,
                      inputs := opts1.inputs, outputs := opts1.outputs })) ∧
      (opts1.inputs ≠ [] → env.txHash opts1 = none →
        (createCollapseTx env tx bn m).1 = .error (.external "NewPbTransaction")) ∧
      ((∃ c, (createCollapseTx env tx bn m).1 = .ok (some c)) → opts1.inputs ≠ []) := by
  obtain ⟨r0, hrun, hres⟩ := createCollapseTx_run env tx bn m hout
  obtain ⟨opts1, hok⟩ := collapseOutputs_ok env tx.outputs
    { inputs := [], outputs := [], fee := 0, num := bn, txType := .Collapse }
    (if tx.txType ≠ .Reward then { m with skipAddr := skipInsert (env.From tx) m.skipAddr }
      else m) hq
  rw [hrun] at hok
  simp only at hok
  subst hok
  obtain ⟨plan, h1, _, h3, _, h5⟩ :=
    collapseOutputs_plan env tx.outputs _ _ opts1 _ hrun (by simp [InputsPerTxLimit])
  have hty : opts1.txType = .Collapse := by rw [h1]
  have hfee : opts1.fee = 0 := by rw [h1]
  have hnum : opts1.num = bn := by rw [h1]
  have hin : opts1.inputs = (plan.map fun e => e.2.map UTxO.ToPbInput).flatten := by
    rw [h1]
    simp
  have hlen : ∀ l : List TxInput, (l.length > 0) ↔ l ≠ [] := by
    intro l
    cases l <;> simp
  refine ⟨opts1, hrun, hty, hfee, hnum, ?_, ?_, ?_, ?_, ?_⟩
  · constructor
    · intro hne
      have : ∃ e ∈ plan, e.2 ≠ [] := by
        by_contra hcon
        apply hne
        rw [hin]
        simp only [List.flatten_eq_nil_iff, List.mem_map, forall_exists_index, and_imp,
          forall_apply_eq_imp_iff₂, List.map_eq_nil_iff]
        intro e he
        by_contra h2
        exact hcon ⟨e, he, h2⟩
      obtain ⟨e, he, _⟩ := this
      obtain ⟨a1, a2, _, U, a4, a5, _⟩ := h3 e he
      rw [mem_senderSkip, not_or] at a2
      exact ⟨e.1, a1, a2.1, fun hr hf => a2.2 ⟨hr, hf⟩, U, a4, a5⟩
    · rintro ⟨a, ha, hs, hf, U, hU, hn⟩
      have hs1 : a ∉ (if tx.txType ≠ .Reward then
          ({ m with skipAddr := skipInsert (env.From tx) m.skipAddr } : Miner)
          else m).skipAddr := by
        rw [mem_senderSkip, not_or]
        exact ⟨hs, fun h => hf h.1 h.2⟩
      rcases h5 a ha hs1 U hU hn with hp | hp
      · obtain ⟨e, he, _⟩ := List.mem_map.1 hp
        obtain ⟨_, _, a3, _⟩ := h3 e he
        intro hnil
        rw [hin] at hnil
        simp only [List.flatten_eq_nil_iff, List.mem_map, forall_exists_index, and_imp,
          forall_apply_eq_imp_iff₂, List.map_eq_nil_iff] at hnil
        exact a3 (hnil e he)
      · intro hnil
        rw [hnil] at hp
        simp [InputsPerTxLimit] at hp
  · intro hnil
    rw [hres]
    simp [hnil]
  · intro hne hash hh
    rw [hres]
    simp only [(hlen _).2 hne, if_true, NewPbTransaction, hh, hty, hfee, hnum]
  · intro hne hh
    rw [hres]
    simp only [(hlen _).2 hne, if_true, NewPbTransaction, hh]
  · rintro ⟨c, hc⟩ hnil
    rw [hres] at hc
    simp [hnil] at hc

/-- Witness of C24 (amended): `payThreeTx` pays address 3, which owns 100 UTXOs in
`hugeIndexEnv`, an index that answers every query. -/
theorem createCollapseTx_iff_witness :
    payThreeTx.outputs ≠ [] ∧
    (∀ a ∈ payThreeTx.outputs.map TxOutput.address, ∃ U, hugeIndexEnv.FindAllUTxO a = .ok U) ∧
    ∃ opts1,
      collapseOutputs hugeIndexEnv payThreeTx.outputs
        { inputs := [], outputs := [], fee := 0, num := 1, txType := .Collapse }
        (if payThreeTx.txType ≠ .Reward then
          { freshMiner with
            skipAddr := skipInsert (hugeIndexEnv.From payThreeTx) freshMiner.skipAddr }
          else freshMiner) =
        (.ok opts1, (createCollapseTx hugeIndexEnv payThreeTx 1 freshMiner).2) ∧
      opts1.txType = .Collapse ∧ opts1.fee = 0 ∧ opts1.num = 1 :=
  ⟨by decide, fun a _ => by
      by_cases h : a = 3
      · exact ⟨hugeUTxO 3 100, by simp [hugeIndexEnv, h]⟩
      · exact ⟨[], by simp [hugeIndexEnv, h]⟩,
    (createCollapseTx_iff hugeIndexEnv payThreeTx 1 freshMiner (by decide)
      (fun a _ => by
        by_cases h : a = 3
        · exact ⟨hugeUTxO 3 100, by simp [hugeIndexEnv, h]⟩
        · exact ⟨[], by simp [hugeIndexEnv, h]⟩)).imp
      fun _ h => ⟨h.1, h.2.1, h.2.2.1, h.2.2.2.1⟩⟩

/-- The amounts of the inputs made from the UTXOs of a plan add up to the sum of the
per-address sums. -/
theorem plan_inputs_sum (plan : List (Address × List UTxO)) :
    (((plan.map fun e => e.2.map UTxO.ToPbInput).flatten).map TxInput.amount).sum =
      (plan.map fun e => ((e.2.map UTxO.ToPbInput).map TxInput.amount).sum).sum := by
  induction plan with
  | nil => rfl
  | cons e plan ih =>
    simp only [List.map_cons, List.flatten_cons, List.map_append, List.sum_append, List.sum_cons]
    rw [ih]

/-- The amount of the input made from a UTXO. -/
theorem ToPbInput_amounts (l : List UTxO) :
    (l.map UTxO.ToPbInput).map TxInput.amount = l.map UTxO.amount := by
  simp [UTxO.ToPbInput, Function.comp_def]

/-- C25: every collapse transaction returned by `createCollapseTx` for `T` is built from
a list `plan` of pairs (address, UTXOs taken): the addresses are distinct output
addresses of `T`, in the order of the outputs of `T`; the UTXOs taken for an address are
a non-empty initial part of the list that the index returned for it; the inputs of the
transaction are the inputs made from the UTXOs taken, address after address; there is
one output per address of the plan, whose amount is the sum modulo `2 ^ 64` of the
amounts of the inputs taken from that address.  When no such per-address sum reaches
`2 ^ 64`, each output amount is that sum itself, and the sum of all input amounts equals
the sum of all output amounts. -/
theorem createCollapseTx_conserves (env : Env) (tx : Transaction) (bn : Nat) (m : Miner)
    (c : Transaction) (m1 : Miner) (h : createCollapseTx env tx bn m = (.ok (some c), m1)) :
    ∃ plan : List (Address × List UTxO),
      c.inputs = (plan.map fun e => e.2.map UTxO.ToPbInput).flatten ∧
      (plan.map Prod.fst).Sublist (tx.outputs.map TxOutput.address) ∧
      (plan.map Prod.fst).Nodup ∧
      (∀ e ∈ plan, e.2 ≠ [] ∧ ∃ U, env.FindAllUTxO e.1 = .ok U ∧ e.2 <+: U) ∧
      c.outputs = plan.map (fun e =>
        NewOutput e.1 (((e.2.map UTxO.ToPbInput).map TxInput.amount).sum % U64) none) ∧
      ((∀ e ∈ plan, ((e.2.map UTxO.ToPbInput).map TxInput.amount).sum < U64) →
        c.outputs = plan.map (fun e =>
          NewOutput e.1 ((e.2.map UTxO.ToPbInput).map TxInput.amount).sum none) ∧
        (c.inputs.map TxInput.amount).sum = (c.outputs.map TxOutput.amount).sum) := by
  obtain ⟨opts1, hash, hrun, _, hc⟩ := createCollapseTx_some env tx bn m c m1 h
  obtain ⟨plan, h1, h2, h3, _, _⟩ :=
    collapseOutputs_plan env tx.outputs _ _ opts1 m1 hrun (by simp [InputsPerTxLimit])
  obtain ⟨queried, _, _, t3, _, _, t6, _⟩ := collapseOutputs_trace env tx.outputs _ _ _ _ hrun
  obtain ⟨_, added, t7, t8⟩ := t6 opts1 rfl
  have hin : c.inputs = (plan.map fun e => e.2.map UTxO.ToPbInput).flatten := by
    rw [hc, h1]
    simp
  have hout : c.outputs = plan.map (fun e =>
      NewOutput e.1 (((e.2.map UTxO.ToPbInput).map TxInput.amount).sum % U64) none) := by
    rw [hc, h1]
    simp only [ToPbInput_amounts, List.nil_append]
  have hadded : added.map TxOutput.address = plan.map Prod.fst := by
    have : added = plan.map fun e => NewOutput e.1 ((e.2.map UTxO.amount).sum % U64) none := by
      rw [h1] at t7
      simpa using t7.symm
    rw [this]
    simp [NewOutput, Function.comp_def]
  refine ⟨plan, hin, ?_, h2, ?_, hout, ?_⟩
  · rw [← hadded]
    exact t8.trans t3
  · intro e he
    obtain ⟨_, _, a3, U, a4, _, a6, _⟩ := h3 e he
    exact ⟨a3, U, a4, a6⟩
  · intro hlt
    have hexact : c.outputs = plan.map (fun e =>
        NewOutput e.1 ((e.2.map UTxO.ToPbInput).map TxInput.amount).sum none) := by
      rw [hout]
      apply List.map_congr_left
      intro e he
      rw [Nat.mod_eq_of_lt (hlt e he)]
    refine ⟨hexact, ?_⟩
    rw [hin, hexact, plan_inputs_sum]
    simp [NewOutput, Function.comp_def]

/-- Witness of C25: the collapse transaction planned for `capTx`. -/
theorem createCollapseTx_conserves_witness :
    ∃ c m1, createCollapseTx capEnv capTx 1 freshMiner = (.ok (some c), m1) ∧
      ∃ plan : List (Address × List UTxO),
        c.inputs = (plan.map fun e => e.2.map UTxO.ToPbInput).flatten ∧
        (plan.map Prod.fst).Sublist (capTx.outputs.map TxOutput.address) :=
  ⟨_, _, capExample_run,
    (createCollapseTx_conserves capEnv capTx 1 _ _ _ capExample_run).imp
      fun _ hp => ⟨hp.1, hp.2.1⟩⟩

end Miner

namespace Miner

/-! ## ForgeBlock: the count of transactions -/

/-- The planner returns none and leaves the forger state as it is when the sender and
every output address of the transaction are in `skipAddr` already. -/
theorem createCollapseTx_settled (env : Env) (tx : Transaction) (bn : Nat) (m : Miner)
    (hout : tx.outputs ≠ []) (hty : tx.txType ≠ .Reward) (hfrom : env.From tx ∈ m.skipAddr)
    (hall : ∀ o ∈ tx.outputs, o.address ∈ m.skipAddr) :
    createCollapseTx env tx bn m = (.ok none, m) := by
  have hloop : ∀ (outs : List TxOutput) (opts : TxOptions),
      (∀ o ∈ outs, o.address ∈ m.skipAddr) → collapseOutputs env outs opts m = (.ok opts, m) := by
    intro outs opts
    induction outs with
    | nil =>
      intro _
      rw [collapseOutputs]
    | cons o outs ih =>
      intro h
      rw [collapseOutputs_skip env o outs opts m (h o (by simp))]
      exact ih fun o1 ho1 => h o1 (List.mem_cons_of_mem _ ho1)
  have hm : ({ m with skipAddr := skipInsert (env.From tx) m.skipAddr } : Miner) = m := by
    unfold skipInsert
    rw [if_pos hfrom]
  have hlen : ¬ tx.outputs.length = 0 := fun h => hout (List.length_eq_zero.1 h)
  unfold createCollapseTx
  rw [if_neg hlen, if_pos hty, hm]
  simp only [hloop tx.outputs _ hall]
  simp

/-- The loop of `ForgeBlock`, one iteration that admits a transaction for which the
planner returns none. -/
theorem forgeLoop_plain_step (env : Env) (cap : Int) (tx : Transaction)
    (q : List Transaction) (st : ForgeState) (m m1 : Miner)
    (hcap : (st.txBatch.length : Int) + st.collapseBatch.length ≠ cap)
    (hsize : st.totalSize + (env.Size tx : Int) < env.BlockSize)
    (hty : tx.txType ≠ .Stake)
    (hc : createCollapseTx env tx env.GetBlockCount m = (.ok none, m1)) :
    forgeLoop env cap (tx :: q) st m =
      forgeLoop env cap q ⟨st.txBatch ++ [tx], st.collapseBatch, st.totalSize + env.Size tx⟩
        m1 := by
  rw [forgeLoop_accept env cap tx q st m hcap (by omega) (fun h => hty h.1)]
  rw [if_neg hty, hc]
  simp only
  rw [if_neg (by omega)]

/-- The loop of `ForgeBlock`, one iteration that admits a transaction together with the
collapse transaction planned for it. -/
theorem forgeLoop_collapse_step (env : Env) (cap : Int) (tx : Transaction)
    (q : List Transaction) (st : ForgeState) (m m1 : Miner) (ctx : Transaction)
    (hcap : (st.txBatch.length : Int) + st.collapseBatch.length ≠ cap)
    (hsize : st.totalSize + (env.Size tx : Int) + (env.Size ctx : Int) < env.BlockSize)
    (hty : tx.txType ≠ .Stake)
    (hc : createCollapseTx env tx env.GetBlockCount m = (.ok (some ctx), m1))
    (hins : env.InsertCollapseTx m1.calls ctx = none) :
    forgeLoop env cap (tx :: q) st m =
      forgeLoop env cap q
        ⟨st.txBatch ++ [tx], st.collapseBatch ++ [ctx],
          st.totalSize + env.Size tx + env.Size ctx⟩
        { m1 with calls := m1.calls ++ [Call.InsertCollapseTx ctx] } := by
  rw [forgeLoop_accept env cap tx q st m hcap (by omega) (fun h => hty h.1)]
  rw [if_neg hty, hc]
  simp only [hins]
  rw [if_neg (by omega)]

/-- The loop of `ForgeBlock` over a run `q` of transactions that are no stake
transactions and for which the planner returns none without changing the forger state:
all of them are admitted as long as the count of the batch differs from the cap and the
sizes stay below the budget. -/
theorem forgeLoop_plain_run (env : Env) (cap : Int) (m : Miner) (rest : List Transaction)
    (q : List Transaction) :
    ∀ (st : ForgeState),
      (∀ tx ∈ q, tx.txType ≠ .Stake ∧
        createCollapseTx env tx env.GetBlockCount m = (.ok none, m)) →
      (∀ j < q.length,
        (st.txBatch.length : Int) + j + st.collapseBatch.length ≠ cap) →
      st.totalSize + (((q.map env.Size).sum : Nat) : Int) < env.BlockSize →
      forgeLoop env cap (q ++ rest) st m =
        forgeLoop env cap rest
          ⟨st.txBatch ++ q, st.collapseBatch, st.totalSize + (((q.map env.Size).sum : Nat) : Int)⟩
          m := by
  induction q with
  | nil =>
    intro st _ _ _
    simp
  | cons tx q ih =>
    intro st hq hcap hsize
    simp only [List.map_cons, List.sum_cons, Nat.cast_add] at hsize
    have h0 := hcap 0 (by simp)
    simp only [Nat.cast_zero, Int.add_zero] at h0
    rw [List.cons_append,
      forgeLoop_plain_step env cap tx (q ++ rest) st m m h0 (by omega) (hq tx (by simp)).1
        (hq tx (by simp)).2]
    rw [ih _ (fun t ht => hq t (List.mem_cons_of_mem _ ht)) ?_ ?_]
    · simp only [List.append_assoc, List.singleton_append, List.map_cons, List.sum_cons,
        Nat.cast_add, Int.add_assoc]
    · intro j hj
      have := hcap (j + 1) (by simp only [List.length_cons]; omega)
      simp only [List.length_append, List.length_singleton, Nat.cast_add, Nat.cast_one] at this ⊢
      omega
    · simp only
      omega

/-- The sizes of transactions that are all `k` bytes long add up to `k` times their
number. -/
theorem sum_map_size_const (env : Env) (k : Nat) (hk : ∀ t, env.Size t = k)
    (q : List Transaction) : (q.map env.Size).sum = k * q.length := by
  induction q with
  | nil => simp
  | cons t q ih =>
    simp only [List.map_cons, List.sum_cons, List.length_cons, ih, hk t]
    ring

set_option maxRecDepth 100000 in
/-- The loop of `ForgeBlock` on `overCapQueue` with the cap 999: the count of the batch
goes from 998 to 1000 when the 999th transfer and its collapse transaction are appended,
and every transfer of the queue is admitted. -/
theorem overCap_loop :
    forgeLoop overCapEnv 999 overCapQueue ⟨[], [], 0⟩ freshMiner =
      (.ok ⟨overCapQueue, [threeCollapseTx], 1001⟩,
        { skipAddr := [3, 2, 1],
          calls := [Call.FindAllUTxO 2, Call.FindAllUTxO 3,
            Call.InsertCollapseTx threeCollapseTx] }) := by
  have hA : createCollapseTx overCapEnv (plainTx 0) overCapEnv.GetBlockCount freshMiner =
      (.ok none, { skipAddr := [2, 1], calls := [Call.FindAllUTxO 2] }) := rfl
  have hsettled : ∀ (i : Nat) (m : Miner), (1 : Address) ∈ m.skipAddr →
      (2 : Address) ∈ m.skipAddr →
      createCollapseTx overCapEnv (plainTx i) overCapEnv.GetBlockCount m = (.ok none, m) := by
    intro i m h1 h2
    refine createCollapseTx_settled overCapEnv (plainTx i) _ m (by simp [plainTx, demoTransfer])
      (by simp [plainTx, demoTransfer]) h1 ?_
    intro o ho
    simp only [plainTx, demoTransfer, List.mem_singleton] at ho
    rw [ho]
    exact h2
  have hC : createCollapseTx overCapEnv triggerTx overCapEnv.GetBlockCount
      { skipAddr := [2, 1], calls := [Call.FindAllUTxO 2] } =
      (.ok (some threeCollapseTx),
        { skipAddr := [3, 2, 1], calls := [Call.FindAllUTxO 2, Call.FindAllUTxO 3] }) := rfl
  have hsz : ∀ q : List Transaction, (q.map overCapEnv.Size).sum = q.length := by
    intro q
    rw [sum_map_size_const overCapEnv 1 (fun _ => rfl) q, Nat.one_mul]
  have hone : ∀ t, (overCapEnv.Size t : Int) = 1 := fun _ => rfl
  have hbs : overCapEnv.BlockSize = 1000000 := rfl
  unfold overCapQueue
  rw [forgeLoop_plain_step overCapEnv 999 (plainTx 0) _ ⟨[], [], 0⟩ freshMiner _ (by decide)
    (by decide) (by decide) hA]
  rw [forgeLoop_plain_run overCapEnv 999 _ [triggerTx, plainTx 998] _ _ ?_ ?_ ?_]
  · simp only [List.nil_append, List.length_map, List.length_range, hsz]
    rw [forgeLoop_collapse_step overCapEnv 999 triggerTx _ _ _ _ threeCollapseTx ?_ ?_
      (by decide) hC rfl]
    · rw [forgeLoop_plain_step overCapEnv 999 (plainTx 998) [] _ _ _ ?_ ?_ (by decide)
        (hsettled 998 _ (by decide) (by decide))]
      · rw [forgeLoop]
        simp [hone]
      · simp
      · simp [hone, hbs]
    · simp
    · simp [hone, hbs]
  · intro tx htx
    obtain ⟨i, _, rfl⟩ := List.mem_map.1 htx
    exact ⟨by simp [plainTx, demoTransfer], hsettled (i + 1) _ (by decide) (by decide)⟩
  · intro j hj
    simp only [List.length_map, List.length_range] at hj
    simp only [List.nil_append, List.length_singleton, List.length_nil]
    omega
  · simp only [hsz, List.length_map, List.length_range]
    decide


/-- The fee transaction of the batch forged from `overCapQueue`. -/
theorem overCap_fee :
    createFeeTx overCapEnv (overCapQueue ++ [threeCollapseTx]) =
      .ok { num := 1, txType := .Fee, hash := 0, fee := 0, inputs := [],
            outputs := [NewOutput BlackHoleAddress 5000 none] } := by
  have hfee : ∀ q : List Nat, ((q.map fun i => plainTx (i + 1)).map overCapEnv.GetRealFee).sum =
      5 * q.length := by
    intro q
    induction q with
    | nil => rfl
    | cons i q ih =>
      simp only [List.map_cons, List.sum_cons, List.length_cons, ih]
      have : overCapEnv.GetRealFee (plainTx (i + 1)) = 5 := rfl
      rw [this]
      ring
  have hsum : ((overCapQueue ++ [threeCollapseTx]).map overCapEnv.GetRealFee).sum = 5000 := by
    unfold overCapQueue
    simp only [List.cons_append, List.map_cons, List.map_append, List.sum_cons, List.sum_append,
      hfee, List.length_range, List.map_nil, List.sum_nil]
    rfl
  unfold createFeeTx
  rw [feeAmount_eq, hsum]
  rfl

/-- The block returned by `ForgeBlock` when its reward step and its loop succeed and
the fee transaction is built. -/
theorem ForgeBlock_of_steps (env : Env) (m : Miner) (st0 : ForgeState) (m0 : Miner)
    (st1 : ForgeState) (m1 : Miner) (f : Transaction)
    (h0 : addRewardTxToBatch env [] [] 0 m = (.ok st0, m0))
    (h1 : forgeLoop env (txCountPerBlock env.GetQueue.length st0) env.GetQueue st0 m0 =
      (.ok st1, m1))
    (hf : createFeeTx env (st1.txBatch ++ st1.collapseBatch) = .ok f) :
    ForgeBlock env m =
      (.ok ⟨env.GetBlockCount, st1.txBatch ++ st1.collapseBatch ++ [f]⟩,
        { m1 with skipAddr := [] }) := by
  have hpos : (st1.txBatch ++ st1.collapseBatch).length > 0 := by
    by_contra hcon
    have hnil : st1.txBatch ++ st1.collapseBatch = [] := by
      apply List.eq_nil_of_length_eq_zero
      omega
    rw [hnil] at hf
    simp [createFeeTx, feeAmount] at hf
  unfold ForgeBlock
  simp only [h0, h1, hpos, if_true, hf]

/-- The block forged from `overCapQueue`. -/
theorem overCap_forge :
    ForgeBlock overCapEnv freshMiner =
      (.ok ⟨1, overCapQueue ++ [threeCollapseTx] ++
          [{ num := 1, txType := .Fee, hash := 0, fee := 0, inputs := [],
             outputs := [NewOutput BlackHoleAddress 5000 none] }]⟩,
        { skipAddr := [],
          calls := [Call.FindAllUTxO 2, Call.FindAllUTxO 3,
            Call.InsertCollapseTx threeCollapseTx] }) := by
  have hlen : overCapEnv.GetQueue.length = 1000 := by
    show overCapQueue.length = 1000
    simp [overCapQueue]
  have hcnt : txCountPerBlock overCapEnv.GetQueue.length ⟨[], [], 0⟩ = 999 := by
    rw [hlen]
    decide
  exact ForgeBlock_of_steps overCapEnv freshMiner ⟨[], [], 0⟩ freshMiner
    ⟨overCapQueue, [threeCollapseTx], 1001⟩ _ _
    (addRewardTxToBatch_no_stakers overCapEnv rfl [] [] 0 freshMiner)
    (by rw [hcnt]; exact overCap_loop) overCap_fee

/-- C27 (code): with no staker and the queue `overCapQueue` of 1000 one-byte transfers,
of which the 999th pays an address that owns 100 UTXOs, `txCountPerBlock` is 999 and
`ForgeBlock` returns a block of 1002 transactions: the 1000 transfers, one collapse
transaction and the fee transaction.  This is more than `txBatchLimit = 1000`. -/
theorem ForgeBlock_over_limit :
    overCapEnv.GetQueue.length = 1000 ∧
    txCountPerBlock overCapEnv.GetQueue.length ⟨[], [], 0⟩ = 999 ∧
    ForgeBlock overCapEnv freshMiner =
      (.ok ⟨1, overCapQueue ++ [threeCollapseTx] ++
          [{ num := 1, txType := .Fee, hash := 0, fee := 0, inputs := [],
             outputs := [NewOutput BlackHoleAddress 5000 none] }]⟩,
        { skipAddr := [],
          calls := [Call.FindAllUTxO 2, Call.FindAllUTxO 3,
            Call.InsertCollapseTx threeCollapseTx] }) ∧
    ∃ blk, (ForgeBlock overCapEnv freshMiner).1 = .ok blk ∧
      blk.transactions.length = 1002 ∧ txBatchLimit < blk.transactions.length := by
  have hlen : overCapEnv.GetQueue.length = 1000 := by
    show overCapQueue.length = 1000
    simp [overCapQueue]
  have hq : overCapQueue.length = 1000 := hlen
  refine ⟨hlen, by rw [hlen]; decide, overCap_forge, _, by rw [overCap_forge], ?_, ?_⟩
  · simp [hq]
  · simp [hq, txBatchLimit]

end Miner

namespace LanSrv

/-! ## lansrv: `processBlock` and `validateTx` -/

/-- The closure `errorsCheck` called with an error: with an affected-row count other
than 1 it returns `ErrAffectedRows` and leaves `inputs` as they are; with the count 1 it
returns the error after `restoreInputs`. -/
theorem errorsCheck_cases (arows blockTx : Int) (e : String) (s : LanSrv) :
    (arows ≠ 1 →
      errorsCheck arows blockTx (some e) s =
        (some .ErrAffectedRows, { s with calls := s.calls ++ [DbCall.RollbackTx blockTx] })) ∧
    (arows = 1 →
      errorsCheck arows blockTx (some e) s =
        (some (.external e),
          restoreInputs { s with calls := s.calls ++ [DbCall.RollbackTx blockTx] })) := by
  unfold errorsCheck
  constructor
  · intro h
    simp [h]
  · intro h
    simp [h]

/-- After `restoreInputs` every address saved in `inputsTmp` has its saved list in
`inputs`. -/
theorem restoreInputs_spec (s : LanSrv) (addr : Address) (l : List UTxO)
    (h : s.inputsTmp addr = some l) :
    (restoreInputs s).inputs addr = some l ∧ (restoreInputs s).inputsTmp addr = some l := by
  simp [restoreInputs, h]

/-- A return through `errorsCheck`. -/
theorem errorsCheck_rolledBack (arows blockTx : Int) (err : Option String) (s : LanSrv) :
    RolledBack blockTx (errorsCheck arows blockTx err s) ∧
      (errorsCheck arows blockTx err s).2.inputsTmp = s.inputsTmp := by
  cases err with
  | none => exact ⟨⟨_, rfl, Or.inl ⟨_, rfl⟩⟩, rfl⟩
  | some e =>
    by_cases h : arows ≠ 1
    · rw [(errorsCheck_cases arows blockTx e s).1 h]
      exact ⟨⟨_, rfl, Or.inr ⟨by simp, Or.inl rfl⟩⟩, rfl⟩
    · rw [(errorsCheck_cases arows blockTx e s).2 (not_not.1 h)]
      refine ⟨⟨_, rfl, Or.inr ⟨by simp [restoreInputs], Or.inr ?_⟩⟩, rfl⟩
      intro addr l hl
      exact (restoreInputs_spec { s with calls := s.calls ++ [DbCall.RollbackTx blockTx] }
        addr l hl).1

/-- The loop of `processBlock` over the inputs of a transaction leaves `inputsTmp` as it
is, and a return from inside it goes through `errorsCheck`. -/
theorem spendInputs_inv (env : LanEnv) (blockTx : Int) (From : Address)
    (inputs : List TxInput) :
    ∀ s : LanSrv,
      (∀ s1, spendInputs env blockTx From inputs s = .ok s1 → s1.inputsTmp = s.inputsTmp) ∧
      (∀ r, spendInputs env blockTx From inputs s = .error r →
        RolledBack blockTx r ∧ r.2.inputsTmp = s.inputsTmp) := by
  induction inputs with
  | nil =>
    intro s
    rw [spendInputs]
    exact ⟨fun s1 h => by cases h; rfl, fun r h => by cases h⟩
  | cons inp inputs ih =>
    intro s
    rw [spendInputs]
    generalize hr : (if inp.hash = env.genesisTxHash then
        (env.SpendGenesis s.calls blockTx From,
          ({ s with calls := s.calls ++ [DbCall.SpendGenesis blockTx From] } : LanSrv))
      else
        (env.SpendOutputWithTx s.calls blockTx inp.hash inp.index,
          { s with
            calls := s.calls ++ [DbCall.SpendOutputWithTx blockTx inp.hash inp.index] })) = r0
    have htmp : r0.2.inputsTmp = s.inputsTmp := by
      rw [← hr]
      split <;> rfl
    split
    · refine ⟨fun s1 h => (by cases h), fun r h => ?_⟩
      simp only [Except.error.injEq] at h
      rw [← h]
      have := errorsCheck_rolledBack r0.1.1 blockTx r0.1.2 r0.2
      exact ⟨this.1, by rw [this.2, htmp]⟩
    · have key := ih r0.2
      rw [htmp] at key
      exact key

/-- The loop of `processBlock` over the outputs of a transaction leaves `inputsTmp` as
it is, and a return from inside it goes through `errorsCheck`. -/
theorem addOutputs_inv (env : LanEnv) (blockTx : Int) (txHash : Nat)
    (outputs : List TxOutput) :
    ∀ (index : Nat) (s : LanSrv),
      (∀ s1, addOutputs env blockTx txHash outputs index s = .ok s1 →
        s1.inputsTmp = s.inputsTmp) ∧
      (∀ r, addOutputs env blockTx txHash outputs index s = .error r →
        RolledBack blockTx r ∧ r.2.inputsTmp = s.inputsTmp) := by
  induction outputs with
  | nil =>
    intro index s
    rw [addOutputs]
    exact ⟨fun s1 h => by cases h; rfl, fun r h => by cases h⟩
  | cons out outputs ih =>
    intro index s
    rw [addOutputs]
    simp only
    split
    · refine ⟨fun s1 h => (by cases h), fun r h => ?_⟩
      simp only [Except.error.injEq] at h
      rw [← h]
      exact errorsCheck_rolledBack _ blockTx _ _
    · exact ih _ _

/-- The loop of `processBlock` over the transactions of the block leaves `inputsTmp` as
it is, and a return from inside it is a panic or goes through `errorsCheck`. -/
theorem processTxs_inv (env : LanEnv) (blockTx : Int) (txs : List Transaction) :
    ∀ s : LanSrv,
      (∀ s1, processTxs env blockTx txs s = .ok s1 → s1.inputsTmp = s.inputsTmp) ∧
      (∀ r, processTxs env blockTx txs s = .error r →
        RolledBack blockTx r ∧ r.2.inputsTmp = s.inputsTmp) := by
  induction txs with
  | nil =>
    intro s
    rw [processTxs]
    exact ⟨fun s1 h => by cases h; rfl, fun r h => by cases h⟩
  | cons tx txs ih =>
    intro s
    rw [processTxs]
    generalize hsp : (if tx.txType ≠ .Fee then
        match tx.inputs with
        | [] => (Except.error (some (LanErr.panic "index out of range"), s) :
            Except (Option LanErr × LanSrv) LanSrv)
        | first :: _ => spendInputs env blockTx first.address tx.inputs s
        else .ok s) = spent
    have hk : (∀ s1, spent = .ok s1 → s1.inputsTmp = s.inputsTmp) ∧
        (∀ r, spent = .error r → RolledBack blockTx r ∧ r.2.inputsTmp = s.inputsTmp) := by
      rw [← hsp]
      split
      · split
        · refine ⟨fun s1 h => (by cases h), fun r h => ?_⟩
          simp only [Except.error.injEq] at h
          rw [← h]
          exact ⟨⟨_, rfl, Or.inl ⟨_, rfl⟩⟩, rfl⟩
        · exact spendInputs_inv env blockTx _ _ s
      · exact ⟨fun s1 h => by cases h; rfl, fun r h => by cases h⟩
    cases spent with
    | error r0 =>
      simp only
      refine ⟨fun s1 h => (by cases h), fun r h => ?_⟩
      simp only [Except.error.injEq] at h
      rw [← h]
      exact hk.2 r0 rfl
    | ok sA =>
      simp only
      have hA := hk.1 sA rfl
      have hout := addOutputs_inv env blockTx tx.hash tx.outputs 0 sA
      cases hadd : addOutputs env blockTx tx.hash tx.outputs 0 sA with
      | error r1 =>
        simp only
        refine ⟨fun s1 h => (by cases h), fun r h => ?_⟩
        simp only [Except.error.injEq] at h
        rw [← h]
        have := hout.2 r1 hadd
        exact ⟨this.1, by rw [this.2, hA]⟩
      | ok sB =>
        simp only
        have hB := hout.1 sB hadd
        have := ih sB
        rw [hB, hA] at this
        exact this

/-- Every error return of `processBlock`: a panic; or `ErrAffectedRows` after a
rollback, with `inputs` left as they were at that point; or an error after a rollback or
a failed commit, with the inputs restored. -/
theorem processBlock_errors (env : LanEnv) (block : Block) (s : LanSrv) (e : LanErr)
    (h : (processBlock env block s).1 = some e) :
    (∃ msg, e = .panic msg) ∨
    ∃ blockTx, env.CreateTx s.calls = .ok blockTx ∧
      ((DbCall.RollbackTx blockTx ∈ (processBlock env block s).2.calls ∧
          e = .ErrAffectedRows) ∨
        ((DbCall.RollbackTx blockTx ∈ (processBlock env block s).2.calls ∨
            ∃ cs msg, (processBlock env block s).2.calls = cs ++ [DbCall.CommitTx blockTx] ∧
              env.CommitTx cs blockTx = some msg) ∧
          ∀ addr l, s.inputsTmp addr = some l →
            (processBlock env block s).2.inputs addr = some l ∧
            (processBlock env block s).2.inputsTmp addr = some l)) := by
  unfold processBlock at h ⊢
  cases hc : env.CreateTx s.calls with
  | error err =>
    simp only [hc] at h
    simp only [Option.some.injEq] at h
    exact Or.inl ⟨err, h.symm⟩
  | ok blockTx =>
    simp only [hc] at h ⊢
    have hinv := processTxs_inv env blockTx block.transactions
      { s with calls := s.calls ++ [DbCall.CreateTx] }
    cases hp : processTxs env blockTx block.transactions
        { s with calls := s.calls ++ [DbCall.CreateTx] } with
    | error r =>
      simp only [hp] at h ⊢
      obtain ⟨⟨e1, he1, hcase⟩, htmp⟩ := hinv.2 r hp
      rw [he1] at h
      simp only [Option.some.injEq] at h
      subst h
      rcases hcase with hpanic | ⟨hroll, hrest⟩
      · exact Or.inl hpanic
      · refine Or.inr ⟨blockTx, rfl, ?_⟩
        rcases hrest with hrest | hrest
        · exact Or.inl ⟨hroll, hrest⟩
        · refine Or.inr ⟨Or.inl hroll, ?_⟩
          intro addr l hl
          have hl1 : r.2.inputsTmp addr = some l := by
            rw [htmp]
            exact hl
          exact ⟨hrest addr l hl1, hl1⟩
    | ok s1 =>
      simp only [hp] at h ⊢
      have htmp := hinv.1 s1 hp
      cases hcm : env.CommitTx s1.calls blockTx with
      | none =>
        simp only [hcm] at h
        cases h
      | some msg =>
        simp only [hcm] at h ⊢
        refine Or.inr ⟨blockTx, rfl, Or.inr ⟨Or.inr ⟨s1.calls, msg, rfl, hcm⟩, ?_⟩⟩
        intro addr l hl
        have hl1 : s1.inputsTmp addr = some l := by
          rw [htmp]
          exact hl
        exact restoreInputs_spec _ addr l hl1

/-- C29 (code): in the state `pendingSrv` (the inputs of address 1 saved in `inputsTmp`,
its entry of `inputs` emptied) and with a store whose `SpendOutputWithTx` reports no
affected row and an error, `processBlock` on a block holding `demoTransfer` rolls the
index transaction back and returns `ErrAffectedRows`, and `inputs[1]` is still the empty
list, not the list saved in `inputsTmp[1]`.  In general `errorsCheck` restores the inputs
only when the affected-row count is 1, and every error return of `processBlock` is a
panic, or `ErrAffectedRows` after a rollback, or an error after a rollback or a failed
commit with the saved inputs restored: so when it is `CommitTx` that fails on the same
block, the inputs of address 1 are restored. -/
theorem processBlock_not_restored :
    (processBlock failSpendStore transferBlock pendingSrv).1 = some .ErrAffectedRows ∧
    (processBlock failSpendStore transferBlock pendingSrv).2.calls =
      [DbCall.CreateTx, DbCall.SpendOutputWithTx 1 3 0, DbCall.RollbackTx 1] ∧
    pendingSrv.inputsTmp 1 = some [demoSpent] ∧
    (processBlock failSpendStore transferBlock pendingSrv).2.inputsTmp 1 = some [demoSpent] ∧
    (processBlock failSpendStore transferBlock pendingSrv).2.inputs 1 = some [] ∧
    (processBlock failSpendStore transferBlock pendingSrv).2.inputs 1 ≠
      (processBlock failSpendStore transferBlock pendingSrv).2.inputsTmp 1 ∧
    (∀ (arows blockTx : Int) (e : String) (s : LanSrv), arows ≠ 1 →
      errorsCheck arows blockTx (some e) s =
        (some .ErrAffectedRows, { s with calls := s.calls ++ [DbCall.RollbackTx blockTx] })) ∧
    (∀ (env : LanEnv) (block : Block) (s : LanSrv) (e : LanErr),
      (processBlock env block s).1 = some e →
      (∃ msg, e = .panic msg) ∨
      ∃ blockTx, env.CreateTx s.calls = .ok blockTx ∧
        ((DbCall.RollbackTx blockTx ∈ (processBlock env block s).2.calls ∧
            e = .ErrAffectedRows) ∨
          ((DbCall.RollbackTx blockTx ∈ (processBlock env block s).2.calls ∨
              ∃ cs msg,
                (processBlock env block s).2.calls = cs ++ [DbCall.CommitTx blockTx] ∧
                env.CommitTx cs blockTx = some msg) ∧
            ∀ addr l, s.inputsTmp addr = some l →
              (processBlock env block s).2.inputs addr = some l ∧
              (processBlock env block s).2.inputsTmp addr = some l))) ∧
    ((processBlock failCommitStore transferBlock pendingSrv).1 =
        some (.external "commit failed") ∧
      (processBlock failCommitStore transferBlock pendingSrv).2.inputs 1 =
        some [demoSpent]) :=
  ⟨rfl, rfl, rfl, rfl, rfl, by decide,
    fun arows blockTx e s h => (errorsCheck_cases arows blockTx e s).1 h,
    processBlock_errors, rfl, rfl⟩

/-- The `uint64` subtractions of a list of amounts, undone by adding their sum. -/
theorem subU64_foldl {α : Type} (g : α → Nat) (l : List α) (b : Nat) :
    (l.foldl (fun b x => subU64 b (g x)) b + (l.map g).sum) % U64 = b % U64 := by
  induction l generalizing b with
  | nil => simp
  | cons x l ih =>
    rw [List.foldl_cons, List.map_cons, List.sum_cons]
    have h1 := ih (subU64 b (g x))
    have h2 : (subU64 b (g x) + g x) % U64 = b % U64 := by
      simp only [subU64, U64]
      omega
    have h3 : (l.foldl (fun b x => subU64 b (g x)) (subU64 b (g x)) + (g x + (l.map g).sum)) % U64 =
        ((l.foldl (fun b x => subU64 b (g x)) (subU64 b (g x)) + (l.map g).sum) % U64 + g x) % U64 := by
      simp only [U64]
      omega
    rw [h3, h1]
    simp only [U64] at h2 ⊢
    omega

/-- The balance that `validateTx` computes is 0 exactly when the inputs and the outputs
plus the fee agree modulo `2 ^ 64`. -/
theorem txBalance_eq_zero (tx : Transaction) :
    txBalance tx = 0 ↔
      (tx.inputs.map TxInput.amount).sum % U64 =
        ((tx.outputs.map TxOutput.amount).sum + tx.fee) % U64 := by
  have h1 := Miner.feeAmount_foldl TxInput.amount tx.inputs 0 (by decide)
  have h2 := subU64_foldl TxOutput.amount tx.outputs
    (tx.inputs.foldl (fun b inp => (b + inp.amount) % U64) 0)
  rw [h1] at h2
  unfold txBalance
  simp only
  rw [h1]
  generalize tx.outputs.foldl (fun b out => subU64 b out.amount)
    ((0 + (tx.inputs.map TxInput.amount).sum) % U64) = X at h2 ⊢
  generalize (tx.inputs.map TxInput.amount).sum = A at h2 ⊢
  generalize (tx.outputs.map TxOutput.amount).sum = B at h2 ⊢
  simp only [subU64, U64] at h2 ⊢
  omega

/-- C30 (code): `validateTx` accepts `wrapTx`, whose single input of 5 coins is the only
UTXO of its sender and whose outputs `2 ^ 63` and `2 ^ 63` plus the fee 5 exceed the
inputs by `2 ^ 64`; every amount is a 64-bit value.  In general a transaction that
`validateTx` accepts has an input and an output, and its inputs equal its outputs plus
fee modulo `2 ^ 64`; and a transaction passes the balance check of `validateTx` exactly
when they agree modulo `2 ^ 64`. -/
theorem validateTx_accepts_wrapped :
    validateTx fiveStore wrapTx = none ∧
    (wrapTx.inputs.map TxInput.amount).sum = 5 ∧
    (wrapTx.outputs.map TxOutput.amount).sum + wrapTx.fee = 2 ^ 64 + 5 ∧
    (∀ i ∈ wrapTx.inputs, i.amount < U64) ∧ (∀ o ∈ wrapTx.outputs, o.amount < U64) ∧
    wrapTx.fee < U64 ∧
    (∀ (env : LanEnv) (tx : Transaction), validateTx env tx = none →
      tx.inputs ≠ [] ∧ tx.outputs ≠ [] ∧
      (tx.inputs.map TxInput.amount).sum % U64 =
        ((tx.outputs.map TxOutput.amount).sum + tx.fee) % U64) ∧
    (∀ tx : Transaction, txBalance tx = 0 ↔
      (tx.inputs.map TxInput.amount).sum % U64 =
        ((tx.outputs.map TxOutput.amount).sum + tx.fee) % U64) := by
  refine ⟨rfl, rfl, rfl, by decide, by decide, by decide, ?_, txBalance_eq_zero⟩
  intro env tx h
  unfold validateTx at h
  by_cases h1 : tx.inputs.length = 0
  · simp [h1] at h
  by_cases h2 : tx.outputs.length = 0
  · simp [h1, h2] at h
  by_cases h3 : txBalance tx ≠ 0
  · simp [h1, h2, h3] at h
  refine ⟨fun hn => h1 (by rw [hn]; rfl), fun hn => h2 (by rw [hn]; rfl), ?_⟩
  exact (txBalance_eq_zero tx).1 (not_not.1 h3)

end LanSrv
